import Mathlib

/-!
Verification of the in-memory web-of-trust graph engine: the graph store
(`src/graph/store.rs`), the bidirectional BFS (`src/graph/bfs.rs`) and the
query cache (`src/cache.rs`).

Shallow embedding conventions:
* pubkey labels are `String`; vertex ids (`vid`, `u32` in the source) are `Nat`
  (id assignment is sequential and the claims never approach `2^32` vertices,
  so the `as u32` cast in `get_or_create_node` is left implicit);
* `u8`/`u64` arithmetic that can wrap in the source is modelled with an
  explicit `% 2^8` / `% 2^64` at exactly the places the source casts or
  does wrapping arithmetic (release-mode semantics);
* the `DashMap pubkey_to_id` is maintained by the store as the exact inverse
  index of the append-only `id_to_pubkey` vector, so lookups are modelled as
  the position of the label in `id_to_pubkey`;
* Rust `slice::binary_search(&x).is_ok()` on the store's sorted duplicate-free
  lists is membership, `binary_search` + `insert(pos)` is ordered insertion and
  `binary_search` + `remove(pos)` removes the single occurrence; the embedding
  uses the corresponding list functions;
* the `FxHashMap` visited maps of the BFS are modelled as functions
  `Nat → Option (Nat × Nat)`.
-/

namespace Wot

/-- Node metadata recorded by the store (`NodeInfo` in `store.rs`). -/
structure NodeInfo where
  kind3_event_id : Option String
  kind3_created_at : Option Int
deriving DecidableEq

/-- The graph store (`WotGraph` in `store.rs`).  `idToPubkey`, `follows`,
`followers` and `nodeInfo` are the four id-indexed vectors; the
`pubkey_to_id` map is their inverse index and is modelled by `lookupId`. -/
structure WotGraph where
  idToPubkey : List String
  follows : List (List Nat)
  followers : List (List Nat)
  nodeInfo : List (Option NodeInfo)
deriving DecidableEq

/-- `WotGraph::new()`: the empty graph. -/
def WotGraph.new : WotGraph := ⟨[], [], [], []⟩

/-- Position of a label in `id_to_pubkey`; models the `pubkey_to_id` lookup. -/
def lookupId : List String → String → Option Nat
  | [], _ => none
  | p :: ps, pk => if p = pk then some 0 else (lookupId ps pk).map (· + 1)

/-- `WotGraph::get_or_create_node`: return the existing id, or append fresh
empty slots to all four vectors and return the new id. -/
def getOrCreateNode (g : WotGraph) (pubkey : String) : Nat × WotGraph :=
  match lookupId g.idToPubkey pubkey with
  | some id => (id, g)
  | none =>
    (g.idToPubkey.length,
      { idToPubkey := g.idToPubkey ++ [pubkey]
        follows := g.follows ++ [[]]
        followers := g.followers ++ [[]]
        nodeInfo := g.nodeInfo ++ [none] })

/-- Ordered insert keeping one copy, i.e. `binary_search` returning
`Ok(_) => {}` / `Err(pos) => insert(pos, x)` on a sorted list. -/
def insertSorted (x : Nat) : List Nat → List Nat
  | [] => [x]
  | y :: ys =>
    if x < y then x :: y :: ys
    else if x = y then y :: ys
    else y :: insertSorted x ys

/-- Remove the single occurrence, i.e. `binary_search` returning
`Ok(pos) => remove(pos)` on a sorted duplicate-free list. -/
def removeFirst (x : Nat) : List Nat → List Nat
  | [] => []
  | y :: ys => if y = x then ys else y :: removeFirst x ys

/-- `sort_unstable()` followed by `dedup()`: the strictly sorted list of the
elements. -/
def sortDedup (l : List Nat) : List Nat := l.foldr insertSorted []

/-- Apply `f` to the list stored at index `i` (Rust `get_mut` + mutate,
a no-op when the index is out of range). -/
def modifyIdx (f : List Nat → List Nat) : Nat → List (List Nat) → List (List Nat)
  | _, [] => []
  | 0, l :: ls => f l :: ls
  | n + 1, l :: ls => l :: modifyIdx f n ls

/-- `get_or_create_node` over a follow list, left to right, threading the
store state and collecting the ids. -/
def internFollows (g : WotGraph) : List String → List Nat × WotGraph
  | [] => ([], g)
  | pk :: rest =>
    let (i, g') := getOrCreateNode g pk
    let (is, g'') := internFollows g' rest
    (i :: is, g'')

/-- The stale-update guard of `update_follows`: reject only when both the
stored and the incoming `created_at` are present and `new_ts <= existing_ts`. -/
def staleCheck (g : WotGraph) (nodeId : Nat) (createdAt : Option Int) : Bool :=
  match g.nodeInfo.getD nodeId none, createdAt with
  | some info, some newTs =>
    match info.kind3_created_at with
    | some existingTs => decide (newTs ≤ existingTs)
    | none => false
  | _, _ => false

/-- The write phase of `update_follows`: diff the old list against the new
one, apply the follower removals, the `out` replacement and the follower
insertions, then record the metadata. -/
def applyUpdate (g2 : WotGraph) (nodeId : Nat) (newFollowIds : List Nat)
    (eventId : Option String) (createdAt : Option Int) : WotGraph :=
  let oldFollowIds := g2.follows.getD nodeId []
  let toRemove := oldFollowIds.filter (fun i => !(newFollowIds.contains i))
  let toAdd := newFollowIds.filter (fun i => !(oldFollowIds.contains i))
  let followers1 := toRemove.foldl (fun fs u => modifyIdx (removeFirst nodeId) u fs) g2.followers
  let follows1 := g2.follows.set nodeId newFollowIds
  let followers2 := toAdd.foldl (fun fs u => modifyIdx (insertSorted nodeId) u fs) followers1
  let nodeInfo1 := g2.nodeInfo.set nodeId (some ⟨eventId, createdAt⟩)
  { g2 with follows := follows1, followers := followers2, nodeInfo := nodeInfo1 }

/-- `WotGraph::update_follows`: resolve the subject, reject stale events,
intern + sort + dedup the new follow list, then apply the write phase. -/
def updateFollows (g0 : WotGraph) (pubkey : String) (followPubkeys : List String)
    (eventId : Option String) (createdAt : Option Int) : Bool × WotGraph :=
  let p1 := getOrCreateNode g0 pubkey
  let nodeId := p1.1
  let g1 := p1.2
  if staleCheck g1 nodeId createdAt then (false, g1)
  else
    let p2 := internFollows g1 followPubkeys
    (true, applyUpdate p2.2 nodeId (sortDedup p2.1) eventId createdAt)

/-- `WotGraph::resolve_pubkeys_arc`: batch id-to-label resolution, dropping
unknown ids. -/
def resolvePubkeys (g : WotGraph) (ids : List Nat) : List String :=
  ids.filterMap (fun i => g.idToPubkey.get? i)

/-! ### Bidirectional BFS (`src/graph/bfs.rs`) -/

/-- Modulus of the `u64` path-count arithmetic. -/
def U64MOD : Nat := 2 ^ 64

/-- Wrapping `u64` addition (`+=` on the path counters). -/
def u64add (a b : Nat) : Nat := (a + b) % U64MOD

/-- Wrapping `u64` multiplication (`fwd_paths * bwd_paths`). -/
def u64mul (a b : Nat) : Nat := (a * b) % U64MOD

/-- `DistanceQuery`; `max_hops` is a `u8` in the source, so queries carry a
value below 256 and the `as u8` casts in the loop are modelled with `% 256`. -/
structure DistanceQuery where
  fromPk : String
  toPk : String
  maxHops : Nat
  includeBridges : Bool
deriving DecidableEq

/-- `DistanceResult`. -/
structure DistanceResult where
  fromPk : String
  toPk : String
  hops : Option Nat
  pathCount : Nat
  mutualFollow : Bool
  bridges : Option (List String)
deriving DecidableEq

/-- `DistanceResult::not_found`. -/
def DistanceResult.notFound (fromPk toPk : String) : DistanceResult :=
  ⟨fromPk, toPk, none, 0, false, none⟩

/-- `DistanceResult::same_node`. -/
def DistanceResult.sameNode (pubkey : String) : DistanceResult :=
  ⟨pubkey, pubkey, some 0, 1, false, none⟩

/-- Point update of a visited map (`FxHashMap::insert` / in-place entry write). -/
def mapInsert (m : Nat → Option (Nat × Nat)) (k : Nat) (v : Nat × Nat) :
    Nat → Option (Nat × Nat) :=
  fun x => if x = k then some v else m x

/-- The per-query BFS scratch (`BfsState` in the source), with the loop locals
`best_distance` included; `fwd_dist` and `bwd_dist` are threaded through the
loop as arguments. Visited maps carry `(depth, path_count_at_depth)`. -/
structure BfsState where
  fwdVisited : Nat → Option (Nat × Nat)
  fwdCurrent : List Nat
  fwdNext : List Nat
  bwdVisited : Nat → Option (Nat × Nat)
  bwdCurrent : List Nat
  bwdNext : List Nat
  meetingNodes : List (Nat × Nat × Nat)
  bestDistance : Option Nat

/-- The mutable pieces touched while one side expands a level.  The source
duplicates the expansion code for the forward and backward branches; the two
branches are literally symmetric, so the embedding factors them into one
function over the expanding side's data, with `isFwd` fixing the order of the
meeting tuple. -/
structure SideCtx where
  ownVisited : Nat → Option (Nat × Nat)
  ownNext : List Nat
  meeting : List (Nat × Nat × Nat)
  best : Option Nat

/-- The `best_distance` / `meeting_nodes` update performed when a generated
neighbor is found in the opposite side's visited map: a strictly better total
resets the meeting list, a total equal to the best appends an entry. -/
def meetUpdate (isFwd : Bool) (dist dOpp nodePaths pOpp nb : Nat)
    (c : SideCtx) : SideCtx :=
  let total := dist + dOpp
  let c1 :=
    match c.best with
    | none => { c with best := some total, meeting := [] }
    | some b => if total < b then { c with best := some total, meeting := [] } else c
  if c1.best = some total then
    { c1 with meeting := c1.meeting ++
        [if isFwd then (nb, nodePaths, pOpp) else (nb, pOpp, nodePaths)] }
  else c1

/-- The entry-style visited bookkeeping: vacant entries are inserted at the
current depth and pushed to the next frontier; occupied entries at exactly
the current depth accumulate path counts; deeper history is left alone. -/
def entryUpdate (dist nodePaths nb : Nat) (c : SideCtx) : SideCtx :=
  match c.ownVisited nb with
  | none =>
    { c with ownVisited := mapInsert c.ownVisited nb (dist, nodePaths)
             ownNext := c.ownNext ++ [nb] }
  | some (d, p) =>
    if d = dist then
      { c with ownVisited := mapInsert c.ownVisited nb (d, u64add p nodePaths) }
    else c

/-- Body of the inner `for neighbor in ...` loop: meeting detection against
the opposite visited map (with the `include_bridges == false` early exit,
the returned `Bool`, skipping the bookkeeping), then the visited
bookkeeping. -/
def processNeighbor (isFwd includeBridges : Bool) (dist : Nat)
    (oppVisited : Nat → Option (Nat × Nat)) (nodePaths nb : Nat)
    (c : SideCtx) : SideCtx × Bool :=
  match oppVisited nb with
  | none => (entryUpdate dist nodePaths nb c, false)
  | some (dOpp, pOpp) =>
    let c2 := meetUpdate isFwd dist dOpp nodePaths pOpp nb c
    if includeBridges then (entryUpdate dist nodePaths nb c2, false)
    else (c2, true)

/-- Fold `processNeighbor` over a neighbor list, propagating the early exit. -/
def processNeighbors (isFwd includeBridges : Bool) (dist : Nat)
    (oppVisited : Nat → Option (Nat × Nat)) (nodePaths : Nat) :
    List Nat → SideCtx → SideCtx × Bool
  | [], c => (c, false)
  | nb :: rest, c =>
    let r := processNeighbor isFwd includeBridges dist oppVisited nodePaths nb c
    if r.2 then (r.1, true)
    else processNeighbors isFwd includeBridges dist oppVisited nodePaths rest r.1

/-- Body of the `for i in 0..current.len()` loop: read the node's stored path
count and expand its adjacency entry. -/
def processNodes (isFwd includeBridges : Bool) (dist : Nat)
    (oppVisited : Nat → Option (Nat × Nat)) (adj : List (List Nat)) :
    List Nat → SideCtx → SideCtx × Bool
  | [], c => (c, false)
  | node :: rest, c =>
    let nodePaths := ((c.ownVisited node).getD (0, 0)).2
    let r := processNeighbors isFwd includeBridges dist oppVisited nodePaths
      (adj.getD node []) c
    if r.2 then (r.1, true)
    else processNodes isFwd includeBridges dist oppVisited adj rest r.1

/-- The `'outer: while` loop of `bidirectional_bfs`.  The `fuel` argument only
bounds the recursion; `bfsFuel` below always exceeds the iteration count of
the source loop (each iteration increases `fwd_dist + bwd_dist` by one, and
the hop-bound check stops the loop, or — when `max_hops = 255` keeps that
check from ever firing — each iteration consumes a nonempty frontier whose
nodes were each pushed by a distinct vacant insertion, of which there are at
most `sumLens follows + sumLens followers`). -/
def bfsLoop (follows followers : List (List Nat)) (maxHops : Nat)
    (includeBridges : Bool) : Nat → Nat → Nat → BfsState → BfsState
  | 0, _, _, s => s
  | fuel + 1, fwdDist, bwdDist, s =>
    if s.fwdCurrent.isEmpty && s.bwdCurrent.isEmpty then s
    else
      let currentMinPossible := fwdDist + bwdDist
      let stopBest :=
        match s.bestDistance with
        | some best => decide (best ≤ currentMinPossible)
        | none => false
      if stopBest then s
      else if maxHops < currentMinPossible % 256 then s
      else
        let expandForward :=
          if s.fwdCurrent.isEmpty then false
          else if s.bwdCurrent.isEmpty then true
          else s.fwdCurrent.length ≤ s.bwdCurrent.length
        if expandForward then
          let fd := fwdDist + 1
          let c0 : SideCtx := ⟨s.fwdVisited, s.fwdNext, s.meetingNodes, s.bestDistance⟩
          let r := processNodes true includeBridges fd s.bwdVisited follows s.fwdCurrent c0
          let s' := { s with fwdVisited := r.1.ownVisited, fwdNext := r.1.ownNext
                             meetingNodes := r.1.meeting, bestDistance := r.1.best }
          if r.2 then s'
          else bfsLoop follows followers maxHops includeBridges fuel fd bwdDist
            { s' with fwdCurrent := s'.fwdNext, fwdNext := [] }
        else
          let bd := bwdDist + 1
          let c0 : SideCtx := ⟨s.bwdVisited, s.bwdNext, s.meetingNodes, s.bestDistance⟩
          let r := processNodes false includeBridges bd s.fwdVisited followers s.bwdCurrent c0
          let s' := { s with bwdVisited := r.1.ownVisited, bwdNext := r.1.ownNext
                             meetingNodes := r.1.meeting, bestDistance := r.1.best }
          if r.2 then s'
          else bfsLoop follows followers maxHops includeBridges fuel fwdDist bd
            { s' with bwdCurrent := s'.bwdNext, bwdNext := [] }

/-- Keep the first occurrence of each id, in order: the `bridge_set` /
`bridge_ids` deduplication pass over `meeting_nodes`. -/
def dedupFirstAux (seen : List Nat) : List Nat → List Nat
  | [] => []
  | x :: xs =>
    if seen.contains x then dedupFirstAux seen xs
    else x :: dedupFirstAux (x :: seen) xs

/-- Deduplication with no prior ids seen. -/
def dedupFirst : List Nat → List Nat := dedupFirstAux []

/-- The `match best_distance` epilogue of `bidirectional_bfs`: the truncating
`hops as u8 <= max_hops` guard, the wrapping path-count sum over the meeting
entries, and the bridge collection. -/
def bfsFinalize (g : WotGraph) (fromPk toPk : String) (maxHops : Nat)
    (includeBridges mutualFollow : Bool) (s : BfsState) : DistanceResult :=
  match s.bestDistance with
  | some hops =>
    if hops % 256 ≤ maxHops then
      let pathCount := s.meetingNodes.foldl (fun acc m => u64add acc (u64mul m.2.1 m.2.2)) 0
      let bridges :=
        if includeBridges then
          some (resolvePubkeys g (dedupFirst (s.meetingNodes.map (·.1))))
        else none
      { fromPk := fromPk, toPk := toPk, hops := some hops, pathCount := pathCount
        mutualFollow := mutualFollow, bridges := bridges }
    else DistanceResult.notFound fromPk toPk
  | none => DistanceResult.notFound fromPk toPk

/-- Sum of the adjacency list lengths (used for the fuel bound only). -/
def sumLens (adj : List (List Nat)) : Nat := (adj.map List.length).sum

/-- Fuel that strictly exceeds the number of iterations of the source loop. -/
def bfsFuel (follows followers : List (List Nat)) (maxHops : Nat) : Nat :=
  maxHops + sumLens follows + sumLens followers + 4

/-- Seed state: `fwd_visited[from] = (0,1)`, `bwd_visited[to] = (0,1)`. -/
def initialBfsState (fromId toId : Nat) : BfsState :=
  { fwdVisited := mapInsert (fun _ => none) fromId (0, 1)
    fwdCurrent := [fromId], fwdNext := []
    bwdVisited := mapInsert (fun _ => none) toId (0, 1)
    bwdCurrent := [toId], bwdNext := []
    meetingNodes := [], bestDistance := none }

/-- `bidirectional_bfs`: seed, run the loop, finalize. -/
def bidirectionalBfs (g : WotGraph) (q : DistanceQuery) (fromId toId : Nat)
    (mutualFollow : Bool) : DistanceResult :=
  let s := bfsLoop g.follows g.followers q.maxHops q.includeBridges
    (bfsFuel g.follows g.followers q.maxHops) 0 0 (initialBfsState fromId toId)
  bfsFinalize g q.fromPk q.toPk q.maxHops q.includeBridges mutualFollow s

/-- `compute_distance`: same-node fast path, label resolution, mutual-follow
probe, direct-follow shortcut, then the bidirectional BFS.  The
`binary_search(&to).is_ok()` membership test on the store's sorted lists is
modelled as list membership. -/
def computeDistance (g : WotGraph) (q : DistanceQuery) : DistanceResult :=
  if q.fromPk = q.toPk then DistanceResult.sameNode q.fromPk
  else
    match lookupId g.idToPubkey q.fromPk with
    | none => DistanceResult.notFound q.fromPk q.toPk
    | some fromId =>
      match lookupId g.idToPubkey q.toPk with
      | none => DistanceResult.notFound q.fromPk q.toPk
      | some toId =>
        let isDirect := fun (a b : Nat) => (g.follows.getD a []).contains b
        let mutualFollow := isDirect fromId toId && isDirect toId fromId
        if isDirect fromId toId then
          { fromPk := q.fromPk, toPk := q.toPk, hops := some 1, pathCount := 1
            mutualFollow := mutualFollow
            bridges := if q.includeBridges then some [] else none }
        else bidirectionalBfs g q fromId toId mutualFollow

/-! ### Basic lemmas about the store -/

/-- Lengths of the four id-indexed vectors agree (spec data-model invariant 3). -/
def WF (g : WotGraph) : Prop :=
  g.follows.length = g.idToPubkey.length ∧
  g.followers.length = g.idToPubkey.length ∧
  g.nodeInfo.length = g.idToPubkey.length

theorem lookupId_get {l : List String} {pk : String} {i : Nat}
    (h : lookupId l pk = some i) : l.get? i = some pk := by
  induction l generalizing i with
  | nil => simp [lookupId] at h
  | cons p ps ih =>
    by_cases hp : p = pk
    · simp [lookupId, hp] at h
      subst h
      simp [hp]
    · simp [lookupId, hp, Option.map_eq_some'] at h
      obtain ⟨j, hj, rfl⟩ := h
      simpa using ih hj

theorem lookupId_lt_length {l : List String} {pk : String} {i : Nat}
    (h : lookupId l pk = some i) : i < l.length := by
  have := lookupId_get h
  exact List.get?_eq_some.mp this |>.1

theorem lookupId_append_some {l l' : List String} {pk : String} {i : Nat}
    (h : lookupId l pk = some i) : lookupId (l ++ l') pk = some i := by
  induction l generalizing i with
  | nil => simp [lookupId] at h
  | cons p ps ih =>
    by_cases hp : p = pk
    · simp [lookupId, hp] at h ⊢
      omega
    · simp [lookupId, hp, Option.map_eq_some'] at h ⊢
      obtain ⟨j, hj, rfl⟩ := h
      exact ⟨j, ih hj, rfl⟩

theorem lookupId_append_fresh {l : List String} {pk : String}
    (h : lookupId l pk = none) : lookupId (l ++ [pk]) pk = some l.length := by
  induction l with
  | nil => simp [lookupId]
  | cons p ps ih =>
    by_cases hp : p = pk
    · simp [lookupId, hp] at h
    · have hih := ih (by simpa [lookupId, hp] using h)
      simp [lookupId, hp, hih]

theorem getOrCreateNode_lookup (g : WotGraph) (pk : String) :
    lookupId (getOrCreateNode g pk).2.idToPubkey pk = some (getOrCreateNode g pk).1 := by
  unfold getOrCreateNode
  cases h : lookupId g.idToPubkey pk with
  | some i => simpa using h
  | none => simpa using lookupId_append_fresh h

theorem getOrCreateNode_idToPubkey (g : WotGraph) (pk : String) :
    ∃ l, (getOrCreateNode g pk).2.idToPubkey = g.idToPubkey ++ l := by
  unfold getOrCreateNode
  cases h : lookupId g.idToPubkey pk with
  | some i => exact ⟨[], by simp⟩
  | none => exact ⟨[pk], by simp⟩

theorem internFollows_idToPubkey (g : WotGraph) (pks : List String) :
    ∃ l, (internFollows g pks).2.idToPubkey = g.idToPubkey ++ l := by
  induction pks generalizing g with
  | nil => exact ⟨[], by simp [internFollows]⟩
  | cons pk rest ih =>
    obtain ⟨l₁, h₁⟩ := getOrCreateNode_idToPubkey g pk
    obtain ⟨l₂, h₂⟩ := ih (getOrCreateNode g pk).2
    exact ⟨l₁ ++ l₂, by simp [internFollows, h₂, h₁]⟩

theorem WF.getOrCreateNode {g : WotGraph} (h : WF g) (pk : String) :
    WF (getOrCreateNode g pk).2 := by
  obtain ⟨h1, h2, h3⟩ := h
  unfold Wot.getOrCreateNode
  cases hl : lookupId g.idToPubkey pk with
  | some i => exact ⟨h1, h2, h3⟩
  | none => refine ⟨?_, ?_, ?_⟩ <;> simp [h1, h2, h3]

theorem WF.internFollows {g : WotGraph} (h : WF g) (pks : List String) :
    WF (internFollows g pks).2 := by
  induction pks generalizing g with
  | nil => simpa [Wot.internFollows] using h
  | cons pk rest ih => exact ih (h.getOrCreateNode pk)

theorem getOrCreateNode_id_lt {g : WotGraph} (pk : String) :
    (getOrCreateNode g pk).1 < (getOrCreateNode g pk).2.idToPubkey.length := by
  unfold getOrCreateNode
  cases hl : lookupId g.idToPubkey pk with
  | some i => simpa using lookupId_lt_length hl
  | none => simp

theorem staleCheck_noTimestamp (g : WotGraph) (nodeId : Nat) :
    staleCheck g nodeId none = false := by
  unfold staleCheck
  cases g.nodeInfo.getD nodeId none <;> rfl

/-- Both branches of `updateFollows`, exposed as a disjunction. -/
theorem updateFollows_cases (g0 : WotGraph) (pk : String) (F : List String)
    (e : Option String) (ca : Option Int) :
    (staleCheck (getOrCreateNode g0 pk).2 (getOrCreateNode g0 pk).1 ca = true ∧
      updateFollows g0 pk F e ca = (false, (getOrCreateNode g0 pk).2)) ∨
    (staleCheck (getOrCreateNode g0 pk).2 (getOrCreateNode g0 pk).1 ca = false ∧
      updateFollows g0 pk F e ca =
        (true, applyUpdate (internFollows (getOrCreateNode g0 pk).2 F).2
          (getOrCreateNode g0 pk).1
          (sortDedup (internFollows (getOrCreateNode g0 pk).2 F).1) e ca)) := by
  unfold updateFollows
  cases h : staleCheck (getOrCreateNode g0 pk).2 (getOrCreateNode g0 pk).1 ca
  · right
    simp [h]
  · left
    simp [h]

/-! ### Claim C1: the same-node fast path -/

/-- C1, counterexample.  The claim states that a same-node query on a label
never observed by the store returns `hops = none` and `path_count = 0`, and
that after the label is observed the same query returns `bridges = []` when
`include_bridges` is true.  The code's same-node fast path runs before the
label is resolved and always sets `bridges = None`: on the empty graph the
query `(X, X, 5, true)` returns `hops = some 0` and `path_count = 1`, and
after `update_follows(X, [Y])` its `bridges` is still `none`. -/
theorem c1_counterexample :
    (computeDistance WotGraph.new ⟨"X", "X", 5, true⟩).hops = some 0 ∧
    (computeDistance WotGraph.new ⟨"X", "X", 5, true⟩).pathCount = 1 ∧
    (computeDistance (updateFollows WotGraph.new "X" ["Y"] none none).2
      ⟨"X", "X", 5, true⟩).bridges = none :=
  ⟨rfl, rfl, rfl⟩

/-- C1, amended: a query with `from == to` always takes the same-node fast
path and returns `hops = 0`, `path_count = 1`, `mutual_follow = false` and
`bridges = none`, whether or not the label has been observed by the store and
regardless of `include_bridges`. -/
theorem c1_same_node_fast_path (g : WotGraph) (q : DistanceQuery)
    (h : q.fromPk = q.toPk) :
    computeDistance g q = DistanceResult.sameNode q.fromPk := by
  simp [computeDistance, h]

/-- C1, witness for the amended theorem at a concrete query. -/
theorem c1_witness :
    ("X" : String) = "X" ∧
    computeDistance WotGraph.new ⟨"X", "X", 5, true⟩ = DistanceResult.sameNode "X" :=
  ⟨rfl, c1_same_node_fast_path WotGraph.new ⟨"X", "X", 5, true⟩ rfl⟩

/-! ### Claim C4: stale updates are rejected without mutation -/

/-- C4: when vertex `v` has a stored `created_at` timestamp `ts` and
`update_follows(v, F, e, some t)` arrives with `t ≤ ts`, the call returns
`false` and the whole store state — `out[v]`, every `in[]` list and the
stored metadata — is exactly unchanged; equal timestamps count as stale. -/
theorem c4_stale_update_rejected (g : WotGraph) (v : String) (F : List String)
    (e : Option String) (t : Int) (i : Nat) (info : NodeInfo) (ts : Int)
    (hv : lookupId g.idToPubkey v = some i)
    (hinfo : g.nodeInfo.getD i none = some info)
    (hts : info.kind3_created_at = some ts)
    (hle : t ≤ ts) :
    updateFollows g v F e (some t) = (false, g) := by
  have hget : getOrCreateNode g v = (i, g) := by
    unfold getOrCreateNode
    rw [hv]
  have hstale : staleCheck g i (some t) = true := by
    have hinfo' := hinfo
    simp only [List.getD, List.get?_eq_getElem?] at hinfo'
    simp [staleCheck, hinfo', hts, hle]
  rcases updateFollows_cases g v F e (some t) with ⟨_, hres⟩ | ⟨hfalse, _⟩
  · rw [hres, hget]
  · rw [hget] at hfalse
    rw [hstale] at hfalse
    exact absurd hfalse (by decide)

/-- C4, witness: a second update for the same subject with an older timestamp
is rejected and leaves the store unchanged. -/
theorem c4_witness :
    updateFollows (updateFollows WotGraph.new "A" ["B"] none (some 100)).2
      "A" ["C"] none (some 50) =
    (false, (updateFollows WotGraph.new "A" ["B"] none (some 100)).2) :=
  c4_stale_update_rejected _ "A" ["C"] none 50 0 ⟨none, some 100⟩ 100
    (by rfl) (by rfl) (by rfl) (by decide)

/-! ### Claim C10: a missing timestamp never causes rejection -/

theorem staleCheck_true_iff (g : WotGraph) (nodeId : Nat) (ca : Option Int) :
    staleCheck g nodeId ca = true ↔
      ∃ info ets nts, g.nodeInfo.getD nodeId none = some info ∧
        info.kind3_created_at = some ets ∧ ca = some nts ∧ nts ≤ ets := by
  unfold staleCheck
  cases hgd : g.nodeInfo.getD nodeId none with
  | none => cases ca <;> simp
  | some info =>
    cases ca with
    | none => simp
    | some nts =>
      cases hk : info.kind3_created_at with
      | none => simp [hk]
      | some ets => simp [hk]

theorem staleCheck_fresh {g : WotGraph} (pk : String) (ca : Option Int)
    (hwf : g.nodeInfo.length = g.idToPubkey.length) :
    staleCheck
      { idToPubkey := g.idToPubkey ++ [pk]
        follows := g.follows ++ [[]]
        followers := g.followers ++ [[]]
        nodeInfo := g.nodeInfo ++ [none] }
      g.idToPubkey.length ca = false := by
  unfold staleCheck
  have : (g.nodeInfo ++ [(none : Option NodeInfo)]).getD g.idToPubkey.length none = none := by
    rw [List.getD, ← hwf, List.get?_eq_getElem?, List.getElem?_concat_length]
    rfl
  rw [this]

theorem applyUpdate_idToPubkey (g : WotGraph) (nodeId : Nat) (ids : List Nat)
    (e : Option String) (ca : Option Int) :
    (applyUpdate g nodeId ids e ca).idToPubkey = g.idToPubkey := rfl

theorem applyUpdate_nodeInfo (g : WotGraph) (nodeId : Nat) (ids : List Nat)
    (e : Option String) (ca : Option Int) :
    (applyUpdate g nodeId ids e ca).nodeInfo = g.nodeInfo.set nodeId (some ⟨e, ca⟩) := rfl

/-- A `created_at = None` update always takes the apply branch. -/
theorem updateFollows_none_result (g : WotGraph) (pk : String) (F : List String)
    (e : Option String) :
    updateFollows g pk F e none =
      (true, applyUpdate (internFollows (getOrCreateNode g pk).2 F).2
        (getOrCreateNode g pk).1
        (sortDedup (internFollows (getOrCreateNode g pk).2 F).1) e none) := by
  rcases updateFollows_cases g pk F e none with ⟨hstale, _⟩ | ⟨_, hres⟩
  · rw [staleCheck_noTimestamp] at hstale
    exact absurd hstale (by decide)
  · exact hres

/-- After a `created_at = None` update the subject's metadata slot holds
`(event_id, None)`. -/
theorem updateFollows_none_meta (g : WotGraph) (pk : String) (F : List String)
    (e : Option String) (hwf : WF g) :
    ∃ i, lookupId (updateFollows g pk F e none).2.idToPubkey pk = some i ∧
      (updateFollows g pk F e none).2.nodeInfo.get? i = some (some ⟨e, none⟩) := by
  rw [updateFollows_none_result]
  refine ⟨(getOrCreateNode g pk).1, ?_, ?_⟩
  · rw [applyUpdate_idToPubkey]
    obtain ⟨l, hl⟩ := internFollows_idToPubkey (getOrCreateNode g pk).2 F
    rw [hl]
    exact lookupId_append_some (getOrCreateNode_lookup g pk)
  · rw [applyUpdate_nodeInfo]
    have h1 : (getOrCreateNode g pk).1 < (getOrCreateNode g pk).2.idToPubkey.length :=
      getOrCreateNode_id_lt pk
    obtain ⟨l, hl⟩ := internFollows_idToPubkey (getOrCreateNode g pk).2 F
    have hwfg2 : WF (internFollows (getOrCreateNode g pk).2 F).2 :=
      (hwf.getOrCreateNode pk).internFollows F
    have h2 : (getOrCreateNode g pk).2.idToPubkey.length ≤
        (internFollows (getOrCreateNode g pk).2 F).2.idToPubkey.length := by
      rw [hl]
      simp
    have h3 := hwfg2.2.2
    have hlt : (getOrCreateNode g pk).1 <
        (internFollows (getOrCreateNode g pk).2 F).2.nodeInfo.length := by omega
    rw [List.get?_eq_getElem?, List.getElem?_set_eq_of_lt _ hlt]

/-- C10: `update_follows` returns `false` only when the stored and the
incoming `created_at` are both present with the incoming one not newer; a
call with `created_at = None` always applies (returns `true`), overwrites the
stored metadata with `created_at = None`, and therefore no subsequent update
for the same subject — whatever its timestamp — is rejected as stale. -/
theorem c10_none_timestamp_always_applies (g : WotGraph) (pk : String)
    (F : List String) (e : Option String) (ca : Option Int) (hwf : WF g) :
    ((updateFollows g pk F e ca).1 = false →
      ∃ i info ets nts, lookupId g.idToPubkey pk = some i ∧
        g.nodeInfo.getD i none = some info ∧
        info.kind3_created_at = some ets ∧ ca = some nts ∧ nts ≤ ets) ∧
    (updateFollows g pk F e none).1 = true ∧
    (∃ i, lookupId (updateFollows g pk F e none).2.idToPubkey pk = some i ∧
      (updateFollows g pk F e none).2.nodeInfo.get? i = some (some ⟨e, none⟩)) ∧
    (∀ F' e' ca', (updateFollows (updateFollows g pk F e none).2 pk F' e' ca').1 = true) := by
  refine ⟨?_, ?_, updateFollows_none_meta g pk F e hwf, ?_⟩
  · intro hfalse
    rcases updateFollows_cases g pk F e ca with ⟨hstale, _⟩ | ⟨_, hres⟩
    · cases hc : lookupId g.idToPubkey pk with
      | some i =>
        have hget : getOrCreateNode g pk = (i, g) := by
          unfold getOrCreateNode
          rw [hc]
        rw [hget] at hstale
        obtain ⟨info, ets, nts, h1, h2, h3, h4⟩ := (staleCheck_true_iff g i ca).mp hstale
        exact ⟨i, info, ets, nts, rfl, h1, h2, h3, h4⟩
      | none =>
        have hget : getOrCreateNode g pk =
            (g.idToPubkey.length,
              { idToPubkey := g.idToPubkey ++ [pk]
                follows := g.follows ++ [[]]
                followers := g.followers ++ [[]]
                nodeInfo := g.nodeInfo ++ [none] }) := by
          unfold getOrCreateNode
          rw [hc]
        rw [hget] at hstale
        rw [staleCheck_fresh pk ca hwf.2.2] at hstale
        exact absurd hstale (by decide)
    · rw [hres] at hfalse
      exact Bool.noConfusion hfalse
  · rw [updateFollows_none_result]
  · intro F' e' ca'
    obtain ⟨i, hlook, hmeta⟩ := updateFollows_none_meta g pk F e hwf
    rcases updateFollows_cases (updateFollows g pk F e none).2 pk F' e' ca' with
      ⟨hstale, _⟩ | ⟨_, hres⟩
    · have hget : getOrCreateNode (updateFollows g pk F e none).2 pk =
          (i, (updateFollows g pk F e none).2) := by
        unfold getOrCreateNode
        rw [hlook]
      rw [hget] at hstale
      obtain ⟨info, ets, nts, h1, h2, _, _⟩ :=
        (staleCheck_true_iff (updateFollows g pk F e none).2 i ca').mp hstale
      rw [List.getD, List.get?_eq_getElem?] at h1
      rw [List.get?_eq_getElem?] at hmeta
      rw [hmeta] at h1
      simp at h1
      rw [← h1] at h2
      simp at h2
    · rw [hres]

/-- C10, witness for the theorem at a concrete store and update. -/
theorem c10_witness :
    WF WotGraph.new ∧ (updateFollows WotGraph.new "A" ["B"] none none).1 = true :=
  ⟨⟨rfl, rfl, rfl⟩,
    (c10_none_timestamp_always_applies WotGraph.new "A" ["B"] none none
      ⟨rfl, rfl, rfl⟩).2.1⟩

/-! ### List lemmas for the sorted-adjacency operations -/

theorem insertSorted_cons_lt {x y : Nat} (ys : List Nat) (h : x < y) :
    insertSorted x (y :: ys) = x :: y :: ys := by
  show (if x < y then x :: y :: ys else if x = y then y :: ys
    else y :: insertSorted x ys) = _
  simp [h]

theorem insertSorted_cons_eq {x y : Nat} (ys : List Nat) (h : x = y) :
    insertSorted x (y :: ys) = y :: ys := by
  show (if x < y then x :: y :: ys else if x = y then y :: ys
    else y :: insertSorted x ys) = _
  simp [h, show ¬x < y by omega]

theorem insertSorted_cons_gt {x y : Nat} (ys : List Nat) (h1 : ¬x < y)
    (h2 : ¬x = y) : insertSorted x (y :: ys) = y :: insertSorted x ys := by
  show (if x < y then x :: y :: ys else if x = y then y :: ys
    else y :: insertSorted x ys) = _
  simp [h1, h2]

theorem mem_insertSorted {a x : Nat} : ∀ {l : List Nat},
    a ∈ insertSorted x l ↔ a = x ∨ a ∈ l := by
  intro l
  induction l with
  | nil => simp [insertSorted]
  | cons y ys ih =>
    by_cases h1 : x < y
    · rw [insertSorted_cons_lt ys h1]
      simp
    · by_cases h2 : x = y
      · rw [insertSorted_cons_eq ys h2, List.mem_cons]
        subst h2
        tauto
      · simp only [insertSorted_cons_gt ys h1 h2, List.mem_cons, ih]
        tauto

theorem insertSorted_of_lt {x y : Nat} (l : List Nat) (h : x < y) :
    insertSorted x (y :: l) = x :: y :: l := by
  unfold insertSorted
  simp [h]

theorem chain'_insertSorted_cons {x : Nat} : ∀ {l : List Nat} {y : Nat}, y < x →
    (y :: l).Chain' (· < ·) → (y :: insertSorted x l).Chain' (· < ·) := by
  intro l
  induction l with
  | nil =>
    intro y hyx _
    simp [insertSorted]
    exact hyx
  | cons z zs ih =>
    intro y hyx hc
    have hyz : y < z := List.Chain'.rel_head hc
    unfold insertSorted
    by_cases hxz : x < z
    · simp only [if_pos hxz]
      exact List.Chain'.cons hyx (List.Chain'.cons hxz hc.tail)
    · by_cases hxez : x = z
      · simp only [if_neg hxz, if_pos hxez]
        exact hc
      · simp only [if_neg hxz, if_neg hxez]
        exact List.Chain'.cons hyz (ih (by omega) hc.tail)

theorem chain'_insertSorted {x : Nat} : ∀ {l : List Nat},
    l.Chain' (· < ·) → (insertSorted x l).Chain' (· < ·) := by
  intro l
  induction l with
  | nil => intro _; simp [insertSorted]
  | cons y ys _ =>
    intro hc
    unfold insertSorted
    by_cases h1 : x < y
    · simp only [if_pos h1]
      exact List.Chain'.cons h1 hc
    · by_cases h2 : x = y
      · simp [h1, h2, hc]
      · simp only [if_neg h1, if_neg h2]
        exact chain'_insertSorted_cons (by omega) hc

theorem chain'_sortDedup (l : List Nat) : (sortDedup l).Chain' (· < ·) := by
  induction l with
  | nil => simp [sortDedup]
  | cons x xs ih => exact chain'_insertSorted ih

theorem mem_sortDedup {a : Nat} : ∀ {l : List Nat}, a ∈ sortDedup l ↔ a ∈ l := by
  intro l
  induction l with
  | nil => simp [sortDedup]
  | cons x xs ih =>
    show a ∈ insertSorted x (sortDedup xs) ↔ _
    rw [mem_insertSorted]
    simp [ih]

theorem removeFirst_sublist (x : Nat) : ∀ (l : List Nat),
    List.Sublist (removeFirst x l) l := by
  intro l
  induction l with
  | nil => simp [removeFirst]
  | cons y ys ih =>
    unfold removeFirst
    by_cases h : y = x
    · simp only [if_pos h]
      exact List.sublist_cons_self y ys
    · simp only [if_neg h]
      exact List.Sublist.cons₂ y ih

theorem chain'_removeFirst {x : Nat} {l : List Nat} (h : l.Chain' (· < ·)) :
    (removeFirst x l).Chain' (· < ·) := by
  have hp := (List.chain'_iff_pairwise).mp h
  exact (List.chain'_iff_pairwise).mpr (hp.sublist (removeFirst_sublist x l))

theorem mem_removeFirst_of_ne {a x : Nat} (hne : a ≠ x) : ∀ {l : List Nat},
    a ∈ removeFirst x l ↔ a ∈ l := by
  intro l
  induction l with
  | nil => simp [removeFirst]
  | cons y ys ih =>
    unfold removeFirst
    by_cases h : y = x
    · subst h
      simp [Ne.symm hne, ih]
      intro hax
      exact absurd hax hne
    · simp [h, ih]

theorem not_mem_removeFirst {x : Nat} : ∀ {l : List Nat}, l.Nodup →
    x ∉ removeFirst x l := by
  intro l
  induction l with
  | nil => intro _; simp [removeFirst]
  | cons y ys ih =>
    intro hnd
    unfold removeFirst
    by_cases h : y = x
    · subst h
      simp only [if_pos rfl]
      exact (List.nodup_cons.mp hnd).1
    · simp only [if_neg h]
      intro hmem
      rcases List.mem_cons.mp hmem with rfl | hmem
      · exact h rfl
      · exact ih (List.nodup_cons.mp hnd).2 hmem

theorem nodup_of_chain'_lt {l : List Nat} (h : l.Chain' (· < ·)) : l.Nodup := by
  have hp := (List.chain'_iff_pairwise).mp h
  exact hp.imp Nat.ne_of_lt

theorem length_modifyIdx (f : List Nat → List Nat) :
    ∀ (i : Nat) (ls : List (List Nat)), (modifyIdx f i ls).length = ls.length := by
  intro i ls
  induction ls generalizing i with
  | nil => cases i <;> rfl
  | cons l ls ih =>
    cases i with
    | zero => rfl
    | succ n => simp [modifyIdx, ih]

theorem getD_modifyIdx_self (f : List Nat → List Nat) :
    ∀ (i : Nat) (ls : List (List Nat)), i < ls.length →
      (modifyIdx f i ls).getD i [] = f (ls.getD i []) := by
  intro i ls
  induction ls generalizing i with
  | nil => intro h; exact absurd h (by simp)
  | cons l ls ih =>
    intro h
    cases i with
    | zero => rfl
    | succ n =>
      show (modifyIdx f n ls).getD n [] = f (ls.getD n [])
      exact ih n (by simpa using Nat.lt_of_succ_lt_succ h)

theorem getD_modifyIdx_ne (f : List Nat → List Nat) :
    ∀ (i j : Nat) (ls : List (List Nat)), i ≠ j →
      (modifyIdx f i ls).getD j [] = ls.getD j [] := by
  intro i j ls
  induction ls generalizing i j with
  | nil => intro _; cases i <;> rfl
  | cons l ls ih =>
    intro hne
    cases i with
    | zero =>
      cases j with
      | zero => exact absurd rfl hne
      | succ m => rfl
    | succ n =>
      cases j with
      | zero => rfl
      | succ m =>
        show (modifyIdx f n ls).getD m [] = ls.getD m []
        exact ih n m (by omega)

theorem foldModify_length (f : List Nat → List Nat) (ixs : List Nat)
    (fss : List (List Nat)) :
    (ixs.foldl (fun fs u => modifyIdx f u fs) fss).length = fss.length := by
  induction ixs generalizing fss with
  | nil => rfl
  | cons u rest ih =>
    show (rest.foldl _ (modifyIdx f u fss)).length = _
    rw [ih, length_modifyIdx]

theorem foldModify_getD_not_mem (f : List Nat → List Nat) {ixs : List Nat}
    {v : Nat} (hv : v ∉ ixs) (fss : List (List Nat)) :
    (ixs.foldl (fun fs u => modifyIdx f u fs) fss).getD v [] = fss.getD v [] := by
  induction ixs generalizing fss with
  | nil => rfl
  | cons u rest ih =>
    show (rest.foldl _ (modifyIdx f u fss)).getD v [] = _
    rw [ih (fun h => hv (List.mem_cons_of_mem _ h)),
      getD_modifyIdx_ne f u v fss (fun h => hv (h ▸ List.mem_cons_self _ _))]

theorem foldModify_getD_mem (f : List Nat → List Nat) {ixs : List Nat}
    {v : Nat} (hnd : ixs.Nodup) (hv : v ∈ ixs) (fss : List (List Nat))
    (hlen : v < fss.length) :
    (ixs.foldl (fun fs u => modifyIdx f u fs) fss).getD v [] = f (fss.getD v []) := by
  induction ixs generalizing fss with
  | nil => exact absurd hv (by simp)
  | cons u rest ih =>
    show (rest.foldl _ (modifyIdx f u fss)).getD v [] = _
    rcases List.mem_cons.mp hv with rfl | hvr
    · rw [foldModify_getD_not_mem f (List.nodup_cons.mp hnd).1,
        getD_modifyIdx_self f v fss hlen]
    · rw [ih (List.nodup_cons.mp hnd).2 hvr _ (by rwa [length_modifyIdx]),
        getD_modifyIdx_ne f u v fss (fun h => (List.nodup_cons.mp hnd).1 (h ▸ hvr))]

theorem contains_iff_mem {l : List Nat} {a : Nat} : l.contains a = true ↔ a ∈ l :=
  List.elem_iff

theorem getD_set_self {α : Type} {l : List α} {i : Nat} (a d : α)
    (h : i < l.length) : (l.set i a).getD i d = a := by
  rw [List.getD, List.get?_eq_getElem?, List.getElem?_set_eq_of_lt a h]
  rfl

theorem getD_set_ne {α : Type} {l : List α} {i j : Nat} (a d : α)
    (h : i ≠ j) : (l.set i a).getD j d = l.getD j d := by
  rw [List.getD, List.getD, List.get?_eq_getElem?, List.get?_eq_getElem?,
    List.getElem?_set_ne h]

theorem getD_append_nil (l : List (List Nat)) (i : Nat) :
    (l ++ [([] : List Nat)]).getD i [] = l.getD i [] := by
  by_cases h : i < l.length
  · exact List.getD_append l _ [] i h
  · by_cases h2 : i = l.length
    · subst h2
      rw [List.getD_eq_default _ _ (Nat.le_refl _), List.getD,
        List.get?_eq_getElem?, List.getElem?_concat_length]
      rfl
    · rw [List.getD_eq_default, List.getD_eq_default]
      · omega
      · simp
        omega

/-! ### The store invariant (claims C6 and C7) -/

/-- Adjacency well-formedness: right length, every list strictly sorted
ascending, every entry an assigned vid (spec data-model invariants 2–4). -/
def AdjOk (n : Nat) (adj : List (List Nat)) : Prop :=
  adj.length = n ∧
  ∀ i, (adj.getD i []).Chain' (· < ·) ∧ ∀ x ∈ adj.getD i [], x < n

/-- The store invariant: both adjacency structures well-formed, metadata
length in sync, and the out/in duality (spec data-model invariant 1). -/
def Inv (g : WotGraph) : Prop :=
  AdjOk g.idToPubkey.length g.follows ∧
  AdjOk g.idToPubkey.length g.followers ∧
  g.nodeInfo.length = g.idToPubkey.length ∧
  ∀ u v, v ∈ g.follows.getD u [] ↔ u ∈ g.followers.getD v []

theorem inv_new : Inv WotGraph.new := by
  refine ⟨⟨rfl, ?_⟩, ⟨rfl, ?_⟩, rfl, ?_⟩
  · intro i
    constructor
    · cases i <;> simp [WotGraph.new, List.getD]
    · intro x hx
      cases i <;> simp [WotGraph.new, List.getD] at hx
  · intro i
    constructor
    · cases i <;> simp [WotGraph.new, List.getD]
    · intro x hx
      cases i <;> simp [WotGraph.new, List.getD] at hx
  · intro u v
    cases u <;> cases v <;> simp [WotGraph.new, List.getD]

theorem inv_getOrCreateNode {g : WotGraph} (hinv : Inv g) (pk : String) :
    Inv (getOrCreateNode g pk).2 := by
  obtain ⟨⟨hfl, hfp⟩, ⟨hgl, hgp⟩, hni, hdual⟩ := hinv
  unfold getOrCreateNode
  cases hl : lookupId g.idToPubkey pk with
  | some i => exact ⟨⟨hfl, hfp⟩, ⟨hgl, hgp⟩, hni, hdual⟩
  | none =>
    refine ⟨⟨?_, ?_⟩, ⟨?_, ?_⟩, ?_, ?_⟩
    · simp [hfl]
    · intro i
      rw [getD_append_nil]
      refine ⟨(hfp i).1, fun x hx => ?_⟩
      have := (hfp i).2 x hx
      simp
      omega
    · simp [hgl]
    · intro i
      rw [getD_append_nil]
      refine ⟨(hgp i).1, fun x hx => ?_⟩
      have := (hgp i).2 x hx
      simp
      omega
    · simp [hni]
    · intro u v
      rw [getD_append_nil, getD_append_nil]
      exact hdual u v

theorem inv_internFollows {g : WotGraph} (hinv : Inv g) (pks : List String) :
    Inv (internFollows g pks).2 := by
  induction pks generalizing g with
  | nil => exact hinv
  | cons pk rest ih => exact ih (inv_getOrCreateNode hinv pk)

theorem idToPubkey_length_le_internFollows (g : WotGraph) (pks : List String) :
    g.idToPubkey.length ≤ (internFollows g pks).2.idToPubkey.length := by
  obtain ⟨l, hl⟩ := internFollows_idToPubkey g pks
  simp [hl]

theorem internFollows_ids_lt (g : WotGraph) (pks : List String) :
    ∀ x ∈ (internFollows g pks).1, x < (internFollows g pks).2.idToPubkey.length := by
  induction pks generalizing g with
  | nil => intro x hx; simp [internFollows] at hx
  | cons pk rest ih =>
    intro x hx
    have hshape : internFollows g (pk :: rest) =
        ((getOrCreateNode g pk).1 :: (internFollows (getOrCreateNode g pk).2 rest).1,
         (internFollows (getOrCreateNode g pk).2 rest).2) := rfl
    rw [hshape] at hx ⊢
    rcases List.mem_cons.mp hx with rfl | hx
    · exact Nat.lt_of_lt_of_le (getOrCreateNode_id_lt pk)
        (idToPubkey_length_le_internFollows _ rest)
    · exact ih _ x hx

theorem mem_filter_not_contains {l₁ l₂ : List Nat} {x : Nat} :
    x ∈ l₁.filter (fun i => !(l₂.contains i)) ↔ x ∈ l₁ ∧ x ∉ l₂ := by
  rw [List.mem_filter]
  simp

theorem applyUpdate_follows (g2 : WotGraph) (nodeId : Nat) (new : List Nat)
    (e : Option String) (ca : Option Int) :
    (applyUpdate g2 nodeId new e ca).follows = g2.follows.set nodeId new := rfl

theorem applyUpdate_followers (g2 : WotGraph) (nodeId : Nat) (new : List Nat)
    (e : Option String) (ca : Option Int) :
    (applyUpdate g2 nodeId new e ca).followers =
      (new.filter (fun i => !((g2.follows.getD nodeId []).contains i))).foldl
        (fun fs u => modifyIdx (insertSorted nodeId) u fs)
        (((g2.follows.getD nodeId []).filter (fun i => !(new.contains i))).foldl
          (fun fs u => modifyIdx (removeFirst nodeId) u fs) g2.followers) := rfl

theorem inv_applyUpdate {g2 : WotGraph} (hinv : Inv g2) {nodeId : Nat}
    (hnid : nodeId < g2.idToPubkey.length) {new : List Nat}
    (hnew_sorted : new.Chain' (· < ·))
    (hnew_lt : ∀ x ∈ new, x < g2.idToPubkey.length)
    (e : Option String) (ca : Option Int) :
    Inv (applyUpdate g2 nodeId new e ca) := by
  obtain ⟨⟨hfl, hfp⟩, ⟨hgl, hgp⟩, hni, hdual⟩ := hinv
  have hnew_nodup : new.Nodup := nodup_of_chain'_lt hnew_sorted
  have hold_sorted : (g2.follows.getD nodeId []).Chain' (· < ·) := (hfp nodeId).1
  have hold_lt : ∀ x ∈ g2.follows.getD nodeId [], x < g2.idToPubkey.length :=
    (hfp nodeId).2
  have hold_nodup : (g2.follows.getD nodeId []).Nodup := nodup_of_chain'_lt hold_sorted
  have htr_nodup : ((g2.follows.getD nodeId []).filter
      (fun i => !(new.contains i))).Nodup := hold_nodup.filter _
  have hta_nodup : (new.filter
      (fun i => !((g2.follows.getD nodeId []).contains i))).Nodup := hnew_nodup.filter _
  -- pointwise description of the follower vector after the removal pass
  have hF1 : ∀ v, (((g2.follows.getD nodeId []).filter (fun i => !(new.contains i))).foldl
      (fun fs u => modifyIdx (removeFirst nodeId) u fs) g2.followers).getD v [] =
      if v ∈ (g2.follows.getD nodeId []).filter (fun i => !(new.contains i)) then
        removeFirst nodeId (g2.followers.getD v [])
      else g2.followers.getD v [] := by
    intro v
    by_cases hv : v ∈ (g2.follows.getD nodeId []).filter (fun i => !(new.contains i))
    · rw [if_pos hv]
      exact foldModify_getD_mem _ htr_nodup hv _
        (by rw [hgl]; exact hold_lt v (mem_filter_not_contains.mp hv).1)
    · rw [if_neg hv]
      exact foldModify_getD_not_mem _ hv _
  have hF1len : (((g2.follows.getD nodeId []).filter (fun i => !(new.contains i))).foldl
      (fun fs u => modifyIdx (removeFirst nodeId) u fs) g2.followers).length =
      g2.idToPubkey.length := by
    rw [foldModify_length, hgl]
  -- pointwise description after the insertion pass
  have hF2 : ∀ v, (applyUpdate g2 nodeId new e ca).followers.getD v [] =
      if v ∈ new.filter (fun i => !((g2.follows.getD nodeId []).contains i)) then
        insertSorted nodeId
          (if v ∈ (g2.follows.getD nodeId []).filter (fun i => !(new.contains i)) then
            removeFirst nodeId (g2.followers.getD v [])
          else g2.followers.getD v [])
      else
        (if v ∈ (g2.follows.getD nodeId []).filter (fun i => !(new.contains i)) then
          removeFirst nodeId (g2.followers.getD v [])
        else g2.followers.getD v []) := by
    intro v
    rw [applyUpdate_followers]
    by_cases hv : v ∈ new.filter (fun i => !((g2.follows.getD nodeId []).contains i))
    · rw [if_pos hv, foldModify_getD_mem _ hta_nodup hv _
        (by rw [hF1len]; exact hnew_lt v (mem_filter_not_contains.mp hv).1), hF1]
    · rw [if_neg hv, foldModify_getD_not_mem _ hv _, hF1]
  unfold Inv AdjOk
  rw [applyUpdate_idToPubkey]
  refine ⟨⟨?_, ?_⟩, ⟨?_, ?_⟩, ?_, ?_⟩
  · rw [applyUpdate_follows]
    simp [hfl]
  · -- follows lists stay sorted and bounded
    intro i
    rw [applyUpdate_follows]
    by_cases hi : i = nodeId
    · subst hi
      rw [getD_set_self _ _ (by rw [hfl]; exact hnid)]
      exact ⟨hnew_sorted, hnew_lt⟩
    · rw [getD_set_ne _ _ (fun h => hi h.symm)]
      exact hfp i
  · rw [applyUpdate_followers, foldModify_length, hF1len]
  · -- follower lists stay sorted and bounded
    intro v
    rw [hF2]
    have base_sorted : (g2.followers.getD v []).Chain' (· < ·) := (hgp v).1
    have base_lt : ∀ x ∈ g2.followers.getD v [], x < g2.idToPubkey.length := (hgp v).2
    by_cases h1 : v ∈ (g2.follows.getD nodeId []).filter (fun i => !(new.contains i)) <;>
      by_cases h2 : v ∈ new.filter (fun i => !((g2.follows.getD nodeId []).contains i)) <;>
      simp only [h1, h2, if_pos, if_neg, if_true, if_false] <;>
      [skip; skip; skip; skip]
    · refine ⟨chain'_insertSorted (chain'_removeFirst base_sorted), fun x hx => ?_⟩
      rcases mem_insertSorted.mp hx with rfl | hx
      · exact hnid
      · exact base_lt x ((removeFirst_sublist nodeId _).subset hx)
    · refine ⟨chain'_removeFirst base_sorted, fun x hx => ?_⟩
      exact base_lt x ((removeFirst_sublist nodeId _).subset hx)
    · refine ⟨chain'_insertSorted base_sorted, fun x hx => ?_⟩
      rcases mem_insertSorted.mp hx with rfl | hx
      · exact hnid
      · exact base_lt x hx
    · exact ⟨base_sorted, base_lt⟩
  · show (g2.nodeInfo.set nodeId _).length = _
    simp [hni]
  · -- duality
    intro u v
    rw [applyUpdate_follows, hF2]
    have base_dual := hdual u v
    by_cases hu : u = nodeId
    · subst hu
      rw [getD_set_self _ _ (by rw [hfl]; exact hnid)]
      by_cases h2 : v ∈ new.filter (fun i => !((g2.follows.getD u []).contains i))
      · -- newly added follow: both sides true
        rw [if_pos h2]
        have hvnew := (mem_filter_not_contains.mp h2).1
        simp only [hvnew, true_iff]
        exact mem_insertSorted.mpr (Or.inl rfl)
      · rw [if_neg h2]
        by_cases h1 : v ∈ (g2.follows.getD u []).filter (fun i => !(new.contains i))
        · -- removed follow: both sides false
          rw [if_pos h1]
          obtain ⟨hvold, hvnotnew⟩ := mem_filter_not_contains.mp h1
          simp only [hvnotnew, false_iff]
          exact not_mem_removeFirst (nodup_of_chain'_lt (hgp v).1)
        · -- unchanged: v ∈ new ↔ v ∈ old, and old duality applies
          rw [if_neg h1]
          have hiff : v ∈ new ↔ v ∈ g2.follows.getD u [] := by
            constructor
            · intro hv
              by_contra hvo
              exact h2 (mem_filter_not_contains.mpr ⟨hv, hvo⟩)
            · intro hv
              by_contra hvn
              exact h1 (mem_filter_not_contains.mpr ⟨hv, hvn⟩)
          rw [hiff]
          exact hdual u v
    · -- u is not the updated subject: its out-list and its membership in every
      -- follower list are untouched
      rw [getD_set_ne _ _ (fun h => hu h.symm)]
      have hmem_pres : ∀ (cond1 cond2 : Prop) [Decidable cond1] [Decidable cond2],
          (u ∈ if cond2 then insertSorted nodeId
            (if cond1 then removeFirst nodeId (g2.followers.getD v [])
              else g2.followers.getD v [])
          else (if cond1 then removeFirst nodeId (g2.followers.getD v [])
            else g2.followers.getD v [])) ↔ u ∈ g2.followers.getD v [] := by
        intro cond1 cond2 hc1 hc2
        by_cases h2 : cond2
        · rw [if_pos h2]
          by_cases h1 : cond1
          · rw [if_pos h1, mem_insertSorted, mem_removeFirst_of_ne hu]
            simp [hu]
          · rw [if_neg h1, mem_insertSorted]
            simp [hu]
        · rw [if_neg h2]
          by_cases h1 : cond1
          · rw [if_pos h1, mem_removeFirst_of_ne hu]
          · rw [if_neg h1]
      rw [hmem_pres]
      exact hdual u v

theorem inv_updateFollows {g : WotGraph} (hinv : Inv g) (pk : String)
    (F : List String) (e : Option String) (ca : Option Int) :
    Inv (updateFollows g pk F e ca).2 := by
  rcases updateFollows_cases g pk F e ca with ⟨_, hres⟩ | ⟨_, hres⟩
  · rw [hres]
    exact inv_getOrCreateNode hinv pk
  · rw [hres]
    have hinv2 := inv_internFollows (inv_getOrCreateNode hinv pk) F
    apply inv_applyUpdate hinv2
    · exact Nat.lt_of_lt_of_le (getOrCreateNode_id_lt pk)
        (idToPubkey_length_le_internFollows _ F)
    · exact chain'_sortDedup _
    · intro x hx
      exact internFollows_ids_lt _ F x (mem_sortDedup.mp hx)

/-- Store states produced from the empty graph by any interleaving of
`get_or_create_node` and `update_follows`. -/
inductive Reachable : WotGraph → Prop
  | new : Reachable WotGraph.new
  | create (g : WotGraph) (pk : String) : Reachable g →
      Reachable (getOrCreateNode g pk).2
  | update (g : WotGraph) (pk : String) (F : List String) (e : Option String)
      (ca : Option Int) : Reachable g → Reachable (updateFollows g pk F e ca).2

theorem inv_reachable {g : WotGraph} (h : Reachable g) : Inv g := by
  induction h with
  | new => exact inv_new
  | create g pk _ ih => exact inv_getOrCreateNode ih pk
  | update g pk F e ca _ ih => exact inv_updateFollows ih pk F e ca

/-! ### Claims C6 and C7 -/

/-- C6: starting from the empty graph, after any sequence of
`get_or_create_node` and `update_follows` calls, for all vertices `v` and
`u`, `u ∈ out[v]` if and only if `v ∈ in[u]`. -/
theorem c6_out_in_duality {g : WotGraph} (h : Reachable g) :
    ∀ v u, u ∈ g.follows.getD v [] ↔ v ∈ g.followers.getD u [] :=
  fun v u => (inv_reachable h).2.2.2 v u

/-- C6, witness at a concrete reachable store. -/
theorem c6_witness :
    1 ∈ (updateFollows WotGraph.new "A" ["B"] none none).2.follows.getD 0 [] ↔
    0 ∈ (updateFollows WotGraph.new "A" ["B"] none none).2.followers.getD 1 [] :=
  c6_out_in_duality (Reachable.update _ "A" ["B"] none none Reachable.new) 0 1

/-- C7: starting from the empty graph, after any sequence of
`get_or_create_node` and `update_follows` calls, every `out[v]` and every
`in[v]` is strictly sorted ascending and duplicate-free. -/
theorem c7_adjacency_sorted {g : WotGraph} (h : Reachable g) :
    ∀ v, ((g.follows.getD v []).Chain' (· < ·) ∧ (g.follows.getD v []).Nodup) ∧
      ((g.followers.getD v []).Chain' (· < ·) ∧ (g.followers.getD v []).Nodup) := by
  intro v
  have hinv := inv_reachable h
  exact ⟨⟨(hinv.1.2 v).1, nodup_of_chain'_lt (hinv.1.2 v).1⟩,
    ⟨(hinv.2.1.2 v).1, nodup_of_chain'_lt (hinv.2.1.2 v).1⟩⟩

/-- C7, witness at a concrete reachable store with an out-of-order update. -/
theorem c7_witness :
    ((updateFollows WotGraph.new "A" ["C", "B"] none none).2.follows.getD 0
      []).Chain' (· < ·) :=
  ((c7_adjacency_sorted
    (Reachable.update _ "A" ["C", "B"] none none Reachable.new) 0).1).1

/-! ### Query cache (`src/cache.rs`) -/

/-- `CacheKey`: the compact query fingerprint. -/
structure CacheKey where
  from_id : Nat
  to_id : Nat
  max_hops : Nat
  include_bridges : Bool
deriving DecidableEq

/-- `CachedDistance`: the compact cached result, bridges stored as vids. -/
structure CachedDistance where
  hops : Option Nat
  path_count : Nat
  mutual_follow : Bool
  bridge_ids : Option (List Nat)
deriving DecidableEq

/-- `CachedDistance::from_result`: map bridge labels to ids via
`get_node_id`, silently dropping unknown labels (`filter_map`). -/
def CachedDistance.from_result (result : DistanceResult) (g : WotGraph) :
    CachedDistance :=
  { hops := result.hops
    path_count := result.pathCount
    mutual_follow := result.mutualFollow
    bridge_ids := result.bridges.map (fun bridges =>
      bridges.filterMap (fun pubkey => lookupId g.idToPubkey pubkey)) }

/-- `CachedDistance::to_result`: materialize, failing when either endpoint id
no longer resolves, and resolving bridge ids through the graph. -/
def CachedDistance.to_result (c : CachedDistance) (g : WotGraph)
    (fromId toId : Nat) : Option DistanceResult :=
  match g.idToPubkey.get? fromId with
  | none => none
  | some fromPk =>
    match g.idToPubkey.get? toId with
    | none => none
    | some toPk =>
      some { fromPk := fromPk, toPk := toPk, hops := c.hops
             pathCount := c.path_count, mutualFollow := c.mutual_follow
             bridges := c.bridge_ids.map (fun ids => resolvePubkeys g ids) }

/-- First entry stored for a key. -/
def lookupEntry : List (CacheKey × CachedDistance) → CacheKey → Option CachedDistance
  | [], _ => none
  | e :: es, k => if e.1 = k then some e.2 else lookupEntry es k

/-- `QueryCache`.  The inner `moka` cache is third-party code; under the
conditions of the round-trip contract — a read within the TTL with no
intervening eviction or maintenance — it behaves as a key-value map, which is
modelled here as an association list of entries, newest first. -/
structure QueryCache where
  entries : List (CacheKey × CachedDistance)

/-- `QueryCache::insert`: compact the result and store it (replacing any
older entry for the key, which the newest-first lookup realises). -/
def QueryCache.insert (c : QueryCache) (key : CacheKey) (result : DistanceResult)
    (g : WotGraph) : QueryCache :=
  ⟨(key, CachedDistance.from_result result g) :: c.entries⟩

/-- `QueryCache::get`: fetch the compact entry and materialize it through the
graph. -/
def QueryCache.get (c : QueryCache) (key : CacheKey) (g : WotGraph) :
    Option DistanceResult :=
  match lookupEntry c.entries key with
  | none => none
  | some cached => cached.to_result g key.from_id key.to_id

theorem filterMap_lookup_roundTrip (L : List String) :
    ∀ (bs : List String), (∀ l ∈ bs, (lookupId L l).isSome) →
      (bs.filterMap (fun pubkey => lookupId L pubkey)).filterMap
        (fun i => L.get? i) = bs := by
  intro bs
  induction bs with
  | nil => intro _; rfl
  | cons b rest ih =>
    intro h
    obtain ⟨i, hi⟩ := Option.isSome_iff_exists.mp (h b (List.mem_cons_self _ _))
    rw [List.filterMap_cons, hi]
    simp only []
    rw [List.filterMap_cons]
    rw [lookupId_get hi]
    simp only []
    rw [ih (fun l hl => h l (List.mem_cons_of_mem _ hl))]

/-! ### Claim C9: cache round trip -/

/-- C9: when a key's endpoint ids resolve in the graph and every bridge label
of the result is known to the graph, a `get` right after `insert` (within the
TTL, no eviction) returns a result with the same hops, path count, mutual
flag, and the same bridge labels. -/
theorem c9_cache_round_trip (c : QueryCache) (k : CacheKey) (v : DistanceResult)
    (g : WotGraph)
    (hfrom : (g.idToPubkey.get? k.from_id).isSome)
    (hto : (g.idToPubkey.get? k.to_id).isSome)
    (hbr : ∀ bs, v.bridges = some bs → ∀ l ∈ bs, (lookupId g.idToPubkey l).isSome) :
    ∃ r, (QueryCache.insert c k v g).get k g = some r ∧
      r.hops = v.hops ∧ r.pathCount = v.pathCount ∧
      r.mutualFollow = v.mutualFollow ∧ r.bridges = v.bridges := by
  obtain ⟨fromPk, hf⟩ := Option.isSome_iff_exists.mp hfrom
  obtain ⟨toPk, ht⟩ := Option.isSome_iff_exists.mp hto
  have hlook : lookupEntry ((QueryCache.insert c k v g).entries) k =
      some (CachedDistance.from_result v g) := by
    show lookupEntry ((k, CachedDistance.from_result v g) :: c.entries) k = _
    unfold lookupEntry
    simp
  unfold QueryCache.get
  rw [hlook]
  unfold CachedDistance.to_result
  rw [hf, ht]
  refine ⟨_, rfl, rfl, rfl, rfl, ?_⟩
  show (CachedDistance.from_result v g).bridge_ids.map _ = v.bridges
  unfold CachedDistance.from_result
  cases hb : v.bridges with
  | none => rfl
  | some bs =>
    simp only [Option.map_map, Option.map_some']
    show some (resolvePubkeys g (bs.filterMap _)) = _
    unfold resolvePubkeys
    rw [filterMap_lookup_roundTrip g.idToPubkey bs (hbr bs hb)]

/-- C9, witness at a concrete graph, key and result with a bridge label. -/
theorem c9_witness :
    ((QueryCache.insert ⟨[]⟩ ⟨0, 1, 5, true⟩
        ⟨"A", "B", some 2, 1, false, some ["C"]⟩
        (updateFollows WotGraph.new "A" ["B", "C"] none none).2).get
        ⟨0, 1, 5, true⟩
        (updateFollows WotGraph.new "A" ["B", "C"] none none).2).map
      DistanceResult.bridges = some (some ["C"]) := by
  obtain ⟨r, hr, _, _, _, hbr⟩ := c9_cache_round_trip ⟨[]⟩ ⟨0, 1, 5, true⟩
    ⟨"A", "B", some 2, 1, false, some ["C"]⟩
    (updateFollows WotGraph.new "A" ["B", "C"] none none).2
    (by decide) (by decide) (by decide)
  rw [hr, Option.map_some', hbr]

/-! ### Directed walks and distances (specification side) -/

/-- Reachability in exactly `d` hops along `adj`. -/
def reachN (adj : List (List Nat)) : Nat → Nat → Nat → Bool
  | 0, u, v => u = v
  | d + 1, u, v => (adj.getD u []).any (fun w => reachN adj d w v)

/-- A walk from `u` through the successive vertices `ws` (the last of which,
for a nonempty walk, is the endpoint). -/
def WalkFrom (adj : List (List Nat)) : Nat → List Nat → Nat → Prop
  | u, [], v => u = v
  | u, w :: ws, v => w ∈ adj.getD u [] ∧ WalkFrom adj w ws v

/-- `u` is at (shortest-walk) distance exactly `d` from `a`. -/
def LR (adj : List (List Nat)) (a u d : Nat) : Prop :=
  reachN adj d a u = true ∧ ∀ e < d, reachN adj e a u = false

theorem reachN_iff_walk {adj : List (List Nat)} :
    ∀ {d u v : Nat}, reachN adj d u v = true ↔
      ∃ ws : List Nat, ws.length = d ∧ WalkFrom adj u ws v := by
  intro d
  induction d with
  | zero =>
    intro u v
    constructor
    · intro h
      exact ⟨[], rfl, by simpa [reachN] using h⟩
    · rintro ⟨ws, hlen, hw⟩
      rw [List.length_eq_zero.mp hlen] at hw
      simpa [reachN] using hw
  | succ d ih =>
    intro u v
    constructor
    · intro h
      obtain ⟨w, hw, hr⟩ := List.any_eq_true.mp h
      obtain ⟨ws, hlen, hwalk⟩ := ih.mp hr
      exact ⟨w :: ws, by simp [hlen], hw, hwalk⟩
    · rintro ⟨ws, hlen, hw⟩
      cases ws with
      | nil => simp at hlen
      | cons w ws =>
        obtain ⟨hmem, hwalk⟩ := hw
        refine List.any_eq_true.mpr ⟨w, hmem, ih.mpr ⟨ws, ?_, hwalk⟩⟩
        simpa using hlen

theorem walkFrom_append {adj : List (List Nat)} :
    ∀ {ws₁ ws₂ : List Nat} {u v : Nat},
      WalkFrom adj u (ws₁ ++ ws₂) v ↔
      ∃ m, WalkFrom adj u ws₁ m ∧ WalkFrom adj m ws₂ v := by
  intro ws₁
  induction ws₁ with
  | nil =>
    intro ws₂ u v
    constructor
    · intro h
      exact ⟨u, rfl, h⟩
    · rintro ⟨m, hm, h⟩
      cases hm
      exact h
  | cons w ws ih =>
    intro ws₂ u v
    constructor
    · rintro ⟨hmem, h⟩
      obtain ⟨m, h1, h2⟩ := ih.mp h
      exact ⟨m, ⟨hmem, h1⟩, h2⟩
    · rintro ⟨m, ⟨hmem, h1⟩, h2⟩
      exact ⟨hmem, ih.mpr ⟨m, h1, h2⟩⟩

/-- Any witness of reachability in `e` hops yields an exact shortest
distance `d ≤ e`. -/
theorem exists_LR_of_reachN {adj : List (List Nat)} {a u e : Nat}
    (h : reachN adj e a u = true) : ∃ d, d ≤ e ∧ LR adj a u d := by
  induction e using Nat.strong_induction_on with
  | _ e ih =>
    by_cases hmin : ∀ e' < e, reachN adj e' a u = false
    · exact ⟨e, Nat.le_refl e, h, hmin⟩
    · push_neg at hmin
      obtain ⟨e', he', hr⟩ := hmin
      have hr' : reachN adj e' a u = true := by
        cases hv : reachN adj e' a u
        · exact absurd hv hr
        · rfl
      obtain ⟨d, hd, hlr⟩ := ih e' he' hr'
      exact ⟨d, Nat.le_trans hd (Nat.le_of_lt he'), hlr⟩

/-- Last-edge decomposition of exact reachability. -/
theorem reachN_last_edge {adj : List (List Nat)} :
    ∀ {d a b : Nat}, reachN adj (d + 1) a b = true ↔
      ∃ w, reachN adj d a w = true ∧ b ∈ adj.getD w [] := by
  intro d
  induction d with
  | zero =>
    intro a b
    show (adj.getD a []).any _ = true ↔ _
    rw [List.any_eq_true]
    constructor
    · rintro ⟨w, hw, hr⟩
      have : w = b := by simpa [reachN] using hr
      subst this
      exact ⟨a, by simp [reachN], hw⟩
    · rintro ⟨w, hr, hb⟩
      have : a = w := by simpa [reachN] using hr
      subst this
      exact ⟨b, hb, by simp [reachN]⟩
  | succ d ih =>
    intro a b
    show (adj.getD a []).any _ = true ↔ _
    rw [List.any_eq_true]
    constructor
    · rintro ⟨u, hu, hr⟩
      obtain ⟨w, hrw, hb⟩ := ih.mp hr
      refine ⟨w, ?_, hb⟩
      show (adj.getD a []).any _ = true
      exact List.any_eq_true.mpr ⟨u, hu, hrw⟩
    · rintro ⟨w, hrw, hb⟩
      obtain ⟨u, hu, hr⟩ := List.any_eq_true.mp hrw
      exact ⟨u, hu, ih.mpr ⟨w, hr, hb⟩⟩

/-- Under the out/in duality, reachability backwards along `followers`
matches forward reachability along `follows`. -/
theorem reachN_followers_eq {follows followers : List (List Nat)}
    (hdual : ∀ u v, v ∈ follows.getD u [] ↔ u ∈ followers.getD v []) :
    ∀ {d a b : Nat}, reachN followers d b a = reachN follows d a b := by
  intro d
  induction d with
  | zero =>
    intro a b
    show decide (b = a) = decide (a = b)
    simp [eq_comm]
  | succ d ih =>
    intro a b
    have h1 : reachN followers (d + 1) b a = true ↔
        reachN follows (d + 1) a b = true := by
      show (followers.getD b []).any _ = true ↔ _
      rw [List.any_eq_true, reachN_last_edge]
      constructor
      · rintro ⟨w, hw, hr⟩
        exact ⟨w, by rw [← ih]; exact hr, (hdual w b).mpr hw⟩
      · rintro ⟨w, hr, hb⟩
        exact ⟨w, (hdual w b).mp hb, by rw [ih]; exact hr⟩
    cases hv : reachN follows (d + 1) a b
    · cases hv2 : reachN followers (d + 1) b a
      · rfl
      · exact absurd (hv ▸ h1.mp hv2) (by decide)
    · exact h1.mpr hv

theorem reachN_trans {adj : List (List Nat)} {d1 d2 a b c : Nat}
    (h1 : reachN adj d1 a b = true) (h2 : reachN adj d2 b c = true) :
    reachN adj (d1 + d2) a c = true := by
  obtain ⟨ws1, hl1, hw1⟩ := reachN_iff_walk.mp h1
  obtain ⟨ws2, hl2, hw2⟩ := reachN_iff_walk.mp h2
  exact reachN_iff_walk.mpr ⟨ws1 ++ ws2, by simp [hl1, hl2],
    walkFrom_append.mpr ⟨b, hw1, hw2⟩⟩

theorem reachN_snoc {adj : List (List Nat)} {d a p u : Nat}
    (h : reachN adj d a p = true) (hu : u ∈ adj.getD p []) :
    reachN adj (d + 1) a u = true :=
  reachN_last_edge.mpr ⟨p, h, hu⟩

theorem reachN_zero_self (adj : List (List Nat)) (a : Nat) :
    reachN adj 0 a a = true := by simp [reachN]

theorem LR_self (adj : List (List Nat)) (a : Nat) : LR adj a a 0 :=
  ⟨reachN_zero_self adj a, fun e he => absurd he (Nat.not_lt_zero e)⟩

theorem LR_unique {adj : List (List Nat)} {a u d d' : Nat}
    (h : LR adj a u d) (h' : LR adj a u d') : d = d' := by
  rcases Nat.lt_trichotomy d d' with hlt | heq | hgt
  · exact absurd h.1 (by rw [h'.2 d hlt]; decide)
  · exact heq
  · exact absurd h'.1 (by rw [h.2 d' hgt]; decide)

/-- On a shortest walk of length `D`, there is a vertex at exact distance `F`
from the start, still reaching the end in `D - F` steps. -/
theorem exists_level_vertex {adj : List (List Nat)} {a t D F : Nat}
    (hD : LR adj a t D) (hF : F ≤ D) :
    ∃ u, LR adj a u F ∧ reachN adj (D - F) u t = true := by
  obtain ⟨ws, hlen, hw⟩ := reachN_iff_walk.mp hD.1
  have hsplit : ws = ws.take F ++ ws.drop F := (List.take_append_drop F ws).symm
  rw [hsplit] at hw
  obtain ⟨m, hw1, hw2⟩ := walkFrom_append.mp hw
  have hl1 : (ws.take F).length = F := by
    rw [List.length_take, hlen]
    omega
  have hl2 : (ws.drop F).length = D - F := by
    rw [List.length_drop, hlen]
  have hr1 : reachN adj F a m = true := reachN_iff_walk.mpr ⟨_, hl1, hw1⟩
  have hr2 : reachN adj (D - F) m t = true := reachN_iff_walk.mpr ⟨_, hl2, hw2⟩
  refine ⟨m, ⟨hr1, fun e he => ?_⟩, hr2⟩
  cases hre : reachN adj e a m with
  | false => rfl
  | true =>
    have : reachN adj (e + (D - F)) a t = true := reachN_trans hre hr2
    rw [hD.2 (e + (D - F)) (by omega)] at this
    exact Bool.noConfusion this

/-! ### Small-step lemmas about the expansion bodies -/

theorem entryUpdate_best (dist np nb : Nat) (c : SideCtx) :
    (entryUpdate dist np nb c).best = c.best := by
  unfold entryUpdate
  cases c.ownVisited nb with
  | none => rfl
  | some v =>
    obtain ⟨d, p⟩ := v
    by_cases h : d = dist <;> simp [h]

theorem entryUpdate_meeting (dist np nb : Nat) (c : SideCtx) :
    (entryUpdate dist np nb c).meeting = c.meeting := by
  unfold entryUpdate
  cases c.ownVisited nb with
  | none => rfl
  | some v =>
    obtain ⟨d, p⟩ := v
    by_cases h : d = dist <;> simp [h]

theorem entryUpdate_vis_ne (dist np nb : Nat) (c : SideCtx) {u : Nat}
    (h : u ≠ nb) : (entryUpdate dist np nb c).ownVisited u = c.ownVisited u := by
  unfold entryUpdate
  cases c.ownVisited nb with
  | none => simp [mapInsert, h]
  | some v =>
    obtain ⟨d, p⟩ := v
    by_cases hd : d = dist <;> simp [hd, mapInsert, h]

theorem entryUpdate_vis_self_depth (dist np nb : Nat) (c : SideCtx) :
    ((entryUpdate dist np nb c).ownVisited nb).map (·.1) =
      if c.ownVisited nb = none then some dist
      else (c.ownVisited nb).map (·.1) := by
  unfold entryUpdate
  cases hv : c.ownVisited nb with
  | none => simp [mapInsert]
  | some v =>
    obtain ⟨d, p⟩ := v
    by_cases hd : d = dist <;> simp [hd, mapInsert, hv]

theorem entryUpdate_next (dist np nb : Nat) (c : SideCtx) :
    (entryUpdate dist np nb c).ownNext =
      if c.ownVisited nb = none then c.ownNext ++ [nb] else c.ownNext := by
  unfold entryUpdate
  cases hv : c.ownVisited nb with
  | none => simp
  | some v =>
    obtain ⟨d, p⟩ := v
    by_cases hd : d = dist <;> simp [hd, hv]

theorem entryUpdate_vis_isSome (dist np nb : Nat) (c : SideCtx) {u : Nat}
    (h : (c.ownVisited u).isSome) :
    ((entryUpdate dist np nb c).ownVisited u).isSome := by
  by_cases hu : u = nb
  · subst hu
    unfold entryUpdate
    cases hv : c.ownVisited u with
    | none => simp [hv] at h
    | some v =>
      obtain ⟨d, p⟩ := v
      by_cases hd : d = dist <;> simp [hd, mapInsert, hv]
  · rwa [entryUpdate_vis_ne dist np nb c hu]

theorem meetUpdate_vis (isFwd : Bool) (dist dOpp np pOpp nb : Nat) (c : SideCtx) :
    (meetUpdate isFwd dist dOpp np pOpp nb c).ownVisited = c.ownVisited := by
  unfold meetUpdate
  cases hb : c.best with
  | none => rw [if_pos rfl]
  | some b =>
    dsimp only
    by_cases hlt : dist + dOpp < b
    · rw [if_pos hlt, if_pos rfl]
    · rw [if_neg hlt, hb]
      by_cases heq : (some b : Option Nat) = some (dist + dOpp)
      · rw [if_pos heq]
      · rw [if_neg heq]

theorem meetUpdate_next (isFwd : Bool) (dist dOpp np pOpp nb : Nat) (c : SideCtx) :
    (meetUpdate isFwd dist dOpp np pOpp nb c).ownNext = c.ownNext := by
  unfold meetUpdate
  cases hb : c.best with
  | none => rw [if_pos rfl]
  | some b =>
    dsimp only
    by_cases hlt : dist + dOpp < b
    · rw [if_pos hlt, if_pos rfl]
    · rw [if_neg hlt, hb]
      by_cases heq : (some b : Option Nat) = some (dist + dOpp)
      · rw [if_pos heq]
      · rw [if_neg heq]

theorem meetUpdate_best (isFwd : Bool) (dist dOpp np pOpp nb : Nat) (c : SideCtx) :
    (meetUpdate isFwd dist dOpp np pOpp nb c).best = some (dist + dOpp) ∨
    ((meetUpdate isFwd dist dOpp np pOpp nb c).best = c.best ∧
      ∃ b, c.best = some b ∧ b < dist + dOpp) := by
  unfold meetUpdate
  cases hb : c.best with
  | none =>
    left
    rw [if_pos rfl]
  | some b =>
    dsimp only
    by_cases hlt : dist + dOpp < b
    · left
      rw [if_pos hlt, if_pos rfl]
    · by_cases heq : (some b : Option Nat) = some (dist + dOpp)
      · left
        rw [if_neg hlt, hb, if_pos heq]
        show some b = some (dist + dOpp)
        exact heq
      · right
        refine ⟨?_, b, rfl, ?_⟩
        · rw [if_neg hlt]
          simp only [hb]
          rw [if_neg heq]
          exact hb
        · have : b ≠ dist + dOpp := by simpa using heq
          omega

theorem meetUpdate_best_isSome (isFwd : Bool) (dist dOpp np pOpp nb : Nat)
    (c : SideCtx) : ((meetUpdate isFwd dist dOpp np pOpp nb c).best).isSome := by
  rcases meetUpdate_best isFwd dist dOpp np pOpp nb c with h | ⟨h, b, hb, _⟩
  · simp [h]
  · simp [h, hb]

theorem processNeighbor_not_met {isFwd ib : Bool} {dist : Nat}
    {opp : Nat → Option (Nat × Nat)} {np nb : Nat} {c : SideCtx}
    (h : opp nb = none) :
    processNeighbor isFwd ib dist opp np nb c = (entryUpdate dist np nb c, false) := by
  unfold processNeighbor
  rw [h]

theorem processNeighbor_met_true {isFwd : Bool} {dist : Nat}
    {opp : Nat → Option (Nat × Nat)} {np nb dOpp pOpp : Nat} {c : SideCtx}
    (h : opp nb = some (dOpp, pOpp)) :
    processNeighbor isFwd true dist opp np nb c =
      (entryUpdate dist np nb (meetUpdate isFwd dist dOpp np pOpp nb c), false) := by
  unfold processNeighbor
  rw [h]
  rfl

theorem processNeighbor_met_false {isFwd : Bool} {dist : Nat}
    {opp : Nat → Option (Nat × Nat)} {np nb dOpp pOpp : Nat} {c : SideCtx}
    (h : opp nb = some (dOpp, pOpp)) :
    processNeighbor isFwd false dist opp np nb c =
      (meetUpdate isFwd dist dOpp np pOpp nb c, true) := by
  unfold processNeighbor
  rw [h]
  rfl

/-- Depth component of a visited entry. -/
def visDepth (vis : Nat → Option (Nat × Nat)) (u : Nat) : Option Nat :=
  (vis u).map (·.1)

theorem entryUpdate_depth_stable {dist np nb : Nat} {c : SideCtx} {u : Nat}
    {d : Nat} (h : visDepth c.ownVisited u = some d) :
    visDepth (entryUpdate dist np nb c).ownVisited u = some d := by
  by_cases hu : u = nb
  · subst hu
    unfold visDepth at h ⊢
    rw [entryUpdate_vis_self_depth]
    have : c.ownVisited u ≠ none := by
      intro hn
      rw [hn] at h
      simp at h
    rw [if_neg this]
    exact h
  · unfold visDepth at h ⊢
    rw [entryUpdate_vis_ne _ _ _ _ hu]
    exact h

theorem entryUpdate_depth_cases (dist np nb : Nat) (c : SideCtx) (u : Nat) :
    visDepth (entryUpdate dist np nb c).ownVisited u = visDepth c.ownVisited u ∨
      (c.ownVisited u = none ∧
        visDepth (entryUpdate dist np nb c).ownVisited u = some dist ∧ u = nb) := by
  by_cases hu : u = nb
  · subst hu
    by_cases hv : c.ownVisited u = none
    · right
      refine ⟨hv, ?_, rfl⟩
      unfold visDepth
      rw [entryUpdate_vis_self_depth, if_pos hv]
    · left
      unfold visDepth
      rw [entryUpdate_vis_self_depth, if_neg hv]
  · left
    unfold visDepth
    rw [entryUpdate_vis_ne _ _ _ _ hu]

/-! ### Soundness-oriented lemmas about the folds -/

theorem processNeighbors_cons (isFwd ib : Bool) (dist : Nat)
    (opp : Nat → Option (Nat × Nat)) (np nb : Nat) (rest : List Nat)
    (c : SideCtx) :
    processNeighbors isFwd ib dist opp np (nb :: rest) c =
      if (processNeighbor isFwd ib dist opp np nb c).2 then
        ((processNeighbor isFwd ib dist opp np nb c).1, true)
      else processNeighbors isFwd ib dist opp np rest
        (processNeighbor isFwd ib dist opp np nb c).1 := rfl

theorem processNodes_cons (isFwd ib : Bool) (dist : Nat)
    (opp : Nat → Option (Nat × Nat)) (adj : List (List Nat)) (node : Nat)
    (rest : List Nat) (c : SideCtx) :
    processNodes isFwd ib dist opp adj (node :: rest) c =
      if (processNeighbors isFwd ib dist opp (((c.ownVisited node).getD (0, 0)).2)
            (adj.getD node []) c).2 then
        ((processNeighbors isFwd ib dist opp (((c.ownVisited node).getD (0, 0)).2)
            (adj.getD node []) c).1, true)
      else processNodes isFwd ib dist opp adj rest
        (processNeighbors isFwd ib dist opp (((c.ownVisited node).getD (0, 0)).2)
            (adj.getD node []) c).1 := rfl

theorem processNeighbors_cons_not_met {isFwd ib : Bool} {dist : Nat}
    {opp : Nat → Option (Nat × Nat)} {np nb : Nat} {rest : List Nat}
    {c : SideCtx} (hOpp : opp nb = none) :
    processNeighbors isFwd ib dist opp np (nb :: rest) c =
      processNeighbors isFwd ib dist opp np rest (entryUpdate dist np nb c) := by
  rw [processNeighbors_cons, processNeighbor_not_met hOpp]
  rfl

theorem processNeighbors_cons_met_true {isFwd : Bool} {dist : Nat}
    {opp : Nat → Option (Nat × Nat)} {np nb dOpp pOpp : Nat} {rest : List Nat}
    {c : SideCtx} (hOpp : opp nb = some (dOpp, pOpp)) :
    processNeighbors isFwd true dist opp np (nb :: rest) c =
      processNeighbors isFwd true dist opp np rest
        (entryUpdate dist np nb (meetUpdate isFwd dist dOpp np pOpp nb c)) := by
  rw [processNeighbors_cons, processNeighbor_met_true hOpp]
  rfl

theorem processNeighbors_cons_met_false {isFwd : Bool} {dist : Nat}
    {opp : Nat → Option (Nat × Nat)} {np nb dOpp pOpp : Nat} {rest : List Nat}
    {c : SideCtx} (hOpp : opp nb = some (dOpp, pOpp)) :
    processNeighbors isFwd false dist opp np (nb :: rest) c =
      (meetUpdate isFwd dist dOpp np pOpp nb c, true) := by
  rw [processNeighbors_cons, processNeighbor_met_false hOpp]
  rfl

theorem processNeighbors_best_pres {isFwd ib : Bool} {dist : Nat}
    {opp : Nat → Option (Nat × Nat)} {np : Nat} (Q : Option Nat → Prop) :
    ∀ {nbs : List Nat} {c : SideCtx}, Q c.best →
      (∀ nb ∈ nbs, ∀ dOpp cc, opp nb = some (dOpp, cc) → Q (some (dist + dOpp))) →
      Q ((processNeighbors isFwd ib dist opp np nbs c).1.best) := by
  intro nbs
  induction nbs with
  | nil => intro c h _; exact h
  | cons nb rest ih =>
    intro c hQ0 hQmet
    rw [processNeighbors_cons]
    cases hOpp : opp nb with
    | none =>
      rw [processNeighbor_not_met hOpp]
      show Q ((processNeighbors isFwd ib dist opp np rest (entryUpdate dist np nb c)).1.best)
      refine ih ?_ (fun nb' h' dOpp cc ho => hQmet nb' (List.mem_cons_of_mem _ h') dOpp cc ho)
      rw [entryUpdate_best]
      exact hQ0
    | some v =>
      obtain ⟨dOpp, pOpp⟩ := v
      have hQmeet : Q ((meetUpdate isFwd dist dOpp np pOpp nb c).best) := by
        rcases meetUpdate_best isFwd dist dOpp np pOpp nb c with h | ⟨h, _, _, _⟩
        · rw [h]
          exact hQmet nb (List.mem_cons_self _ _) dOpp pOpp hOpp
        · rw [h]
          exact hQ0
      cases ib with
      | true =>
        rw [processNeighbor_met_true hOpp]
        show Q ((processNeighbors isFwd true dist opp np rest
          (entryUpdate dist np nb (meetUpdate isFwd dist dOpp np pOpp nb c))).1.best)
        refine ih ?_ (fun nb' h' dOpp' cc ho => hQmet nb' (List.mem_cons_of_mem _ h') dOpp' cc ho)
        rw [entryUpdate_best]
        exact hQmeet
      | false =>
        rw [processNeighbor_met_false hOpp]
        show Q ((meetUpdate isFwd dist dOpp np pOpp nb c).best)
        exact hQmeet

theorem processNeighbors_isSome_pres {isFwd ib : Bool} {dist : Nat}
    {opp : Nat → Option (Nat × Nat)} {np : Nat} {nbs : List Nat} {c : SideCtx}
    (h : c.best.isSome) :
    ((processNeighbors isFwd ib dist opp np nbs c).1.best).isSome :=
  processNeighbors_best_pres (fun b => b.isSome) h (fun _ _ _ _ _ => rfl)

theorem processNeighbors_met_isSome {isFwd ib : Bool} {dist : Nat}
    {opp : Nat → Option (Nat × Nat)} {np : Nat} :
    ∀ {nbs : List Nat} {c : SideCtx} {m : Nat}, m ∈ nbs → (opp m).isSome →
      ((processNeighbors isFwd ib dist opp np nbs c).1.best).isSome := by
  intro nbs
  induction nbs with
  | nil => intro c m hm _; simp at hm
  | cons nb rest ih =>
    intro c m hm ho
    rw [processNeighbors_cons]
    cases hOpp : opp nb with
    | none =>
      rw [processNeighbor_not_met hOpp]
      rcases List.mem_cons.mp hm with rfl | hm'
      · rw [hOpp] at ho
        simp at ho
      · exact ih hm' ho
    | some v =>
      obtain ⟨dOpp, pOpp⟩ := v
      cases ib with
      | true =>
        rw [processNeighbor_met_true hOpp]
        show (((processNeighbors isFwd true dist opp np rest
          (entryUpdate dist np nb (meetUpdate isFwd dist dOpp np pOpp nb c))).1.best)).isSome
        apply processNeighbors_isSome_pres
        rw [entryUpdate_best]
        exact meetUpdate_best_isSome isFwd dist dOpp np pOpp nb c
      | false =>
        rw [processNeighbor_met_false hOpp]
        exact meetUpdate_best_isSome isFwd dist dOpp np pOpp nb c

theorem processNeighbors_exit_isSome {isFwd ib : Bool} {dist : Nat}
    {opp : Nat → Option (Nat × Nat)} {np : Nat} :
    ∀ {nbs : List Nat} {c : SideCtx},
      (processNeighbors isFwd ib dist opp np nbs c).2 = true →
      ((processNeighbors isFwd ib dist opp np nbs c).1.best).isSome := by
  intro nbs
  induction nbs with
  | nil => intro c h; exact Bool.noConfusion h
  | cons nb rest ih =>
    intro c hexit
    rw [processNeighbors_cons] at hexit ⊢
    cases hOpp : opp nb with
    | none =>
      rw [processNeighbor_not_met hOpp] at hexit ⊢
      exact ih (by exact hexit)
    | some v =>
      obtain ⟨dOpp, pOpp⟩ := v
      cases ib with
      | true =>
        rw [processNeighbor_met_true hOpp]
        show (((processNeighbors isFwd true dist opp np rest
          (entryUpdate dist np nb (meetUpdate isFwd dist dOpp np pOpp nb c))).1.best)).isSome
        apply processNeighbors_isSome_pres
        rw [entryUpdate_best]
        exact meetUpdate_best_isSome isFwd dist dOpp np pOpp nb c
      | false =>
        rw [processNeighbor_met_false hOpp]
        exact meetUpdate_best_isSome isFwd dist dOpp np pOpp nb c

theorem processNeighbors_depth_stable {isFwd ib : Bool} {dist : Nat}
    {opp : Nat → Option (Nat × Nat)} {np : Nat} :
    ∀ {nbs : List Nat} {c : SideCtx} {u d : Nat},
      visDepth c.ownVisited u = some d →
      visDepth ((processNeighbors isFwd ib dist opp np nbs c).1.ownVisited) u = some d := by
  intro nbs
  induction nbs with
  | nil => intro c u d h; exact h
  | cons nb rest ih =>
    intro c u d h
    rw [processNeighbors_cons]
    cases hOpp : opp nb with
    | none =>
      rw [processNeighbor_not_met hOpp]
      exact ih (entryUpdate_depth_stable h)
    | some v =>
      obtain ⟨dOpp, pOpp⟩ := v
      cases ib with
      | true =>
        rw [processNeighbor_met_true hOpp]
        show visDepth ((processNeighbors isFwd true dist opp np rest
          (entryUpdate dist np nb (meetUpdate isFwd dist dOpp np pOpp nb c))).1.ownVisited) u =
          some d
        apply ih
        apply entryUpdate_depth_stable
        unfold visDepth
        rw [meetUpdate_vis]
        exact h
      | false =>
        rw [processNeighbor_met_false hOpp]
        show visDepth ((meetUpdate isFwd dist dOpp np pOpp nb c).ownVisited) u = some d
        unfold visDepth
        rw [meetUpdate_vis]
        exact h

theorem processNeighbors_vis_incl {isFwd ib : Bool} {dist : Nat}
    {opp : Nat → Option (Nat × Nat)} {np : Nat} :
    ∀ {nbs : List Nat} {c : SideCtx} (u : Nat),
      visDepth ((processNeighbors isFwd ib dist opp np nbs c).1.ownVisited) u =
        visDepth c.ownVisited u ∨
      (c.ownVisited u = none ∧
        visDepth ((processNeighbors isFwd ib dist opp np nbs c).1.ownVisited) u =
          some dist ∧ u ∈ nbs) := by
  intro nbs
  induction nbs with
  | nil => intro c u; left; rfl
  | cons nb rest ih =>
    intro c u
    have step : ∀ (c1 : SideCtx), c1.ownVisited = c.ownVisited →
        visDepth ((entryUpdate dist np nb c1).ownVisited) u = visDepth c.ownVisited u ∨
        (c.ownVisited u = none ∧
          visDepth ((entryUpdate dist np nb c1).ownVisited) u = some dist ∧ u = nb) := by
      intro c1 hc1
      rcases entryUpdate_depth_cases dist np nb c1 u with h | ⟨h1, h2, h3⟩
      · left
        rw [h]
        unfold visDepth
        rw [hc1]
      · right
        exact ⟨hc1 ▸ h1, h2, h3⟩
    have tail : ∀ (c1 : SideCtx), c1.ownVisited = c.ownVisited →
        visDepth ((processNeighbors isFwd ib dist opp np rest
            (entryUpdate dist np nb c1)).1.ownVisited) u = visDepth c.ownVisited u ∨
        (c.ownVisited u = none ∧
          visDepth ((processNeighbors isFwd ib dist opp np rest
            (entryUpdate dist np nb c1)).1.ownVisited) u = some dist ∧ u ∈ nb :: rest) := by
      intro c1 hc1
      rcases ih (c := entryUpdate dist np nb c1) u with h | ⟨h1, h2, h3⟩
      · rcases step c1 hc1 with h' | ⟨h1', h2', h3'⟩
        · left
          rw [h, h']
        · right
          rw [h]
          exact ⟨h1', h2', h3' ▸ List.mem_cons_self _ _⟩
      · right
        refine ⟨?_, h2, List.mem_cons_of_mem _ h3⟩
        by_contra hc
        have hsome : ((entryUpdate dist np nb c1).ownVisited u).isSome := by
          apply entryUpdate_vis_isSome
          rw [hc1]
          cases hv : c.ownVisited u
          · exact absurd hv hc
          · simp
        rw [h1] at hsome
        simp at hsome
    cases hOpp : opp nb with
    | none =>
      rw [processNeighbors_cons_not_met hOpp]
      exact tail c rfl
    | some v =>
      obtain ⟨dOpp, pOpp⟩ := v
      cases ib with
      | true =>
        rw [processNeighbors_cons_met_true hOpp]
        exact tail _ (meetUpdate_vis isFwd dist dOpp np pOpp nb c)
      | false =>
        rw [processNeighbors_cons_met_false hOpp]
        left
        show visDepth ((meetUpdate isFwd dist dOpp np pOpp nb c).ownVisited) u = _
        unfold visDepth
        rw [meetUpdate_vis]

theorem processNeighbors_next_incl {isFwd ib : Bool} {dist : Nat}
    {opp : Nat → Option (Nat × Nat)} {np : Nat} :
    ∀ {nbs : List Nat} {c : SideCtx} {u : Nat},
      u ∈ (processNeighbors isFwd ib dist opp np nbs c).1.ownNext →
      u ∈ c.ownNext ∨
        visDepth ((processNeighbors isFwd ib dist opp np nbs c).1.ownVisited) u =
          some dist := by
  intro nbs
  induction nbs with
  | nil => intro c u h; exact Or.inl h
  | cons nb rest ih =>
    intro c u
    have tail : ∀ (c1 : SideCtx), c1.ownVisited = c.ownVisited →
        c1.ownNext = c.ownNext →
        u ∈ (processNeighbors isFwd ib dist opp np rest
          (entryUpdate dist np nb c1)).1.ownNext →
        u ∈ c.ownNext ∨
          visDepth ((processNeighbors isFwd ib dist opp np rest
            (entryUpdate dist np nb c1)).1.ownVisited) u = some dist := by
      intro c1 hv hn hmem
      rcases ih hmem with h | h
      · rw [entryUpdate_next] at h
        by_cases hnb : c1.ownVisited nb = none
        · rw [if_pos hnb, hn] at h
          rcases List.mem_append.mp h with h' | h'
          · exact Or.inl h'
          · right
            have : visDepth (entryUpdate dist np nb c1).ownVisited nb = some dist := by
              unfold visDepth
              rw [entryUpdate_vis_self_depth, if_pos hnb]
            have hu : u = nb := by simpa using h'
            subst hu
            exact processNeighbors_depth_stable this
        · rw [if_neg hnb, hn] at h
          exact Or.inl h
      · exact Or.inr h
    cases hOpp : opp nb with
    | none =>
      rw [processNeighbors_cons_not_met hOpp]
      exact tail c rfl rfl
    | some v =>
      obtain ⟨dOpp, pOpp⟩ := v
      cases ib with
      | true =>
        rw [processNeighbors_cons_met_true hOpp]
        exact tail _ (meetUpdate_vis isFwd dist dOpp np pOpp nb c)
          (meetUpdate_next isFwd dist dOpp np pOpp nb c)
      | false =>
        rw [processNeighbors_cons_met_false hOpp]
        intro h
        rw [show ((meetUpdate isFwd dist dOpp np pOpp nb c, true) :
          SideCtx × Bool).1.ownNext = c.ownNext from meetUpdate_next _ _ _ _ _ _ _] at h
        exact Or.inl h

theorem processNeighbors_vis_isSome_pres {isFwd ib : Bool} {dist : Nat}
    {opp : Nat → Option (Nat × Nat)} {np : Nat} {nbs : List Nat} {c : SideCtx}
    {u : Nat} (h : (c.ownVisited u).isSome) :
    (((processNeighbors isFwd ib dist opp np nbs c).1.ownVisited) u).isSome := by
  obtain ⟨⟨d, cc⟩, hd⟩ := Option.isSome_iff_exists.mp h
  have hdep : visDepth c.ownVisited u = some d := by
    unfold visDepth
    rw [hd]
    rfl
  have hdep2 := @processNeighbors_depth_stable isFwd ib dist opp np nbs c u d hdep
  unfold visDepth at hdep2
  cases hv : (processNeighbors isFwd ib dist opp np nbs c).1.ownVisited u with
  | none =>
    rw [hv] at hdep2
    simp at hdep2
  | some _ => rfl

/-! ### The `processNodes` level -/

theorem processNodes_cons_exit {isFwd ib : Bool} {dist : Nat}
    {opp : Nat → Option (Nat × Nat)} {adj : List (List Nat)} {node : Nat}
    {rest : List Nat} {c : SideCtx}
    (hex : (processNeighbors isFwd ib dist opp (((c.ownVisited node).getD (0, 0)).2)
      (adj.getD node []) c).2 = true) :
    processNodes isFwd ib dist opp adj (node :: rest) c =
      ((processNeighbors isFwd ib dist opp (((c.ownVisited node).getD (0, 0)).2)
        (adj.getD node []) c).1, true) := by
  rw [processNodes_cons, if_pos hex]

theorem processNodes_cons_cont {isFwd ib : Bool} {dist : Nat}
    {opp : Nat → Option (Nat × Nat)} {adj : List (List Nat)} {node : Nat}
    {rest : List Nat} {c : SideCtx}
    (hex : (processNeighbors isFwd ib dist opp (((c.ownVisited node).getD (0, 0)).2)
      (adj.getD node []) c).2 = false) :
    processNodes isFwd ib dist opp adj (node :: rest) c =
      processNodes isFwd ib dist opp adj rest
        (processNeighbors isFwd ib dist opp (((c.ownVisited node).getD (0, 0)).2)
          (adj.getD node []) c).1 := by
  rw [processNodes_cons, if_neg (fun h => Bool.noConfusion (hex ▸ h))]

theorem processNodes_best_pres {isFwd ib : Bool} {dist : Nat}
    {opp : Nat → Option (Nat × Nat)} {adj : List (List Nat)}
    (Q : Option Nat → Prop) :
    ∀ {nodes : List Nat} {c : SideCtx}, Q c.best →
      (∀ nb dOpp cc, (∃ p ∈ nodes, nb ∈ adj.getD p []) →
        opp nb = some (dOpp, cc) → Q (some (dist + dOpp))) →
      Q ((processNodes isFwd ib dist opp adj nodes c).1.best) := by
  intro nodes
  induction nodes with
  | nil => intro c h _; exact h
  | cons node rest ih =>
    intro c hQ0 hQmet
    have hcall := @processNeighbors_best_pres isFwd ib dist opp
      (((c.ownVisited node).getD (0, 0)).2) Q (adj.getD node []) c hQ0
      (fun nb h' dOpp cc ho => hQmet nb dOpp cc ⟨node, List.mem_cons_self _ _, h'⟩ ho)
    cases hex : (processNeighbors isFwd ib dist opp (((c.ownVisited node).getD (0, 0)).2)
      (adj.getD node []) c).2 with
    | true =>
      rw [processNodes_cons_exit hex]
      exact hcall
    | false =>
      rw [processNodes_cons_cont hex]
      exact ih hcall (fun nb dOpp cc ⟨p, hp, hnb⟩ ho =>
        hQmet nb dOpp cc ⟨p, List.mem_cons_of_mem _ hp, hnb⟩ ho)

theorem processNodes_isSome_pres {isFwd ib : Bool} {dist : Nat}
    {opp : Nat → Option (Nat × Nat)} {adj : List (List Nat)}
    {nodes : List Nat} {c : SideCtx} (h : c.best.isSome) :
    ((processNodes isFwd ib dist opp adj nodes c).1.best).isSome :=
  processNodes_best_pres (fun b => b.isSome) h (fun _ _ _ _ _ => rfl)

theorem processNodes_met_isSome {isFwd ib : Bool} {dist : Nat}
    {opp : Nat → Option (Nat × Nat)} {adj : List (List Nat)} :
    ∀ {nodes : List Nat} {c : SideCtx} {p m : Nat}, p ∈ nodes →
      m ∈ adj.getD p [] → (opp m).isSome →
      ((processNodes isFwd ib dist opp adj nodes c).1.best).isSome := by
  intro nodes
  induction nodes with
  | nil => intro c p m hp _ _; simp at hp
  | cons node rest ih =>
    intro c p m hp hm ho
    cases hex : (processNeighbors isFwd ib dist opp (((c.ownVisited node).getD (0, 0)).2)
      (adj.getD node []) c).2 with
    | true =>
      rw [processNodes_cons_exit hex]
      exact processNeighbors_exit_isSome hex
    | false =>
      rw [processNodes_cons_cont hex]
      rcases List.mem_cons.mp hp with rfl | hp'
      · exact processNodes_isSome_pres (processNeighbors_met_isSome hm ho)
      · exact ih hp' hm ho

theorem processNodes_exit_isSome {isFwd ib : Bool} {dist : Nat}
    {opp : Nat → Option (Nat × Nat)} {adj : List (List Nat)} :
    ∀ {nodes : List Nat} {c : SideCtx},
      (processNodes isFwd ib dist opp adj nodes c).2 = true →
      ((processNodes isFwd ib dist opp adj nodes c).1.best).isSome := by
  intro nodes
  induction nodes with
  | nil => intro c h; exact Bool.noConfusion h
  | cons node rest ih =>
    intro c hexit
    cases hex : (processNeighbors isFwd ib dist opp (((c.ownVisited node).getD (0, 0)).2)
      (adj.getD node []) c).2 with
    | true =>
      rw [processNodes_cons_exit hex]
      exact processNeighbors_exit_isSome hex
    | false =>
      rw [processNodes_cons_cont hex] at hexit ⊢
      exact ih hexit

theorem processNodes_depth_stable {isFwd ib : Bool} {dist : Nat}
    {opp : Nat → Option (Nat × Nat)} {adj : List (List Nat)} :
    ∀ {nodes : List Nat} {c : SideCtx} {u d : Nat},
      visDepth c.ownVisited u = some d →
      visDepth ((processNodes isFwd ib dist opp adj nodes c).1.ownVisited) u = some d := by
  intro nodes
  induction nodes with
  | nil => intro c u d h; exact h
  | cons node rest ih =>
    intro c u d h
    cases hex : (processNeighbors isFwd ib dist opp (((c.ownVisited node).getD (0, 0)).2)
      (adj.getD node []) c).2 with
    | true =>
      rw [processNodes_cons_exit hex]
      exact processNeighbors_depth_stable h
    | false =>
      rw [processNodes_cons_cont hex]
      exact ih (processNeighbors_depth_stable h)

theorem processNodes_vis_incl {isFwd ib : Bool} {dist : Nat}
    {opp : Nat → Option (Nat × Nat)} {adj : List (List Nat)} :
    ∀ {nodes : List Nat} {c : SideCtx} (u : Nat),
      visDepth ((processNodes isFwd ib dist opp adj nodes c).1.ownVisited) u =
        visDepth c.ownVisited u ∨
      (c.ownVisited u = none ∧
        visDepth ((processNodes isFwd ib dist opp adj nodes c).1.ownVisited) u =
          some dist ∧ ∃ p ∈ nodes, u ∈ adj.getD p []) := by
  intro nodes
  induction nodes with
  | nil => intro c u; left; rfl
  | cons node rest ih =>
    intro c u
    cases hex : (processNeighbors isFwd ib dist opp (((c.ownVisited node).getD (0, 0)).2)
      (adj.getD node []) c).2 with
    | true =>
      rw [processNodes_cons_exit hex]
      rcases @processNeighbors_vis_incl isFwd ib dist opp
        (((c.ownVisited node).getD (0, 0)).2) (adj.getD node []) c u with
        h | ⟨h1, h2, h3⟩
      · exact Or.inl h
      · exact Or.inr ⟨h1, h2, node, List.mem_cons_self _ _, h3⟩
    | false =>
      rw [processNodes_cons_cont hex]
      rcases ih (c := (processNeighbors isFwd ib dist opp
        (((c.ownVisited node).getD (0, 0)).2) (adj.getD node []) c).1) u with
        h | ⟨h1, h2, h3⟩
      · rcases @processNeighbors_vis_incl isFwd ib dist opp
          (((c.ownVisited node).getD (0, 0)).2) (adj.getD node []) c u with
          h' | ⟨h1', h2', h3'⟩
        · left
          rw [h, h']
        · right
          rw [h]
          exact ⟨h1', h2', node, List.mem_cons_self _ _, h3'⟩
      · right
        obtain ⟨p, hp, hu⟩ := h3
        refine ⟨?_, h2, p, List.mem_cons_of_mem _ hp, hu⟩
        by_contra hc
        have hsome : (((processNeighbors isFwd ib dist opp
            (((c.ownVisited node).getD (0, 0)).2) (adj.getD node []) c).1.ownVisited)
            u).isSome := by
          apply processNeighbors_vis_isSome_pres
          cases hv : c.ownVisited u
          · exact absurd hv hc
          · simp
        rw [h1] at hsome
        simp at hsome

/-- The pure visited/frontier effect of expanding one neighbor list when no
meeting occurs. -/
def entryFold (dist np : Nat) (nbs : List Nat) (c : SideCtx) : SideCtx :=
  nbs.foldl (fun cc nb => entryUpdate dist np nb cc) c

/-- The pure effect of expanding a whole level when no meeting occurs. -/
def expandPure (dist : Nat) (adj : List (List Nat)) (nodes : List Nat)
    (c : SideCtx) : SideCtx :=
  nodes.foldl (fun cc node =>
    entryFold dist (((cc.ownVisited node).getD (0, 0)).2) (adj.getD node []) cc) c

theorem processNeighbors_nomeet {isFwd ib : Bool} {dist : Nat}
    {opp : Nat → Option (Nat × Nat)} {np : Nat} :
    ∀ {nbs : List Nat} {c : SideCtx}, (∀ nb ∈ nbs, opp nb = none) →
      processNeighbors isFwd ib dist opp np nbs c = (entryFold dist np nbs c, false) := by
  intro nbs
  induction nbs with
  | nil => intro c _; rfl
  | cons nb rest ih =>
    intro c hnm
    rw [processNeighbors_cons_not_met (hnm nb (List.mem_cons_self _ _)),
      ih (fun nb' h' => hnm nb' (List.mem_cons_of_mem _ h'))]
    rfl

theorem processNodes_nomeet {isFwd ib : Bool} {dist : Nat}
    {opp : Nat → Option (Nat × Nat)} {adj : List (List Nat)} :
    ∀ {nodes : List Nat} {c : SideCtx},
      (∀ p ∈ nodes, ∀ nb ∈ adj.getD p [], opp nb = none) →
      processNodes isFwd ib dist opp adj nodes c =
        (expandPure dist adj nodes c, false) := by
  intro nodes
  induction nodes with
  | nil => intro c _; rfl
  | cons node rest ih =>
    intro c hnm
    have hcall := @processNeighbors_nomeet isFwd ib dist opp
      (((c.ownVisited node).getD (0, 0)).2) (adj.getD node []) c
      (hnm node (List.mem_cons_self _ _))
    have hex : (processNeighbors isFwd ib dist opp (((c.ownVisited node).getD (0, 0)).2)
        (adj.getD node []) c).2 = false := by rw [hcall]
    rw [processNodes_cons_cont hex, hcall]
    show processNodes isFwd ib dist opp adj rest (entryFold _ _ _ c) = _
    rw [ih (fun p hp nb hnb => hnm p (List.mem_cons_of_mem _ hp) nb hnb)]
    rfl

/-! ### Properties of the pure expansion folds -/

theorem entryFold_best (dist np : Nat) (nbs : List Nat) (c : SideCtx) :
    (entryFold dist np nbs c).best = c.best := by
  induction nbs generalizing c with
  | nil => rfl
  | cons nb rest ih =>
    show (entryFold dist np rest (entryUpdate dist np nb c)).best = _
    rw [ih, entryUpdate_best]

theorem entryFold_meeting (dist np : Nat) (nbs : List Nat) (c : SideCtx) :
    (entryFold dist np nbs c).meeting = c.meeting := by
  induction nbs generalizing c with
  | nil => rfl
  | cons nb rest ih =>
    show (entryFold dist np rest (entryUpdate dist np nb c)).meeting = _
    rw [ih, entryUpdate_meeting]

theorem entryFold_depth_stable {dist np : Nat} {nbs : List Nat} {c : SideCtx}
    {u d : Nat} (h : visDepth c.ownVisited u = some d) :
    visDepth (entryFold dist np nbs c).ownVisited u = some d := by
  induction nbs generalizing c with
  | nil => exact h
  | cons nb rest ih =>
    show visDepth (entryFold dist np rest (entryUpdate dist np nb c)).ownVisited u = _
    exact ih (entryUpdate_depth_stable h)

theorem entryFold_next_mono {dist np : Nat} {nbs : List Nat} {c : SideCtx}
    {u : Nat} (h : u ∈ c.ownNext) : u ∈ (entryFold dist np nbs c).ownNext := by
  induction nbs generalizing c with
  | nil => exact h
  | cons nb rest ih =>
    show u ∈ (entryFold dist np rest (entryUpdate dist np nb c)).ownNext
    apply ih
    rw [entryUpdate_next]
    by_cases hv : c.ownVisited nb = none
    · rw [if_pos hv]
      exact List.mem_append_left _ h
    · rwa [if_neg hv]

theorem entryFold_new_visited {dist np : Nat} :
    ∀ {nbs : List Nat} {c : SideCtx} {u : Nat}, c.ownVisited u = none → u ∈ nbs →
      visDepth (entryFold dist np nbs c).ownVisited u = some dist ∧
      u ∈ (entryFold dist np nbs c).ownNext := by
  intro nbs
  induction nbs with
  | nil => intro c u _ h; simp at h
  | cons nb rest ih =>
    intro c u hv hmem
    show visDepth (entryFold dist np rest (entryUpdate dist np nb c)).ownVisited u =
        some dist ∧ u ∈ (entryFold dist np rest (entryUpdate dist np nb c)).ownNext
    rcases List.mem_cons.mp hmem with rfl | hmem'
    · have hdep : visDepth (entryUpdate dist np u c).ownVisited u = some dist := by
        unfold visDepth
        rw [entryUpdate_vis_self_depth, if_pos hv]
      have hnxt : u ∈ (entryUpdate dist np u c).ownNext := by
        rw [entryUpdate_next, if_pos hv]
        exact List.mem_append_right _ (List.mem_singleton.mpr rfl)
      exact ⟨entryFold_depth_stable hdep, entryFold_next_mono hnxt⟩
    · by_cases hnb : u = nb
      · subst hnb
        have hdep : visDepth (entryUpdate dist np u c).ownVisited u = some dist := by
          unfold visDepth
          rw [entryUpdate_vis_self_depth, if_pos hv]
        have hnxt : u ∈ (entryUpdate dist np u c).ownNext := by
          rw [entryUpdate_next, if_pos hv]
          exact List.mem_append_right _ (List.mem_singleton.mpr rfl)
        exact ⟨entryFold_depth_stable hdep, entryFold_next_mono hnxt⟩
      · have hv' : (entryUpdate dist np nb c).ownVisited u = none := by
          rw [entryUpdate_vis_ne _ _ _ _ hnb]
          exact hv
        exact ih hv' hmem'

theorem entryFold_nodup_next {dist np : Nat} :
    ∀ {nbs : List Nat} {c : SideCtx},
      c.ownNext.Nodup → (∀ u ∈ c.ownNext, (c.ownVisited u).isSome) →
      (entryFold dist np nbs c).ownNext.Nodup ∧
        ∀ u ∈ (entryFold dist np nbs c).ownNext,
          ((entryFold dist np nbs c).ownVisited u).isSome := by
  intro nbs
  induction nbs with
  | nil => intro c h1 h2; exact ⟨h1, h2⟩
  | cons nb rest ih =>
    intro c h1 h2
    show (entryFold dist np rest (entryUpdate dist np nb c)).ownNext.Nodup ∧ _
    apply ih
    · rw [entryUpdate_next]
      by_cases hv : c.ownVisited nb = none
      · rw [if_pos hv]
        apply List.Nodup.append h1 (List.nodup_singleton nb)
        intro u hu hnb
        have := h2 u hu
        rw [List.mem_singleton.mp hnb, hv] at this
        simp at this
      · rwa [if_neg hv]
    · intro u hu
      rw [entryUpdate_next] at hu
      by_cases hv : c.ownVisited nb = none
      · rw [if_pos hv] at hu
        rcases List.mem_append.mp hu with h' | h'
        · exact entryUpdate_vis_isSome _ _ _ _ (h2 u h')
        · have : u = nb := List.mem_singleton.mp h'
          subst this
          unfold entryUpdate
          rw [hv]
          simp [mapInsert]
      · rw [if_neg hv] at hu
        exact entryUpdate_vis_isSome _ _ _ _ (h2 u hu)

theorem entryFold_vis_not_mem {dist np : Nat} :
    ∀ {nbs : List Nat} {c : SideCtx} {u : Nat}, u ∉ nbs →
      (entryFold dist np nbs c).ownVisited u = c.ownVisited u := by
  intro nbs
  induction nbs with
  | nil => intro c u _; rfl
  | cons nb rest ih =>
    intro c u hu
    show (entryFold dist np rest (entryUpdate dist np nb c)).ownVisited u = _
    rw [ih (fun h => hu (List.mem_cons_of_mem _ h)),
      entryUpdate_vis_ne _ _ _ _ (fun h => hu (by rw [h]; exact List.mem_cons_self _ _))]

theorem expandPure_best (dist : Nat) (adj : List (List Nat)) (nodes : List Nat)
    (c : SideCtx) : (expandPure dist adj nodes c).best = c.best := by
  induction nodes generalizing c with
  | nil => rfl
  | cons node rest ih =>
    show (expandPure dist adj rest (entryFold _ _ _ c)).best = _
    rw [ih, entryFold_best]

theorem expandPure_meeting (dist : Nat) (adj : List (List Nat)) (nodes : List Nat)
    (c : SideCtx) : (expandPure dist adj nodes c).meeting = c.meeting := by
  induction nodes generalizing c with
  | nil => rfl
  | cons node rest ih =>
    show (expandPure dist adj rest (entryFold _ _ _ c)).meeting = _
    rw [ih, entryFold_meeting]

theorem expandPure_depth_stable {dist : Nat} {adj : List (List Nat)} :
    ∀ {nodes : List Nat} {c : SideCtx} {u d : Nat},
      visDepth c.ownVisited u = some d →
      visDepth (expandPure dist adj nodes c).ownVisited u = some d := by
  intro nodes
  induction nodes with
  | nil => intro c u d h; exact h
  | cons node rest ih =>
    intro c u d h
    exact ih (entryFold_depth_stable h)

theorem expandPure_next_mono {dist : Nat} {adj : List (List Nat)} :
    ∀ {nodes : List Nat} {c : SideCtx} {u : Nat}, u ∈ c.ownNext →
      u ∈ (expandPure dist adj nodes c).ownNext := by
  intro nodes
  induction nodes with
  | nil => intro c u h; exact h
  | cons node rest ih =>
    intro c u h
    exact ih (entryFold_next_mono h)

theorem expandPure_new_visited {dist : Nat} {adj : List (List Nat)} :
    ∀ {nodes : List Nat} {c : SideCtx} {u : Nat}, c.ownVisited u = none →
      (∃ p ∈ nodes, u ∈ adj.getD p []) →
      visDepth (expandPure dist adj nodes c).ownVisited u = some dist ∧
      u ∈ (expandPure dist adj nodes c).ownNext := by
  intro nodes
  induction nodes with
  | nil =>
    intro c u _ h
    obtain ⟨p, hp, _⟩ := h
    simp at hp
  | cons node rest ih =>
    intro c u hv hgen
    by_cases hmem : u ∈ adj.getD node []
    · have hnew := @entryFold_new_visited dist
        (((c.ownVisited node).getD (0, 0)).2) (adj.getD node []) c u hv hmem
      constructor
      · show visDepth (expandPure dist adj rest (entryFold dist
          (((c.ownVisited node).getD (0, 0)).2) (adj.getD node []) c)).ownVisited u =
          some dist
        exact expandPure_depth_stable hnew.1
      · show u ∈ (expandPure dist adj rest (entryFold dist
          (((c.ownVisited node).getD (0, 0)).2) (adj.getD node []) c)).ownNext
        exact expandPure_next_mono hnew.2
    · obtain ⟨p, hp, hup⟩ := hgen
      rcases List.mem_cons.mp hp with rfl | hp'
      · exact absurd hup hmem
      · have hv' : (entryFold dist (((c.ownVisited node).getD (0, 0)).2)
            (adj.getD node []) c).ownVisited u = none := by
          rw [entryFold_vis_not_mem hmem]
          exact hv
        exact ih hv' ⟨p, hp', hup⟩

theorem expandPure_nodup_next {dist : Nat} {adj : List (List Nat)} :
    ∀ {nodes : List Nat} {c : SideCtx},
      c.ownNext.Nodup → (∀ u ∈ c.ownNext, (c.ownVisited u).isSome) →
      (expandPure dist adj nodes c).ownNext.Nodup ∧
        ∀ u ∈ (expandPure dist adj nodes c).ownNext,
          ((expandPure dist adj nodes c).ownVisited u).isSome := by
  intro nodes
  induction nodes with
  | nil => intro c h1 h2; exact ⟨h1, h2⟩
  | cons node rest ih =>
    intro c h1 h2
    have := @entryFold_nodup_next dist
      (((c.ownVisited node).getD (0, 0)).2) (adj.getD node []) c h1 h2
    exact ih this.1 this.2

/-! ### Loop equations -/

theorem bfsLoop_zero (follows followers : List (List Nat)) (maxHops : Nat)
    (ib : Bool) (F B : Nat) (st : BfsState) :
    bfsLoop follows followers maxHops ib 0 F B st = st := rfl

theorem bfsLoop_empty {follows followers : List (List Nat)} {maxHops : Nat}
    {ib : Bool} {fuel F B : Nat} {st : BfsState}
    (h : (st.fwdCurrent.isEmpty && st.bwdCurrent.isEmpty) = true) :
    bfsLoop follows followers maxHops ib (fuel + 1) F B st = st := by
  unfold bfsLoop
  rw [if_pos h]

theorem bfsLoop_stopBest {follows followers : List (List Nat)} {maxHops : Nat}
    {ib : Bool} {fuel F B : Nat} {st : BfsState} {Db : Nat}
    (hbs : st.bestDistance = some Db) (hle : Db ≤ F + B) :
    bfsLoop follows followers maxHops ib (fuel + 1) F B st = st := by
  unfold bfsLoop
  by_cases h : (st.fwdCurrent.isEmpty && st.bwdCurrent.isEmpty) = true
  · rw [if_pos h]
  · rw [if_neg h]
    dsimp only
    rw [hbs]
    rw [if_pos (by simpa using hle)]

theorem bfsLoop_hopStop {follows followers : List (List Nat)} {maxHops : Nat}
    {ib : Bool} {fuel F B : Nat} {st : BfsState}
    (hbn : st.bestDistance = none) (hhop : maxHops < (F + B) % 256) :
    bfsLoop follows followers maxHops ib (fuel + 1) F B st = st := by
  unfold bfsLoop
  by_cases h : (st.fwdCurrent.isEmpty && st.bwdCurrent.isEmpty) = true
  · rw [if_pos h]
  · rw [if_neg h]
    dsimp only
    rw [hbn]
    rw [if_neg (fun h => Bool.noConfusion h), if_pos hhop]

theorem bfsLoop_expand_fwd {follows followers : List (List Nat)} {maxHops : Nat}
    {ib : Bool} {fuel F B : Nat} {st : BfsState}
    (hne : ¬((st.fwdCurrent.isEmpty && st.bwdCurrent.isEmpty) = true))
    (hbn : (match st.bestDistance with
            | some best => decide (best ≤ F + B)
            | none => false) = false)
    (hhop : ¬(maxHops < (F + B) % 256))
    (hef : (if st.fwdCurrent.isEmpty then false
            else if st.bwdCurrent.isEmpty then true
            else decide (st.fwdCurrent.length ≤ st.bwdCurrent.length)) = true) :
    bfsLoop follows followers maxHops ib (fuel + 1) F B st =
      (if (processNodes true ib (F + 1) st.bwdVisited follows st.fwdCurrent
            ⟨st.fwdVisited, st.fwdNext, st.meetingNodes, st.bestDistance⟩).2 then
        { st with
          fwdVisited := (processNodes true ib (F + 1) st.bwdVisited follows st.fwdCurrent
            ⟨st.fwdVisited, st.fwdNext, st.meetingNodes, st.bestDistance⟩).1.ownVisited
          fwdNext := (processNodes true ib (F + 1) st.bwdVisited follows st.fwdCurrent
            ⟨st.fwdVisited, st.fwdNext, st.meetingNodes, st.bestDistance⟩).1.ownNext
          meetingNodes := (processNodes true ib (F + 1) st.bwdVisited follows st.fwdCurrent
            ⟨st.fwdVisited, st.fwdNext, st.meetingNodes, st.bestDistance⟩).1.meeting
          bestDistance := (processNodes true ib (F + 1) st.bwdVisited follows st.fwdCurrent
            ⟨st.fwdVisited, st.fwdNext, st.meetingNodes, st.bestDistance⟩).1.best }
      else
        bfsLoop follows followers maxHops ib fuel (F + 1) B
          { st with
            fwdVisited := (processNodes true ib (F + 1) st.bwdVisited follows st.fwdCurrent
              ⟨st.fwdVisited, st.fwdNext, st.meetingNodes, st.bestDistance⟩).1.ownVisited
            fwdCurrent := (processNodes true ib (F + 1) st.bwdVisited follows st.fwdCurrent
              ⟨st.fwdVisited, st.fwdNext, st.meetingNodes, st.bestDistance⟩).1.ownNext
            fwdNext := []
            meetingNodes := (processNodes true ib (F + 1) st.bwdVisited follows st.fwdCurrent
              ⟨st.fwdVisited, st.fwdNext, st.meetingNodes, st.bestDistance⟩).1.meeting
            bestDistance := (processNodes true ib (F + 1) st.bwdVisited follows st.fwdCurrent
              ⟨st.fwdVisited, st.fwdNext, st.meetingNodes, st.bestDistance⟩).1.best }) := by
  conv_lhs => rw [bfsLoop]
  rw [if_neg hne]
  dsimp only
  rw [if_neg (fun h => Bool.noConfusion (hbn ▸ h)), if_neg hhop, if_pos hef]

theorem bfsLoop_expand_bwd {follows followers : List (List Nat)} {maxHops : Nat}
    {ib : Bool} {fuel F B : Nat} {st : BfsState}
    (hne : ¬((st.fwdCurrent.isEmpty && st.bwdCurrent.isEmpty) = true))
    (hbn : (match st.bestDistance with
            | some best => decide (best ≤ F + B)
            | none => false) = false)
    (hhop : ¬(maxHops < (F + B) % 256))
    (hef : (if st.fwdCurrent.isEmpty then false
            else if st.bwdCurrent.isEmpty then true
            else decide (st.fwdCurrent.length ≤ st.bwdCurrent.length)) = false) :
    bfsLoop follows followers maxHops ib (fuel + 1) F B st =
      (if (processNodes false ib (B + 1) st.fwdVisited followers st.bwdCurrent
            ⟨st.bwdVisited, st.bwdNext, st.meetingNodes, st.bestDistance⟩).2 then
        { st with
          bwdVisited := (processNodes false ib (B + 1) st.fwdVisited followers st.bwdCurrent
            ⟨st.bwdVisited, st.bwdNext, st.meetingNodes, st.bestDistance⟩).1.ownVisited
          bwdNext := (processNodes false ib (B + 1) st.fwdVisited followers st.bwdCurrent
            ⟨st.bwdVisited, st.bwdNext, st.meetingNodes, st.bestDistance⟩).1.ownNext
          meetingNodes := (processNodes false ib (B + 1) st.fwdVisited followers st.bwdCurrent
            ⟨st.bwdVisited, st.bwdNext, st.meetingNodes, st.bestDistance⟩).1.meeting
          bestDistance := (processNodes false ib (B + 1) st.fwdVisited followers st.bwdCurrent
            ⟨st.bwdVisited, st.bwdNext, st.meetingNodes, st.bestDistance⟩).1.best }
      else
        bfsLoop follows followers maxHops ib fuel F (B + 1)
          { st with
            bwdVisited := (processNodes false ib (B + 1) st.fwdVisited followers st.bwdCurrent
              ⟨st.bwdVisited, st.bwdNext, st.meetingNodes, st.bestDistance⟩).1.ownVisited
            bwdCurrent := (processNodes false ib (B + 1) st.fwdVisited followers st.bwdCurrent
              ⟨st.bwdVisited, st.bwdNext, st.meetingNodes, st.bestDistance⟩).1.ownNext
            bwdNext := []
            meetingNodes := (processNodes false ib (B + 1) st.fwdVisited followers st.bwdCurrent
              ⟨st.bwdVisited, st.bwdNext, st.meetingNodes, st.bestDistance⟩).1.meeting
            bestDistance := (processNodes false ib (B + 1) st.fwdVisited followers st.bwdCurrent
              ⟨st.bwdVisited, st.bwdNext, st.meetingNodes, st.bestDistance⟩).1.best }) := by
  conv_lhs => rw [bfsLoop]
  rw [if_neg hne]
  dsimp only
  rw [if_neg (fun h => Bool.noConfusion (hbn ▸ h)), if_neg hhop, if_neg
    (fun h => Bool.noConfusion (hef ▸ h))]

theorem processNodes_next_incl {isFwd ib : Bool} {dist : Nat}
    {opp : Nat → Option (Nat × Nat)} {adj : List (List Nat)} :
    ∀ {nodes : List Nat} {c : SideCtx} {u : Nat},
      u ∈ (processNodes isFwd ib dist opp adj nodes c).1.ownNext →
      u ∈ c.ownNext ∨
        visDepth ((processNodes isFwd ib dist opp adj nodes c).1.ownVisited) u =
          some dist := by
  intro nodes
  induction nodes with
  | nil => intro c u h; exact Or.inl h
  | cons node rest ih =>
    intro c u h
    cases hex : (processNeighbors isFwd ib dist opp (((c.ownVisited node).getD (0, 0)).2)
      (adj.getD node []) c).2 with
    | true =>
      rw [processNodes_cons_exit hex] at h ⊢
      exact processNeighbors_next_incl h
    | false =>
      rw [processNodes_cons_cont hex] at h ⊢
      rcases ih h with h' | h'
      · rcases processNeighbors_next_incl h' with h'' | h''
        · exact Or.inl h''
        · exact Or.inr (processNodes_depth_stable h'')
      · exact Or.inr h'

/-! ### Loop invariants for the bidirectional BFS -/

theorem visDepth_some {vis : Nat → Option (Nat × Nat)} {u d p : Nat}
    (h : vis u = some (d, p)) : visDepth vis u = some d := by
  unfold visDepth
  rw [h]
  rfl

theorem visDepth_isSome {vis : Nat → Option (Nat × Nat)} {u d : Nat}
    (h : visDepth vis u = some d) : (vis u).isSome := by
  unfold visDepth at h
  cases hv : vis u with
  | none =>
    rw [hv] at h
    exact Option.noConfusion h
  | some v => rfl

theorem reachN_one_iff {adj : List (List Nat)} {a b : Nat} :
    reachN adj 1 a b = true ↔ b ∈ adj.getD a [] := by
  show (adj.getD a []).any (fun w => reachN adj 0 w b) = true ↔ _
  rw [List.any_eq_true]
  constructor
  · rintro ⟨w, hw, hr⟩
    have : w = b := by simpa [reachN] using hr
    subst this
    exact hw
  · intro h
    exact ⟨b, h, by simp [reachN]⟩

/-- A vertex at exact distance `lvl + 1` has a predecessor at exact
distance `lvl`. -/
theorem LR_succ_pred {adj : List (List Nat)} {root u lvl : Nat}
    (h : LR adj root u (lvl + 1)) :
    ∃ w, LR adj root w lvl ∧ u ∈ adj.getD w [] := by
  obtain ⟨w, hrw, hu⟩ := reachN_last_edge.mp h.1
  obtain ⟨d, hd, hLw⟩ := exists_LR_of_reachN hrw
  have hdeq : d = lvl := by
    by_contra hne
    have hr : reachN adj (d + 1) root u = true := reachN_snoc hLw.1 hu
    rw [h.2 (d + 1) (by omega)] at hr
    exact Bool.noConfusion hr
  subst hdeq
  exact ⟨w, hLw, hu⟩

/-- Soundness-grade per-side invariant: every visited entry records a walk
of exactly its depth from the side's root, depths never exceed the side's
current level, and the frontier sits exactly at the current level. -/
def SideSound (adj : List (List Nat)) (root lvl : Nat)
    (vis : Nat → Option (Nat × Nat)) (cur : List Nat) : Prop :=
  (∀ u d, visDepth vis u = some d → reachN adj d root u = true ∧ d ≤ lvl) ∧
  (∀ u, u ∈ cur → visDepth vis u = some lvl)

/-- Completeness-grade per-side invariant: visited entries are exact BFS
levels, every vertex within the current level is recorded at its exact
level, and the frontier is exactly the current level set. -/
def SideOk (adj : List (List Nat)) (root lvl : Nat)
    (vis : Nat → Option (Nat × Nat)) (cur : List Nat) : Prop :=
  (∀ u d, visDepth vis u = some d → LR adj root u d ∧ d ≤ lvl) ∧
  (∀ u d, d ≤ lvl → LR adj root u d → visDepth vis u = some d) ∧
  (∀ u, u ∈ cur ↔ LR adj root u lvl)

theorem sideOk_sound {adj : List (List Nat)} {root lvl : Nat}
    {vis : Nat → Option (Nat × Nat)} {cur : List Nat}
    (h : SideOk adj root lvl vis cur) : SideSound adj root lvl vis cur :=
  ⟨fun u d hd => ⟨(h.1 u d hd).1.1, (h.1 u d hd).2⟩,
   fun u hu => h.2.1 u lvl (Nat.le_refl _) ((h.2.2 u).mp hu)⟩

/-- The seeded one-vertex side satisfies the strong invariant at level 0. -/
theorem sideOk_seed (adj : List (List Nat)) (r : Nat) :
    SideOk adj r 0 (mapInsert (fun _ => none) r (0, 1)) [r] := by
  have hvr : visDepth (mapInsert (fun _ => none) r (0, 1)) r = some 0 := by
    unfold visDepth mapInsert
    simp
  refine ⟨?_, ?_, ?_⟩
  · intro u d hd
    by_cases hu : u = r
    · subst hu
      rw [hvr] at hd
      obtain rfl : (0 : Nat) = d := Option.some.inj hd
      exact ⟨LR_self adj _, Nat.le_refl _⟩
    · exfalso
      have hnone : mapInsert (fun _ => none) r (0, 1) u = none := by
        unfold mapInsert
        rw [if_neg hu]
      unfold visDepth at hd
      rw [hnone] at hd
      exact Option.noConfusion hd
  · intro u d hdle hLR
    obtain rfl : d = 0 := Nat.le_zero.mp hdle
    have hru : r = u := by simpa [reachN] using hLR.1
    rw [← hru]
    exact hvr
  · intro u
    constructor
    · intro hu
      have : u = r := List.mem_singleton.mp hu
      subst this
      exact LR_self adj u
    · intro hLR
      have hru : r = u := by simpa [reachN] using hLR.1
      exact List.mem_singleton.mpr hru.symm

/-- Expanding one level preserves the soundness-grade side invariant,
meetings or not: the expanded side's new visited map and new frontier are
sound at level `lvl + 1`. -/
theorem sideSound_advance {isFwd ib : Bool} {adj : List (List Nat)}
    {opp : Nat → Option (Nat × Nat)} {root lvl : Nat} {cur : List Nat}
    {c : SideCtx}
    (h : SideSound adj root lvl c.ownVisited cur) (hnil : c.ownNext = []) :
    SideSound adj root (lvl + 1)
      ((processNodes isFwd ib (lvl + 1) opp adj cur c).1.ownVisited)
      ((processNodes isFwd ib (lvl + 1) opp adj cur c).1.ownNext) := by
  obtain ⟨hS, hCur⟩ := h
  constructor
  · intro u d hd
    rcases @processNodes_vis_incl isFwd ib (lvl + 1) opp adj cur c u with
      heq | ⟨hnone, hdep, p, hp, hup⟩
    · rw [heq] at hd
      obtain ⟨hr, hle⟩ := hS u d hd
      exact ⟨hr, Nat.le_succ_of_le hle⟩
    · rw [hdep] at hd
      obtain rfl : lvl + 1 = d := Option.some.inj hd
      have hrp := (hS p lvl (hCur p hp)).1
      exact ⟨reachN_snoc hrp hup, Nat.le_refl _⟩
  · intro u hu
    rcases @processNodes_next_incl isFwd ib (lvl + 1) opp adj cur c u hu with
      hold | hnew
    · rw [hnil] at hold
      exact absurd hold (List.not_mem_nil u)
    · exact hnew

/-- Expanding one level with no meetings preserves the completeness-grade
side invariant at level `lvl + 1`. -/
theorem sideOk_advance {isFwd ib : Bool} {adj : List (List Nat)}
    {opp : Nat → Option (Nat × Nat)} {root lvl : Nat} {cur : List Nat}
    {c : SideCtx}
    (h : SideOk adj root lvl c.ownVisited cur) (hnil : c.ownNext = [])
    (hnm : ∀ p ∈ cur, ∀ nb ∈ adj.getD p [], opp nb = none) :
    SideOk adj root (lvl + 1)
      ((processNodes isFwd ib (lvl + 1) opp adj cur c).1.ownVisited)
      ((processNodes isFwd ib (lvl + 1) opp adj cur c).1.ownNext) := by
  obtain ⟨hS, hC, hF⟩ := h
  have hpn := @processNodes_nomeet isFwd ib (lvl + 1) opp adj cur c hnm
  have hnewLR : ∀ u, c.ownVisited u = none →
      (∃ p ∈ cur, u ∈ adj.getD p []) → LR adj root u (lvl + 1) := by
    rintro u hv ⟨p, hp, hup⟩
    have hLp := (hF p).mp hp
    refine ⟨reachN_snoc hLp.1 hup, ?_⟩
    intro e he
    cases hre : reachN adj e root u with
    | false => rfl
    | true =>
      obtain ⟨d, hd, hLu⟩ := exists_LR_of_reachN hre
      have hvd := hC u d (by omega) hLu
      have hsome := visDepth_isSome hvd
      rw [hv] at hsome
      simp at hsome
  have hvac : ∀ u, LR adj root u (lvl + 1) → c.ownVisited u = none := by
    intro u hLu
    cases hv : c.ownVisited u with
    | none => rfl
    | some v =>
      obtain ⟨d0, p0⟩ := v
      obtain ⟨hL0, hle0⟩ := hS u d0 (visDepth_some hv)
      have := LR_unique hLu hL0
      omega
  refine ⟨?_, ?_, ?_⟩
  · intro u d hd
    rcases @processNodes_vis_incl isFwd ib (lvl + 1) opp adj cur c u with
      heq | ⟨hnone, hdep, hgen⟩
    · rw [heq] at hd
      obtain ⟨hL, hle⟩ := hS u d hd
      exact ⟨hL, Nat.le_succ_of_le hle⟩
    · rw [hdep] at hd
      obtain rfl : lvl + 1 = d := Option.some.inj hd
      exact ⟨hnewLR u hnone hgen, Nat.le_refl _⟩
  · intro u d hdle hLu
    by_cases hdl : d ≤ lvl
    · exact processNodes_depth_stable (hC u d hdl hLu)
    · obtain rfl : d = lvl + 1 := by omega
      obtain ⟨w, hwL, hedge⟩ := LR_succ_pred hLu
      have hnew := @expandPure_new_visited (lvl + 1) adj cur c u (hvac u hLu)
        ⟨w, (hF w).mpr hwL, hedge⟩
      rw [hpn]
      exact hnew.1
  · intro u
    constructor
    · intro hu
      rcases @processNodes_next_incl isFwd ib (lvl + 1) opp adj cur c u hu with
        hold | hnew
      · rw [hnil] at hold
        exact absurd hold (List.not_mem_nil u)
      · rcases @processNodes_vis_incl isFwd ib (lvl + 1) opp adj cur c u with
          heq | ⟨hnone, hdep, hgen⟩
        · rw [heq] at hnew
          have := (hS u (lvl + 1) hnew).2
          omega
        · exact hnewLR u hnone hgen
    · intro hLu
      obtain ⟨w, hwL, hedge⟩ := LR_succ_pred hLu
      have hnew := @expandPure_new_visited (lvl + 1) adj cur c u (hvac u hLu)
        ⟨w, (hF w).mpr hwL, hedge⟩
      rw [hpn]
      exact hnew.2

/-- Soundness of the search loop: whatever `best_distance` the loop ends
with names a real directed walk from `s` to `t` of exactly that length, of
length at least 1; and (for `max_hops ≤ 254`, where the truncating hop
check is exact) of length at most `max_hops + 1`. -/
theorem bfsLoop_sound {follows followers : List (List Nat)} {maxHops : Nat}
    {ib : Bool} {s t : Nat}
    (hdual : ∀ u v, v ∈ follows.getD u [] ↔ u ∈ followers.getD v []) :
    ∀ {fuel F B : Nat} {st : BfsState},
      SideSound follows s F st.fwdVisited st.fwdCurrent →
      SideSound followers t B st.bwdVisited st.bwdCurrent →
      (∀ T, st.bestDistance = some T →
        reachN follows T s t = true ∧ 1 ≤ T ∧ T ≤ F + B) →
      st.fwdNext = [] → st.bwdNext = [] →
      ∀ T, (bfsLoop follows followers maxHops ib fuel F B st).bestDistance =
          some T →
        reachN follows T s t = true ∧ 1 ≤ T ∧
          (maxHops ≤ 254 → F + B ≤ maxHops + 1 → T ≤ maxHops + 1) := by
  intro fuel
  induction fuel with
  | zero =>
    intro F B st hfs hbs hbest hfnil hbnil T hT
    rw [bfsLoop_zero] at hT
    obtain ⟨hr, h1, hle⟩ := hbest T hT
    exact ⟨hr, h1, fun _ hsum => by omega⟩
  | succ fuel ih =>
    intro F B st hfs hbs hbest hfnil hbnil T hT
    by_cases hemp : (st.fwdCurrent.isEmpty && st.bwdCurrent.isEmpty) = true
    · rw [bfsLoop_empty hemp] at hT
      obtain ⟨hr, h1, hle⟩ := hbest T hT
      exact ⟨hr, h1, fun _ hsum => by omega⟩
    · cases hbd : st.bestDistance with
      | some b =>
        obtain ⟨_, _, hble⟩ := hbest b hbd
        rw [bfsLoop_stopBest hbd hble] at hT
        obtain ⟨hr, h1, hle⟩ := hbest T hT
        exact ⟨hr, h1, fun _ hsum => by omega⟩
      | none =>
        have hbn' : (match st.bestDistance with
            | some best => decide (best ≤ F + B)
            | none => false) = false := by rw [hbd]
        by_cases hhop : maxHops < (F + B) % 256
        · rw [bfsLoop_hopStop hbd hhop] at hT
          rw [hbd] at hT
          exact Option.noConfusion hT
        · cases hef : (if st.fwdCurrent.isEmpty then false
              else if st.bwdCurrent.isEmpty then true
              else decide (st.fwdCurrent.length ≤ st.bwdCurrent.length)) with
          | true =>
            rw [bfsLoop_expand_fwd hemp hbn' hhop hef] at hT
            have hQ : ∀ T', (processNodes true ib (F + 1) st.bwdVisited follows
                st.fwdCurrent ⟨st.fwdVisited, st.fwdNext, st.meetingNodes,
                  st.bestDistance⟩).1.best = some T' →
                reachN follows T' s t = true ∧ 1 ≤ T' ∧ T' ≤ F + 1 + B := by
              refine @processNodes_best_pres true ib (F + 1) st.bwdVisited follows
                (fun b => ∀ T', b = some T' →
                  reachN follows T' s t = true ∧ 1 ≤ T' ∧ T' ≤ F + 1 + B)
                st.fwdCurrent ⟨st.fwdVisited, st.fwdNext, st.meetingNodes,
                  st.bestDistance⟩ ?_ ?_
              · intro T' hT'
                have hT2 : st.bestDistance = some T' := hT'
                rw [hbd] at hT2
                exact Option.noConfusion hT2
              · rintro nb dOpp cc ⟨p, hp, hnb⟩ hopp T' hT'
                obtain rfl : F + 1 + dOpp = T' := Option.some.inj hT'
                have hrp := (hfs.1 p F (hfs.2 p hp)).1
                have hrnb : reachN follows (F + 1) s nb = true :=
                  reachN_snoc hrp hnb
                have hvd : visDepth st.bwdVisited nb = some dOpp := by
                  unfold visDepth
                  rw [hopp]
                  rfl
                obtain ⟨hrbw, hdB⟩ := hbs.1 nb dOpp hvd
                have hrnt : reachN follows dOpp nb t = true := by
                  rw [← reachN_followers_eq hdual]
                  exact hrbw
                exact ⟨reachN_trans hrnb hrnt, by omega, by omega⟩
            cases hex : (processNodes true ib (F + 1) st.bwdVisited follows
                st.fwdCurrent ⟨st.fwdVisited, st.fwdNext, st.meetingNodes,
                  st.bestDistance⟩).2 with
            | true =>
              rw [if_pos hex] at hT
              obtain ⟨hr, h1, hle⟩ := hQ T hT
              refine ⟨hr, h1, fun h254 hsum => ?_⟩
              have hmod : (F + B) % 256 = F + B := Nat.mod_eq_of_lt (by omega)
              omega
            | false =>
              rw [if_neg (fun h => Bool.noConfusion (hex ▸ h))] at hT
              obtain ⟨hr, h1, himp⟩ := @ih (F + 1) B
                { st with
                  fwdVisited := (processNodes true ib (F + 1) st.bwdVisited
                    follows st.fwdCurrent ⟨st.fwdVisited, st.fwdNext,
                      st.meetingNodes, st.bestDistance⟩).1.ownVisited
                  fwdCurrent := (processNodes true ib (F + 1) st.bwdVisited
                    follows st.fwdCurrent ⟨st.fwdVisited, st.fwdNext,
                      st.meetingNodes, st.bestDistance⟩).1.ownNext
                  fwdNext := []
                  meetingNodes := (processNodes true ib (F + 1) st.bwdVisited
                    follows st.fwdCurrent ⟨st.fwdVisited, st.fwdNext,
                      st.meetingNodes, st.bestDistance⟩).1.meeting
                  bestDistance := (processNodes true ib (F + 1) st.bwdVisited
                    follows st.fwdCurrent ⟨st.fwdVisited, st.fwdNext,
                      st.meetingNodes, st.bestDistance⟩).1.best }
                (@sideSound_advance true ib follows st.bwdVisited s F
                  st.fwdCurrent ⟨st.fwdVisited, st.fwdNext, st.meetingNodes,
                    st.bestDistance⟩ hfs hfnil)
                hbs hQ rfl hbnil T hT
              refine ⟨hr, h1, fun h254 hsum => ?_⟩
              have hmod : (F + B) % 256 = F + B := Nat.mod_eq_of_lt (by omega)
              exact himp h254 (by omega)
          | false =>
            rw [bfsLoop_expand_bwd hemp hbn' hhop hef] at hT
            have hQ : ∀ T', (processNodes false ib (B + 1) st.fwdVisited followers
                st.bwdCurrent ⟨st.bwdVisited, st.bwdNext, st.meetingNodes,
                  st.bestDistance⟩).1.best = some T' →
                reachN follows T' s t = true ∧ 1 ≤ T' ∧ T' ≤ F + (B + 1) := by
              refine @processNodes_best_pres false ib (B + 1) st.fwdVisited
                followers
                (fun b => ∀ T', b = some T' →
                  reachN follows T' s t = true ∧ 1 ≤ T' ∧ T' ≤ F + (B + 1))
                st.bwdCurrent ⟨st.bwdVisited, st.bwdNext, st.meetingNodes,
                  st.bestDistance⟩ ?_ ?_
              · intro T' hT'
                have hT2 : st.bestDistance = some T' := hT'
                rw [hbd] at hT2
                exact Option.noConfusion hT2
              · rintro nb dOpp cc ⟨p, hp, hnb⟩ hopp T' hT'
                obtain rfl : B + 1 + dOpp = T' := Option.some.inj hT'
                have hrtp := (hbs.1 p B (hbs.2 p hp)).1
                have hrpt : reachN follows B p t = true := by
                  rw [← reachN_followers_eq hdual]
                  exact hrtp
                have hedge : p ∈ follows.getD nb [] := (hdual nb p).mpr hnb
                have hr1 : reachN follows 1 nb p = true :=
                  reachN_snoc (reachN_zero_self follows nb) hedge
                have hrnbt : reachN follows (1 + B) nb t = true :=
                  reachN_trans hr1 hrpt
                have hvd : visDepth st.fwdVisited nb = some dOpp := by
                  unfold visDepth
                  rw [hopp]
                  rfl
                obtain ⟨hrs, hdF⟩ := hfs.1 nb dOpp hvd
                have htot := reachN_trans hrs hrnbt
                have he : dOpp + (1 + B) = B + 1 + dOpp := by omega
                rw [he] at htot
                exact ⟨htot, by omega, by omega⟩
            cases hex : (processNodes false ib (B + 1) st.fwdVisited followers
                st.bwdCurrent ⟨st.bwdVisited, st.bwdNext, st.meetingNodes,
                  st.bestDistance⟩).2 with
            | true =>
              rw [if_pos hex] at hT
              obtain ⟨hr, h1, hle⟩ := hQ T hT
              refine ⟨hr, h1, fun h254 hsum => ?_⟩
              have hmod : (F + B) % 256 = F + B := Nat.mod_eq_of_lt (by omega)
              omega
            | false =>
              rw [if_neg (fun h => Bool.noConfusion (hex ▸ h))] at hT
              obtain ⟨hr, h1, himp⟩ := @ih F (B + 1)
                { st with
                  bwdVisited := (processNodes false ib (B + 1) st.fwdVisited
                    followers st.bwdCurrent ⟨st.bwdVisited, st.bwdNext,
                      st.meetingNodes, st.bestDistance⟩).1.ownVisited
                  bwdCurrent := (processNodes false ib (B + 1) st.fwdVisited
                    followers st.bwdCurrent ⟨st.bwdVisited, st.bwdNext,
                      st.meetingNodes, st.bestDistance⟩).1.ownNext
                  bwdNext := []
                  meetingNodes := (processNodes false ib (B + 1) st.fwdVisited
                    followers st.bwdCurrent ⟨st.bwdVisited, st.bwdNext,
                      st.meetingNodes, st.bestDistance⟩).1.meeting
                  bestDistance := (processNodes false ib (B + 1) st.fwdVisited
                    followers st.bwdCurrent ⟨st.bwdVisited, st.bwdNext,
                      st.meetingNodes, st.bestDistance⟩).1.best }
                hfs
                (@sideSound_advance false ib followers st.fwdVisited t B
                  st.bwdCurrent ⟨st.bwdVisited, st.bwdNext, st.meetingNodes,
                    st.bestDistance⟩ hbs hbnil)
                hQ hfnil rfl T hT
              refine ⟨hr, h1, fun h254 hsum => ?_⟩
              have hmod : (F + B) % 256 = F + B := Nat.mod_eq_of_lt (by omega)
              exact himp h254 (by omega)

/-- Completeness of the search loop: if the exact shortest distance `D`
from `s` to `t` is within the hop bound, the loop ends with
`best_distance = some D` — for both values of `include_bridges`, because a
meeting is detected during the first expansion that can see the opposite
side, before any early exit can skip it. -/
theorem bfsLoop_finds {follows followers : List (List Nat)} {maxHops : Nat}
    {ib : Bool} {s t D : Nat}
    (hdual : ∀ u v, v ∈ follows.getD u [] ↔ u ∈ followers.getD v [])
    (hD : LR follows s t D) (hDmax : D ≤ maxHops) (h255 : maxHops ≤ 255) :
    ∀ {fuel F B : Nat} {st : BfsState},
      SideOk follows s F st.fwdVisited st.fwdCurrent →
      SideOk followers t B st.bwdVisited st.bwdCurrent →
      st.bestDistance = none → st.fwdNext = [] → st.bwdNext = [] →
      F + B < D → D - (F + B) ≤ fuel →
      (bfsLoop follows followers maxHops ib fuel F B st).bestDistance =
        some D := by
  have hDbwd : LR followers t s D := by
    constructor
    · rw [reachN_followers_eq hdual]
      exact hD.1
    · intro e he
      rw [reachN_followers_eq hdual]
      exact hD.2 e he
  intro fuel
  induction fuel with
  | zero =>
    intro F B st _ _ _ _ _ hFB hfuel
    omega
  | succ fuel ih =>
    intro F B st hfo hbo hbest hfnil hbnil hFB hfuel
    obtain ⟨u0, hu0L, _⟩ := exists_level_vertex hD (show F ≤ D by omega)
    have hu0 : u0 ∈ st.fwdCurrent := (hfo.2.2 u0).mpr hu0L
    have hemp : ¬((st.fwdCurrent.isEmpty && st.bwdCurrent.isEmpty) = true) := by
      intro h
      have ha := ((Bool.and_eq_true _ _).mp h).1
      cases hcc : st.fwdCurrent with
      | nil =>
        rw [hcc] at hu0
        exact absurd hu0 (List.not_mem_nil u0)
      | cons x xs =>
        rw [hcc] at ha
        exact Bool.noConfusion ha
    have hbn' : (match st.bestDistance with
        | some best => decide (best ≤ F + B)
        | none => false) = false := by rw [hbest]
    have hhop : ¬(maxHops < (F + B) % 256) := by
      rw [Nat.mod_eq_of_lt (show F + B < 256 by omega)]
      omega
    cases hef : (if st.fwdCurrent.isEmpty then false
        else if st.bwdCurrent.isEmpty then true
        else decide (st.fwdCurrent.length ≤ st.bwdCurrent.length)) with
    | true =>
      rw [bfsLoop_expand_fwd hemp hbn' hhop hef]
      by_cases hcross : F + 1 + B = D
      · have hmeetQ : ∀ nb dOpp cc,
            (∃ p ∈ st.fwdCurrent, nb ∈ follows.getD p []) →
            st.bwdVisited nb = some (dOpp, cc) →
            (some (F + 1 + dOpp) = none ∨ some (F + 1 + dOpp) = some D) := by
          rintro nb dOpp cc ⟨p, hp, hnb⟩ hopp
          right
          have hLp := (hfo.2.2 p).mp hp
          have hrnb : reachN follows (F + 1) s nb = true := reachN_snoc hLp.1 hnb
          have hvd : visDepth st.bwdVisited nb = some dOpp := by
            unfold visDepth
            rw [hopp]
            rfl
          obtain ⟨hLnb, hdB⟩ := hbo.1 nb dOpp hvd
          have hrnt : reachN follows dOpp nb t = true := by
            rw [← reachN_followers_eq hdual]
            exact hLnb.1
          have htot : reachN follows (F + 1 + dOpp) s t = true :=
            reachN_trans hrnb hrnt
          have hge : ¬(F + 1 + dOpp < D) := by
            intro hlt
            rw [hD.2 (F + 1 + dOpp) hlt] at htot
            exact Bool.noConfusion htot
          have heq : F + 1 + dOpp = D := by omega
          rw [heq]
        have hQ := @processNodes_best_pres true ib (F + 1) st.bwdVisited follows
          (fun b => b = none ∨ b = some D) st.fwdCurrent
          ⟨st.fwdVisited, st.fwdNext, st.meetingNodes, st.bestDistance⟩
          (Or.inl hbest) hmeetQ
        obtain ⟨u, huL, hurest⟩ :=
          exists_level_vertex hD (show F + 1 ≤ D by omega)
        obtain ⟨w, hwL, hedge⟩ := LR_succ_pred huL
        have hw : w ∈ st.fwdCurrent := (hfo.2.2 w).mpr hwL
        have hrub : reachN followers (D - (F + 1)) t u = true := by
          rw [reachN_followers_eq hdual]
          exact hurest
        obtain ⟨d', hd'le, hLu'⟩ := exists_LR_of_reachN hrub
        have hvdu : visDepth st.bwdVisited u = some d' :=
          hbo.2.1 u d' (by omega) hLu'
        have hmet := @processNodes_met_isSome true ib (F + 1) st.bwdVisited
          follows st.fwdCurrent ⟨st.fwdVisited, st.fwdNext, st.meetingNodes,
            st.bestDistance⟩ w u hw hedge (visDepth_isSome hvdu)
        rcases hQ with hnone | hsome
        · rw [hnone] at hmet
          simp at hmet
        · cases hex : (processNodes true ib (F + 1) st.bwdVisited follows
              st.fwdCurrent ⟨st.fwdVisited, st.fwdNext, st.meetingNodes,
                st.bestDistance⟩).2 with
          | true =>
            rw [if_pos rfl]
            exact hsome
          | false =>
            rw [if_neg (fun h => Bool.noConfusion h)]
            cases fuel with
            | zero =>
              rw [bfsLoop_zero]
              exact hsome
            | succ fuel2 =>
              rw [bfsLoop_stopBest hsome (show D ≤ F + 1 + B by omega)]
              exact hsome
      · have hnm : ∀ p ∈ st.fwdCurrent, ∀ nb ∈ follows.getD p [],
            st.bwdVisited nb = none := by
          intro p hp nb hnb
          cases hv : st.bwdVisited nb with
          | none => rfl
          | some v =>
            exfalso
            obtain ⟨dOpp, pp⟩ := v
            obtain ⟨hLnb, hdB⟩ := hbo.1 nb dOpp (visDepth_some hv)
            have hLp := (hfo.2.2 p).mp hp
            have hrnt : reachN follows dOpp nb t = true := by
              rw [← reachN_followers_eq hdual]
              exact hLnb.1
            have htot : reachN follows (F + 1 + dOpp) s t = true :=
              reachN_trans (reachN_snoc hLp.1 hnb) hrnt
            rw [hD.2 (F + 1 + dOpp) (by omega)] at htot
            exact Bool.noConfusion htot
        have hpn := @processNodes_nomeet true ib (F + 1) st.bwdVisited follows
          st.fwdCurrent ⟨st.fwdVisited, st.fwdNext, st.meetingNodes,
            st.bestDistance⟩ hnm
        have hex : (processNodes true ib (F + 1) st.bwdVisited follows
            st.fwdCurrent ⟨st.fwdVisited, st.fwdNext, st.meetingNodes,
              st.bestDistance⟩).2 = false := by rw [hpn]
        rw [if_neg (fun h => Bool.noConfusion (hex ▸ h))]
        refine @ih (F + 1) B
          { st with
            fwdVisited := (processNodes true ib (F + 1) st.bwdVisited
              follows st.fwdCurrent ⟨st.fwdVisited, st.fwdNext,
                st.meetingNodes, st.bestDistance⟩).1.ownVisited
            fwdCurrent := (processNodes true ib (F + 1) st.bwdVisited
              follows st.fwdCurrent ⟨st.fwdVisited, st.fwdNext,
                st.meetingNodes, st.bestDistance⟩).1.ownNext
            fwdNext := []
            meetingNodes := (processNodes true ib (F + 1) st.bwdVisited
              follows st.fwdCurrent ⟨st.fwdVisited, st.fwdNext,
                st.meetingNodes, st.bestDistance⟩).1.meeting
            bestDistance := (processNodes true ib (F + 1) st.bwdVisited
              follows st.fwdCurrent ⟨st.fwdVisited, st.fwdNext,
                st.meetingNodes, st.bestDistance⟩).1.best }
          (@sideOk_advance true ib follows st.bwdVisited s F st.fwdCurrent
            ⟨st.fwdVisited, st.fwdNext, st.meetingNodes, st.bestDistance⟩
            hfo hfnil hnm)
          hbo ?_ rfl hbnil (by omega) (by omega)
        rw [hpn]
        exact (expandPure_best (F + 1) follows st.fwdCurrent
          ⟨st.fwdVisited, st.fwdNext, st.meetingNodes, st.bestDistance⟩).trans
          hbest
    | false =>
      rw [bfsLoop_expand_bwd hemp hbn' hhop hef]
      by_cases hcross : F + (B + 1) = D
      · have hmeetQ : ∀ nb dOpp cc,
            (∃ p ∈ st.bwdCurrent, nb ∈ followers.getD p []) →
            st.fwdVisited nb = some (dOpp, cc) →
            (some (B + 1 + dOpp) = none ∨ some (B + 1 + dOpp) = some D) := by
          rintro nb dOpp cc ⟨p, hp, hnb⟩ hopp
          right
          have hLp := (hbo.2.2 p).mp hp
          have hrpt : reachN follows B p t = true := by
            rw [← reachN_followers_eq hdual]
            exact hLp.1
          have hedge : p ∈ follows.getD nb [] := (hdual nb p).mpr hnb
          have hr1 : reachN follows 1 nb p = true :=
            reachN_snoc (reachN_zero_self follows nb) hedge
          have hrnbt : reachN follows (1 + B) nb t = true :=
            reachN_trans hr1 hrpt
          have hvd : visDepth st.fwdVisited nb = some dOpp := by
            unfold visDepth
            rw [hopp]
            rfl
          obtain ⟨hLnb, hdF⟩ := hfo.1 nb dOpp hvd
          have htot : reachN follows (dOpp + (1 + B)) s t = true :=
            reachN_trans hLnb.1 hrnbt
          have hge : ¬(dOpp + (1 + B) < D) := by
            intro hlt
            rw [hD.2 (dOpp + (1 + B)) hlt] at htot
            exact Bool.noConfusion htot
          have heq : B + 1 + dOpp = D := by omega
          rw [heq]
        have hQ := @processNodes_best_pres false ib (B + 1) st.fwdVisited
          followers (fun b => b = none ∨ b = some D) st.bwdCurrent
          ⟨st.bwdVisited, st.bwdNext, st.meetingNodes, st.bestDistance⟩
          (Or.inl hbest) hmeetQ
        obtain ⟨u, huL, hurest⟩ :=
          exists_level_vertex hDbwd (show B + 1 ≤ D by omega)
        obtain ⟨w, hwL, hedge⟩ := LR_succ_pred huL
        have hw : w ∈ st.bwdCurrent := (hbo.2.2 w).mpr hwL
        have hrsu : reachN follows (D - (B + 1)) s u = true := by
          rw [← reachN_followers_eq hdual]
          exact hurest
        obtain ⟨d', hd'le, hLu'⟩ := exists_LR_of_reachN hrsu
        have hvdu : visDepth st.fwdVisited u = some d' :=
          hfo.2.1 u d' (by omega) hLu'
        have hmet := @processNodes_met_isSome false ib (B + 1) st.fwdVisited
          followers st.bwdCurrent ⟨st.bwdVisited, st.bwdNext, st.meetingNodes,
            st.bestDistance⟩ w u hw hedge (visDepth_isSome hvdu)
        rcases hQ with hnone | hsome
        · rw [hnone] at hmet
          simp at hmet
        · cases hex : (processNodes false ib (B + 1) st.fwdVisited followers
              st.bwdCurrent ⟨st.bwdVisited, st.bwdNext, st.meetingNodes,
                st.bestDistance⟩).2 with
          | true =>
            rw [if_pos rfl]
            exact hsome
          | false =>
            rw [if_neg (fun h => Bool.noConfusion h)]
            cases fuel with
            | zero =>
              rw [bfsLoop_zero]
              exact hsome
            | succ fuel2 =>
              rw [bfsLoop_stopBest hsome (show D ≤ F + (B + 1) by omega)]
              exact hsome
      · have hnm : ∀ p ∈ st.bwdCurrent, ∀ nb ∈ followers.getD p [],
            st.fwdVisited nb = none := by
          intro p hp nb hnb
          cases hv : st.fwdVisited nb with
          | none => rfl
          | some v =>
            exfalso
            obtain ⟨dOpp, pp⟩ := v
            obtain ⟨hLnb, hdF⟩ := hfo.1 nb dOpp (visDepth_some hv)
            have hLp := (hbo.2.2 p).mp hp
            have hrpt : reachN follows B p t = true := by
              rw [← reachN_followers_eq hdual]
              exact hLp.1
            have hedge : p ∈ follows.getD nb [] := (hdual nb p).mpr hnb
            have hr1 : reachN follows 1 nb p = true :=
              reachN_snoc (reachN_zero_self follows nb) hedge
            have htot : reachN follows (dOpp + (1 + B)) s t = true :=
              reachN_trans hLnb.1 (reachN_trans hr1 hrpt)
            rw [hD.2 (dOpp + (1 + B)) (by omega)] at htot
            exact Bool.noConfusion htot
        have hpn := @processNodes_nomeet false ib (B + 1) st.fwdVisited
          followers st.bwdCurrent ⟨st.bwdVisited, st.bwdNext, st.meetingNodes,
            st.bestDistance⟩ hnm
        have hex : (processNodes false ib (B + 1) st.fwdVisited followers
            st.bwdCurrent ⟨st.bwdVisited, st.bwdNext, st.meetingNodes,
              st.bestDistance⟩).2 = false := by rw [hpn]
        rw [if_neg (fun h => Bool.noConfusion (hex ▸ h))]
        refine @ih F (B + 1)
          { st with
            bwdVisited := (processNodes false ib (B + 1) st.fwdVisited
              followers st.bwdCurrent ⟨st.bwdVisited, st.bwdNext,
                st.meetingNodes, st.bestDistance⟩).1.ownVisited
            bwdCurrent := (processNodes false ib (B + 1) st.fwdVisited
              followers st.bwdCurrent ⟨st.bwdVisited, st.bwdNext,
                st.meetingNodes, st.bestDistance⟩).1.ownNext
            bwdNext := []
            meetingNodes := (processNodes false ib (B + 1) st.fwdVisited
              followers st.bwdCurrent ⟨st.bwdVisited, st.bwdNext,
                st.meetingNodes, st.bestDistance⟩).1.meeting
            bestDistance := (processNodes false ib (B + 1) st.fwdVisited
              followers st.bwdCurrent ⟨st.bwdVisited, st.bwdNext,
                st.meetingNodes, st.bestDistance⟩).1.best }
          hfo
          (@sideOk_advance false ib followers st.fwdVisited t B st.bwdCurrent
            ⟨st.bwdVisited, st.bwdNext, st.meetingNodes, st.bestDistance⟩
            hbo hbnil hnm)
          ?_ hfnil rfl (by omega) (by omega)
        rw [hpn]
        exact (expandPure_best (B + 1) followers st.bwdCurrent
          ⟨st.bwdVisited, st.bwdNext, st.meetingNodes, st.bestDistance⟩).trans
          hbest

/-! ### From the loop to `compute_distance` -/

theorem bfsFinalize_hops_of_best {g : WotGraph} {fromPk toPk : String}
    {maxHops : Nat} {ib mf : Bool} {st : BfsState} {D : Nat}
    (hb : st.bestDistance = some D) (hle : D % 256 ≤ maxHops) :
    (bfsFinalize g fromPk toPk maxHops ib mf st).hops = some D := by
  unfold bfsFinalize
  rw [hb]
  dsimp only
  rw [if_pos hle]

theorem bfsFinalize_hops_inv {g : WotGraph} {fromPk toPk : String}
    {maxHops : Nat} {ib mf : Bool} {st : BfsState} {T : Nat}
    (h : (bfsFinalize g fromPk toPk maxHops ib mf st).hops = some T) :
    st.bestDistance = some T ∧ T % 256 ≤ maxHops := by
  unfold bfsFinalize at h
  cases hb : st.bestDistance with
  | none =>
    rw [hb] at h
    exact Option.noConfusion h
  | some D =>
    rw [hb] at h
    dsimp only at h
    by_cases hle : D % 256 ≤ maxHops
    · rw [if_pos hle] at h
      have hDT : some D = some T := h
      obtain rfl : D = T := Option.some.inj hDT
      exact ⟨rfl, hle⟩
    · rw [if_neg hle] at h
      exact Option.noConfusion h

/-- `compute_distance`, same-node fast path. -/
theorem computeDistance_same {g : WotGraph} {q : DistanceQuery}
    (hpk : q.fromPk = q.toPk) :
    computeDistance g q = DistanceResult.sameNode q.fromPk := by
  unfold computeDistance
  rw [if_pos hpk]

/-- `compute_distance`, unknown `from` label. -/
theorem computeDistance_noFrom {g : WotGraph} {q : DistanceQuery}
    (hpk : ¬(q.fromPk = q.toPk))
    (hs : lookupId g.idToPubkey q.fromPk = none) :
    computeDistance g q = DistanceResult.notFound q.fromPk q.toPk := by
  unfold computeDistance
  rw [if_neg hpk, hs]

/-- `compute_distance`, unknown `to` label. -/
theorem computeDistance_noTo {g : WotGraph} {q : DistanceQuery} {s : Nat}
    (hpk : ¬(q.fromPk = q.toPk))
    (hs : lookupId g.idToPubkey q.fromPk = some s)
    (ht : lookupId g.idToPubkey q.toPk = none) :
    computeDistance g q = DistanceResult.notFound q.fromPk q.toPk := by
  unfold computeDistance
  rw [if_neg hpk, hs]
  dsimp only
  rw [ht]

/-- `compute_distance`, direct-follow shortcut. -/
theorem computeDistance_direct {g : WotGraph} {q : DistanceQuery} {s t : Nat}
    (hpk : ¬(q.fromPk = q.toPk))
    (hs : lookupId g.idToPubkey q.fromPk = some s)
    (ht : lookupId g.idToPubkey q.toPk = some t)
    (hdir : (g.follows.getD s []).contains t = true) :
    computeDistance g q =
      { fromPk := q.fromPk, toPk := q.toPk, hops := some 1, pathCount := 1
        mutualFollow := (g.follows.getD s []).contains t &&
          (g.follows.getD t []).contains s
        bridges := if q.includeBridges then some [] else none } := by
  unfold computeDistance
  rw [if_neg hpk, hs]
  dsimp only
  rw [ht]
  dsimp only
  rw [if_pos hdir]

/-- `compute_distance`, BFS branch. -/
theorem computeDistance_not_direct {g : WotGraph} {q : DistanceQuery}
    {s t : Nat}
    (hpk : ¬(q.fromPk = q.toPk))
    (hs : lookupId g.idToPubkey q.fromPk = some s)
    (ht : lookupId g.idToPubkey q.toPk = some t)
    (hdir : (g.follows.getD s []).contains t = false) :
    computeDistance g q = bidirectionalBfs g q s t
      ((g.follows.getD s []).contains t &&
        (g.follows.getD t []).contains s) := by
  unfold computeDistance
  rw [if_neg hpk, hs]
  dsimp only
  rw [ht]
  dsimp only
  rw [if_neg (fun h => Bool.noConfusion (hdir ▸ h))]

/-- If distinct labels resolve, they resolve to distinct vids. -/
theorem lookupId_inj_ne {l : List String} {p1 p2 : String} {i j : Nat}
    (h1 : lookupId l p1 = some i) (h2 : lookupId l p2 = some j)
    (hne : p1 ≠ p2) : i ≠ j := by
  intro h
  subst h
  exact hne (Option.some.inj ((lookupId_get h1).symm.trans (lookupId_get h2)))

/-- Completeness through `bidirectional_bfs`: if the exact shortest
distance fits in the hop bound, `hops` reports it. -/
theorem bidirectionalBfs_hops_finds {g : WotGraph} {q : DistanceQuery}
    {s t D : Nat} {mf : Bool}
    (hdual : ∀ u v, v ∈ g.follows.getD u [] ↔ u ∈ g.followers.getD v [])
    (hD : LR g.follows s t D) (hD1 : 1 ≤ D) (hDle : D ≤ q.maxHops)
    (hmax : q.maxHops ≤ 255) :
    (bidirectionalBfs g q s t mf).hops = some D := by
  unfold bidirectionalBfs
  apply bfsFinalize_hops_of_best
  · exact @bfsLoop_finds g.follows g.followers q.maxHops q.includeBridges s t D
      hdual hD hDle hmax (bfsFuel g.follows g.followers q.maxHops) 0 0
      (initialBfsState s t) (sideOk_seed g.follows s) (sideOk_seed g.followers t)
      rfl rfl rfl (by omega)
      (by unfold bfsFuel; omega)
  · rw [Nat.mod_eq_of_lt (by omega)]
    exact hDle

/-- Soundness through `bidirectional_bfs`: a reported `hops` names a real
walk of that exact length, is at least 1, and (below the truncation
threshold) is at most `max_hops`. -/
theorem bidirectionalBfs_hops_sound {g : WotGraph} {q : DistanceQuery}
    {s t T : Nat} {mf : Bool}
    (hdual : ∀ u v, v ∈ g.follows.getD u [] ↔ u ∈ g.followers.getD v [])
    (h : (bidirectionalBfs g q s t mf).hops = some T) :
    reachN g.follows T s t = true ∧ 1 ≤ T ∧ T % 256 ≤ q.maxHops ∧
      (q.maxHops ≤ 254 → T ≤ q.maxHops) := by
  unfold bidirectionalBfs at h
  obtain ⟨hb, hle⟩ := bfsFinalize_hops_inv h
  obtain ⟨hr, h1, himp⟩ := @bfsLoop_sound g.follows g.followers q.maxHops
    q.includeBridges s t hdual (bfsFuel g.follows g.followers q.maxHops) 0 0
    (initialBfsState s t) (sideOk_sound (sideOk_seed g.follows s))
    (sideOk_sound (sideOk_seed g.followers t))
    (fun T' hT' => Option.noConfusion hT') rfl rfl T hb
  refine ⟨hr, h1, hle, fun h254 => ?_⟩
  have hT1 := himp h254 (by omega)
  have hmod : T % 256 = T := Nat.mod_eq_of_lt (by omega)
  omega

/-- C2: for distinct labels both known to the store, when a directed path
of length at most `max_hops` exists, `compute_distance` returns `hops`
equal to the exact shortest directed distance `D` — for both values of
`include_bridges` (the query's `include_bridges` is free here), including
the early-exit `include_bridges = false` search. -/
theorem c2_shortest_distance (g : WotGraph) (q : DistanceQuery)
    (hre : Reachable g) (hne : q.fromPk ≠ q.toPk) {s t D : Nat}
    (hs : lookupId g.idToPubkey q.fromPk = some s)
    (ht : lookupId g.idToPubkey q.toPk = some t)
    (hD : LR g.follows s t D) (hDle : D ≤ q.maxHops)
    (hmax : q.maxHops ≤ 255) :
    (computeDistance g q).hops = some D := by
  have hdual := (inv_reachable hre).2.2.2
  have hst : s ≠ t := lookupId_inj_ne hs ht hne
  have hD1 : 1 ≤ D := by
    cases D with
    | zero =>
      exfalso
      have hr0 : s = t := by simpa [reachN] using hD.1
      exact hst hr0
    | succ d => omega
  cases hdir : (g.follows.getD s []).contains t with
  | true =>
    rw [computeDistance_direct hne hs ht hdir]
    have hr1 : reachN g.follows 1 s t = true :=
      reachN_one_iff.mpr (contains_iff_mem.mp hdir)
    have hDle1 : D ≤ 1 := by
      by_contra hgt
      rw [hD.2 1 (by omega)] at hr1
      exact Bool.noConfusion hr1
    obtain rfl : D = 1 := by omega
    rfl
  | false =>
    rw [computeDistance_not_direct hne hs ht hdir]
    exact bidirectionalBfs_hops_finds hdual hD hD1 hDle hmax

/-- The two-edge chain A → B → C built through the store API. -/
def chainABC : WotGraph :=
  (updateFollows (updateFollows WotGraph.new "A" ["B"] none none).2
    "B" ["C"] none none).2

/-- C2, witness: on the reachable chain A → B → C the query (A, C)
reports the exact shortest distance 2. -/
theorem c2_witness :
    lookupId chainABC.idToPubkey "A" = some 0 ∧
    (computeDistance chainABC ⟨"A", "C", 5, true⟩).hops = some 2 :=
  ⟨rfl, c2_shortest_distance chainABC ⟨"A", "C", 5, true⟩
    (Reachable.update _ "B" ["C"] none none
      (Reachable.update _ "A" ["B"] none none Reachable.new))
    (by decide) rfl rfl ⟨by decide, by decide⟩ (by decide) (by decide)⟩

/-! ### Claims C5 and C8 -/

/-- The one-edge store A → B built through the store API. -/
def gAB : WotGraph := (updateFollows WotGraph.new "A" ["B"] none none).2

/-- C5, counterexample: the direct-follow shortcut ignores `max_hops`, so a
query with `max_hops = 0` on a direct edge returns `hops = 1 > max_hops`,
refuting "`hops` returned is either `none` or `≤ max_hops`" as stated. -/
theorem c5_counterexample :
    (computeDistance gAB ⟨"A", "B", 0, false⟩).hops = some 1 ∧
    ¬(1 ≤ (0 : Nat)) :=
  ⟨rfl, by decide⟩

/-- C5 (amended): for store-reachable graphs and `1 ≤ max_hops ≤ 254` (the
direct-follow shortcut ignores `max_hops`, and at `max_hops = 255` the
`as u8` truncations can let `hops = 256` through), any reported `hops` is
at most `max_hops`, and raising `max_hops` (staying ≤ 254) preserves any
`some` answer unchanged. -/
theorem c5_bound_and_monotone (g : WotGraph) (q : DistanceQuery)
    (hre : Reachable g) (hone : 1 ≤ q.maxHops) (h254 : q.maxHops ≤ 254) :
    (∀ h, (computeDistance g q).hops = some h → h ≤ q.maxHops) ∧
    ∀ m, q.maxHops ≤ m → m ≤ 254 →
      ∀ h, (computeDistance g q).hops = some h →
        (computeDistance g { q with maxHops := m }).hops = some h := by
  have hdual := (inv_reachable hre).2.2.2
  by_cases hpk : q.fromPk = q.toPk
  · constructor
    · intro h hh
      rw [computeDistance_same hpk] at hh
      have hh0 : some 0 = some h := hh
      obtain rfl : (0 : Nat) = h := Option.some.inj hh0
      omega
    · intro m _ _ h hh
      rw [computeDistance_same hpk] at hh
      rw [computeDistance_same (q := { q with maxHops := m }) hpk]
      exact hh
  · cases hsq : lookupId g.idToPubkey q.fromPk with
    | none =>
      constructor
      · intro h hh
        rw [computeDistance_noFrom hpk hsq] at hh
        exact Option.noConfusion hh
      · intro m _ _ h hh
        rw [computeDistance_noFrom hpk hsq] at hh
        exact Option.noConfusion hh
    | some s =>
      cases htq : lookupId g.idToPubkey q.toPk with
      | none =>
        constructor
        · intro h hh
          rw [computeDistance_noTo hpk hsq htq] at hh
          exact Option.noConfusion hh
        · intro m _ _ h hh
          rw [computeDistance_noTo hpk hsq htq] at hh
          exact Option.noConfusion hh
      | some t =>
        cases hdir : (g.follows.getD s []).contains t with
        | true =>
          constructor
          · intro h hh
            rw [computeDistance_direct hpk hsq htq hdir] at hh
            have hh1 : some 1 = some h := hh
            obtain rfl : 1 = h := Option.some.inj hh1
            omega
          · intro m _ _ h hh
            rw [computeDistance_direct hpk hsq htq hdir] at hh
            rw [computeDistance_direct (q := { q with maxHops := m })
              hpk hsq htq hdir]
            exact hh
        | false =>
          constructor
          · intro h hh
            rw [computeDistance_not_direct hpk hsq htq hdir] at hh
            obtain ⟨_, _, _, hble⟩ := bidirectionalBfs_hops_sound hdual hh
            exact hble h254
          · intro m hm hm254 h hh
            rw [computeDistance_not_direct hpk hsq htq hdir] at hh
            obtain ⟨hr, hone', _, hble⟩ := bidirectionalBfs_hops_sound hdual hh
            obtain ⟨D, hDh, hLRD⟩ := exists_LR_of_reachN hr
            have hD1 : 1 ≤ D := by
              cases D with
              | zero =>
                exfalso
                have hst : s ≠ t := lookupId_inj_ne hsq htq hpk
                have hr0 : s = t := by simpa [reachN] using hLRD.1
                exact hst hr0
              | succ d => omega
            have hhle : h ≤ q.maxHops := hble h254
            have hfound1 : (bidirectionalBfs g q s t
                ((g.follows.getD s []).contains t &&
                  (g.follows.getD t []).contains s)).hops = some D :=
              bidirectionalBfs_hops_finds hdual hLRD hD1 (by omega) (by omega)
            rw [hh] at hfound1
            obtain rfl : h = D := Option.some.inj hfound1
            rw [computeDistance_not_direct (q := { q with maxHops := m })
              hpk hsq htq hdir]
            exact bidirectionalBfs_hops_finds hdual hLRD hD1
              (show h ≤ m by omega) (show m ≤ 255 by omega)

/-- C5, witness: raising `max_hops` from 1 to 200 keeps the answer
`hops = 1` on the reachable one-edge store. -/
theorem c5_witness :
    (1 : Nat) ≤ 1 ∧ (computeDistance gAB ⟨"A", "B", 200, false⟩).hops = some 1 :=
  ⟨by decide, (c5_bound_and_monotone gAB ⟨"A", "B", 1, false⟩
    (Reachable.update _ "A" ["B"] none none Reachable.new) (by decide)
    (by decide)).2 200 (by decide) (by decide) 1 rfl⟩

/-- The self-follow store A → A built through the store API. -/
def gSelf : WotGraph := (updateFollows WotGraph.new "A" ["A"] none none).2

/-- C8, counterexample: with `a = b = "A"` both known and a stored
self-follow, `"A" ∈ out["A"]` yet the same-node fast path answers
`hops = 0`, not 1, refuting the claimed equivalence for all known label
pairs. -/
theorem c8_counterexample :
    lookupId gSelf.idToPubkey "A" = some 0 ∧
    0 ∈ gSelf.follows.getD 0 [] ∧
    (computeDistance gSelf ⟨"A", "A", 5, true⟩).hops = some 0 :=
  ⟨rfl, by decide, rfl⟩

/-- C8 (amended): for distinct labels `a ≠ b` both known to the store,
`hops = 1` exactly when `b ∈ out[a]`; and in that case the result also
carries `path_count = 1` and `bridges = []` when requested. -/
theorem c8_direct_iff (g : WotGraph) (q : DistanceQuery) (hre : Reachable g)
    (hne : q.fromPk ≠ q.toPk) {s t : Nat}
    (hs : lookupId g.idToPubkey q.fromPk = some s)
    (ht : lookupId g.idToPubkey q.toPk = some t) :
    ((computeDistance g q).hops = some 1 ↔ t ∈ g.follows.getD s []) ∧
    (t ∈ g.follows.getD s [] →
      (computeDistance g q).pathCount = 1 ∧
      (computeDistance g q).bridges =
        if q.includeBridges then some [] else none) := by
  have hdual := (inv_reachable hre).2.2.2
  cases hdir : (g.follows.getD s []).contains t with
  | true =>
    have hmem := contains_iff_mem.mp hdir
    rw [computeDistance_direct hne hs ht hdir]
    exact ⟨⟨fun _ => hmem, fun _ => rfl⟩, fun _ => ⟨rfl, rfl⟩⟩
  | false =>
    have hnmem : t ∉ g.follows.getD s [] := by
      intro hm
      rw [contains_iff_mem.mpr hm] at hdir
      exact Bool.noConfusion hdir
    rw [computeDistance_not_direct hne hs ht hdir]
    constructor
    · constructor
      · intro hh
        exfalso
        obtain ⟨hr, _, _, _⟩ := bidirectionalBfs_hops_sound hdual hh
        exact hnmem (reachN_one_iff.mp hr)
      · intro hm
        exact absurd hm hnmem
    · intro hm
      exact absurd hm hnmem

/-- C8, witness: on the reachable one-edge store, `hops = 1` holds exactly
as `1 ∈ out[0]` does. -/
theorem c8_witness :
    (computeDistance gAB ⟨"A", "B", 5, true⟩).hops = some 1 ↔
      1 ∈ gAB.follows.getD 0 [] :=
  (c8_direct_iff gAB ⟨"A", "B", 5, true⟩
    (Reachable.update _ "A" ["B"] none none Reachable.new) (by decide)
    rfl rfl).1

/-! ### Walk counting (specification side, claim C3) -/

/-- Number of directed walks of exactly `d` steps from `u` to `v`,
by first-step recursion. -/
def walksN (adj : List (List Nat)) : Nat → Nat → Nat → Nat
  | 0, u, v => if u = v then 1 else 0
  | d + 1, u, v => ((adj.getD u []).map (fun w => walksN adj d w v)).sum

theorem sum_map_add {f g : Nat → Nat} :
    ∀ {l : List Nat},
      (l.map (fun x => f x + g x)).sum = (l.map f).sum + (l.map g).sum := by
  intro l
  induction l with
  | nil => rfl
  | cons a l ih => simp [ih]; omega

theorem sum_map_swap (f : Nat → Nat → Nat) :
    ∀ (l1 l2 : List Nat),
      (l1.map (fun a => (l2.map (f a)).sum)).sum =
        (l2.map (fun b => (l1.map (fun a => f a b)).sum)).sum := by
  intro l1
  induction l1 with
  | nil =>
    intro l2
    induction l2 with
    | nil => rfl
    | cons b l2 ih => simp [ih]
  | cons a l1 ih =>
    intro l2
    rw [List.map_cons, List.sum_cons, ih l2, ← sum_map_add]
    refine congrArg List.sum (List.map_congr_left (fun b _ => ?_))
    rw [List.map_cons, List.sum_cons]

theorem sum_map_indicator {b : Nat} :
    ∀ {l : List Nat}, l.Nodup →
      (l.map (fun w => if w = b then 1 else 0)).sum =
        if b ∈ l then 1 else 0 := by
  intro l
  induction l with
  | nil => intro _; rfl
  | cons a l ih =>
    intro hnd
    obtain ⟨hna, hnd'⟩ := List.nodup_cons.mp hnd
    rw [List.map_cons, List.sum_cons, ih hnd']
    by_cases hab : a = b
    · subst hab
      rw [if_pos rfl, if_neg hna, if_pos (List.mem_cons_self _ _)]
    · rw [if_neg hab]
      by_cases hbl : b ∈ l
      · rw [if_pos hbl, if_pos (List.mem_cons_of_mem _ hbl)]
      · rw [if_neg hbl, if_neg (fun h =>
          (List.mem_cons.mp h).elim (fun h' => hab h'.symm) hbl)]

theorem sum_map_eq_zero_iff {f : Nat → Nat} :
    ∀ {l : List Nat}, (l.map f).sum = 0 ↔ ∀ x ∈ l, f x = 0 := by
  intro l
  induction l with
  | nil => simp
  | cons a l ih => simp [ih, Nat.add_eq_zero]

theorem sum_map_mul_left {c : Nat} {f : Nat → Nat} :
    ∀ {l : List Nat}, (l.map (fun x => c * f x)).sum = c * (l.map f).sum := by
  intro l
  induction l with
  | nil => simp
  | cons a l ih => simp [ih, Nat.mul_add]

/-- Symmetric exchange of an indicator-restricted sum between two
duplicate-free lists. -/
theorem sum_swap_nodup {f : Nat → Nat} {l1 l2 : List Nat}
    (h1 : l1.Nodup) (h2 : l2.Nodup) :
    (l1.map (fun x => if x ∈ l2 then f x else 0)).sum =
      (l2.map (fun x => if x ∈ l1 then f x else 0)).sum := by
  have key : ∀ (la lb : List Nat), la.Nodup →
      (la.map (fun x => if x ∈ lb then f x else 0)).sum =
        ((la.filter (fun x => decide (x ∈ lb))).map f).sum := by
    intro la lb hla
    induction la with
    | nil => rfl
    | cons a la ih =>
      have := (List.nodup_cons.mp hla).2
      by_cases hab : a ∈ lb
      · simp [List.filter_cons, hab, ih this]
      · simp [List.filter_cons, hab, ih this]
  rw [key l1 l2 h1, key l2 l1 h2]
  have hperm : (l1.filter (fun x => decide (x ∈ l2))).Perm
      (l2.filter (fun x => decide (x ∈ l1))) := by
    apply List.perm_of_nodup_nodup_toFinset_eq
    · exact List.Nodup.filter _ h1
    · exact List.Nodup.filter _ h2
    · apply Finset.ext
      intro x
      simp [List.mem_toFinset, List.mem_filter, and_comm]
  exact (hperm.map f).sum_eq

theorem walksN_pos_iff {adj : List (List Nat)} :
    ∀ {d u v : Nat}, 0 < walksN adj d u v ↔ reachN adj d u v = true := by
  intro d
  induction d with
  | zero =>
    intro u v
    show 0 < (if u = v then 1 else 0) ↔ _
    by_cases h : u = v <;> simp [h, reachN]
  | succ d ih =>
    intro u v
    show 0 < ((adj.getD u []).map (fun w => walksN adj d w v)).sum ↔
      (adj.getD u []).any (fun w => reachN adj d w v) = true
    rw [List.any_eq_true]
    constructor
    · intro hpos
      by_contra hno
      push_neg at hno
      have hzero : ((adj.getD u []).map (fun w => walksN adj d w v)).sum = 0 := by
        rw [sum_map_eq_zero_iff]
        intro x hx
        have hn : ¬(0 < walksN adj d x v) := fun hp => hno x hx (ih.mp hp)
        omega
      omega
    · rintro ⟨w, hw, hr⟩
      have hpos : 0 < walksN adj d w v := ih.mpr hr
      have hle : walksN adj d w v ≤
          ((adj.getD u []).map (fun x => walksN adj d x v)).sum :=
        List.single_le_sum (fun x _ => Nat.zero_le x) _
          (List.mem_map_of_mem _ hw)
      omega

/-- Last-edge decomposition of the walk count, through the in-adjacency. -/
theorem walksN_last_edge {follows followers : List (List Nat)}
    (hdual : ∀ u v, v ∈ follows.getD u [] ↔ u ∈ followers.getD v [])
    (hndF : ∀ i, (follows.getD i []).Nodup)
    (hndB : ∀ i, (followers.getD i []).Nodup) :
    ∀ (d a b : Nat),
      walksN follows (d + 1) a b =
        ((followers.getD b []).map (fun w => walksN follows d a w)).sum := by
  intro d
  induction d with
  | zero =>
    intro a b
    show ((follows.getD a []).map (fun w => walksN follows 0 w b)).sum = _
    have h1 : ((follows.getD a []).map (fun w => walksN follows 0 w b)).sum =
        if b ∈ follows.getD a [] then 1 else 0 := by
      have he : ((follows.getD a []).map (fun w => walksN follows 0 w b)) =
          ((follows.getD a []).map (fun w => if w = b then 1 else 0)) :=
        List.map_congr_left (fun w _ => rfl)
      rw [he, sum_map_indicator (hndF a)]
    have h2 : ((followers.getD b []).map (fun w => walksN follows 0 a w)).sum =
        if a ∈ followers.getD b [] then 1 else 0 := by
      have he : ((followers.getD b []).map (fun w => walksN follows 0 a w)) =
          ((followers.getD b []).map (fun w => if w = a then 1 else 0)) :=
        List.map_congr_left (fun w _ => by
          show (if a = w then 1 else 0) = if w = a then 1 else 0
          by_cases h : a = w
          · rw [if_pos h, if_pos h.symm]
          · rw [if_neg h, if_neg (fun h' => h h'.symm)])
      rw [he, sum_map_indicator (hndB b)]
    rw [h1, h2]
    by_cases hm : b ∈ follows.getD a []
    · rw [if_pos hm, if_pos ((hdual a b).mp hm)]
    · rw [if_neg hm, if_neg (fun h => hm ((hdual a b).mpr h))]
  | succ d ih =>
    intro a b
    show ((follows.getD a []).map (fun u => walksN follows (d + 1) u b)).sum = _
    have hstep : ((follows.getD a []).map (fun u => walksN follows (d + 1) u b)) =
        ((follows.getD a []).map (fun u =>
          ((followers.getD b []).map (fun w => walksN follows d u w)).sum)) :=
      List.map_congr_left (fun u _ => ih u b)
    rw [hstep, sum_map_swap (fun u w => walksN follows d u w)]
    rfl

/-- Transposition: walk counts along `followers` backwards match walk
counts along `follows` forwards. -/
theorem walksN_transpose {follows followers : List (List Nat)}
    (hdual : ∀ u v, v ∈ follows.getD u [] ↔ u ∈ followers.getD v [])
    (hndF : ∀ i, (follows.getD i []).Nodup)
    (hndB : ∀ i, (followers.getD i []).Nodup) :
    ∀ (d a b : Nat), walksN followers d b a = walksN follows d a b := by
  intro d
  induction d with
  | zero =>
    intro a b
    show (if b = a then 1 else 0) = if a = b then 1 else 0
    by_cases h : a = b
    · rw [if_pos h.symm, if_pos h]
    · rw [if_neg (fun h' => h h'.symm), if_neg h]
  | succ d ih =>
    intro a b
    show ((followers.getD b []).map (fun w => walksN followers d w a)).sum = _
    have he : ((followers.getD b []).map (fun w => walksN followers d w a)) =
        ((followers.getD b []).map (fun w => walksN follows d a w)) :=
      List.map_congr_left (fun w _ => ih a w)
    rw [he, ← walksN_last_edge hdual hndF hndB d a b]

/-- At an exact level `dd + 1` vertex, the walk count is the sum of the
level-`dd` walk counts of its in-neighbors on the frontier — the exact sum
the BFS accumulates when it discovers the vertex. -/
theorem walksN_level_sum {follows followers : List (List Nat)} {s u dd : Nat}
    {cur : List Nat}
    (hdual : ∀ a b, b ∈ follows.getD a [] ↔ a ∈ followers.getD b [])
    (hndF : ∀ i, (follows.getD i []).Nodup)
    (hndB : ∀ i, (followers.getD i []).Nodup)
    (hcur : ∀ p, p ∈ cur ↔ LR follows s p dd) (hnd : cur.Nodup)
    (hu : LR follows s u (dd + 1)) :
    walksN follows (dd + 1) s u =
      (cur.map (fun p => if u ∈ follows.getD p [] then walksN follows dd s p
        else 0)).sum := by
  rw [walksN_last_edge hdual hndF hndB dd s u]
  have hz : ((followers.getD u []).map (fun w => walksN follows dd s w)) =
      ((followers.getD u []).map (fun w =>
        if w ∈ cur then walksN follows dd s w else 0)) := by
    refine List.map_congr_left (fun w hw => ?_)
    by_cases hwc : w ∈ cur
    · rw [if_pos hwc]
    · rw [if_neg hwc]
      cases hval : walksN follows dd s w with
      | zero => rfl
      | succ n =>
        exfalso
        have hpos : 0 < walksN follows dd s w := by omega
        have hr := walksN_pos_iff.mp hpos
        obtain ⟨e, he, hLw⟩ := exists_LR_of_reachN hr
        have hedge : u ∈ follows.getD w [] := (hdual w u).mpr hw
        have he2 : e = dd := by
          by_contra hne
          have hstep : reachN follows (e + 1) s u = true :=
            reachN_snoc hLw.1 hedge
          rw [hu.2 (e + 1) (by omega)] at hstep
          exact Bool.noConfusion hstep
        subst he2
        exact hwc ((hcur w).mpr hLw)
  rw [hz, sum_swap_nodup (hndB u) hnd]
  refine congrArg List.sum (List.map_congr_left (fun p _ => ?_))
  by_cases hpf : u ∈ follows.getD p []
  · rw [if_pos ((hdual p u).mp hpf), if_pos hpf]
  · rw [if_neg (fun h => hpf ((hdual p u).mpr h)), if_neg hpf]

/-! ### Path counts through the expansion folds -/

theorem u64mod_pos : 0 < U64MOD := Nat.pos_pow_of_pos 64 (by decide)

/-- Entries at a different depth than the one being written survive
`entryUpdate` byte for byte. -/
theorem entryUpdate_vis_stable {dist np nb : Nat} {c : SideCtx} {v d0 cv : Nat}
    (hv : c.ownVisited v = some (d0, cv)) (hne : d0 ≠ dist) :
    (entryUpdate dist np nb c).ownVisited v = some (d0, cv) := by
  by_cases hvb : v = nb
  · subst hvb
    unfold entryUpdate
    rw [hv]
    dsimp only
    rw [if_neg hne]
    exact hv
  · rw [entryUpdate_vis_ne _ _ _ _ hvb]
    exact hv

/-- Exact per-vertex effect of expanding one duplicate-free neighbor list:
a vacant entry is created with the generator's count, an entry at the
current depth accumulates it once, everything else is untouched. -/
theorem entryFold_count {dist np : Nat} :
    ∀ {nbs : List Nat} {c : SideCtx} {u : Nat}, nbs.Nodup →
      (entryFold dist np nbs c).ownVisited u =
        if u ∈ nbs then
          match c.ownVisited u with
          | none => some (dist, np)
          | some (d0, c0) =>
            if d0 = dist then some (d0, u64add c0 np) else some (d0, c0)
        else c.ownVisited u := by
  intro nbs
  induction nbs with
  | nil =>
    intro c u _
    rw [if_neg (List.not_mem_nil u)]
    rfl
  | cons nb rest ih =>
    intro c u hnd
    obtain ⟨hnr, hnd'⟩ := List.nodup_cons.mp hnd
    show (entryFold dist np rest (entryUpdate dist np nb c)).ownVisited u = _
    rw [ih hnd']
    by_cases hub : u = nb
    · subst hub
      rw [if_neg hnr, if_pos (List.mem_cons_self _ _)]
      unfold entryUpdate
      cases hv : c.ownVisited u with
      | none =>
        dsimp only
        show mapInsert c.ownVisited u (dist, np) u = some (dist, np)
        unfold mapInsert
        rw [if_pos rfl]
      | some v0 =>
        obtain ⟨d0, c0⟩ := v0
        dsimp only
        by_cases hd : d0 = dist
        · rw [if_pos hd, if_pos hd]
          show mapInsert c.ownVisited u (d0, u64add c0 np) u = _
          unfold mapInsert
          rw [if_pos rfl]
        · rw [if_neg hd, if_neg hd]
          exact hv
    · rw [entryUpdate_vis_ne _ _ _ _ hub]
      by_cases hur : u ∈ rest
      · rw [if_pos hur, if_pos (List.mem_cons_of_mem _ hur)]
      · rw [if_neg hur,
          if_neg (fun h => (List.mem_cons.mp h).elim (fun h' => hub h') hur)]

/-- Exact per-vertex effect of expanding one whole level with duplicate-free
adjacency: across the frontier, the generators' stored counts accumulate
modulo `2^64` onto vacant or current-depth entries; older entries and
ungenerated vertices are untouched. -/
theorem expandPure_count {dd : Nat} {adj : List (List Nat)}
    (hadjN : ∀ i, (adj.getD i []).Nodup) :
    ∀ {cur : List Nat} {c : SideCtx} {u : Nat},
      (∀ v cv, c.ownVisited v = some (dd + 1, cv) → cv < U64MOD) →
      (∀ p ∈ cur, ∃ d0 cv, c.ownVisited p = some (d0, cv) ∧ d0 ≤ dd ∧
        cv < U64MOD) →
      (expandPure (dd + 1) adj cur c).ownVisited u =
        (match c.ownVisited u with
         | none =>
           if ∃ p ∈ cur, u ∈ adj.getD p [] then
             some (dd + 1,
               (cur.map (fun p => if u ∈ adj.getD p [] then
                 ((c.ownVisited p).getD (0, 0)).2 else 0)).sum % U64MOD)
           else none
         | some (d0, cv) =>
           if d0 = dd + 1 then
             some (d0, (cv +
               (cur.map (fun p => if u ∈ adj.getD p [] then
                 ((c.ownVisited p).getD (0, 0)).2 else 0)).sum) % U64MOD)
           else some (d0, cv)) := by
  intro cur
  induction cur with
  | nil =>
    intro c u h2 h3
    cases hvu : c.ownVisited u with
    | none =>
      dsimp only
      rw [if_neg (by simp)]
      exact hvu
    | some v0 =>
      obtain ⟨d0, cv⟩ := v0
      dsimp only
      by_cases hd : d0 = dd + 1
      · rw [if_pos hd]
        subst hd
        have hlt := h2 u cv hvu
        simp only [List.map_nil, List.sum_nil, Nat.add_zero,
          Nat.mod_eq_of_lt hlt]
        exact hvu
      · rw [if_neg hd]
        exact hvu
  | cons p rest ih =>
    intro c u h2 h3
    obtain ⟨dp, cp, hvp, hdp, hcp⟩ := h3 p (List.mem_cons_self _ _)
    have hnp : ((c.ownVisited p).getD (0, 0)).2 = cp := by
      rw [hvp]
      rfl
    show (expandPure (dd + 1) adj rest
      (entryFold (dd + 1) (((c.ownVisited p).getD (0, 0)).2)
        (adj.getD p []) c)).ownVisited u = _
    rw [hnp]
    have hc' : ∀ v, (entryFold (dd + 1) cp (adj.getD p []) c).ownVisited v =
        if v ∈ adj.getD p [] then
          match c.ownVisited v with
          | none => some (dd + 1, cp)
          | some (d0, c0) =>
            if d0 = dd + 1 then some (d0, u64add c0 cp) else some (d0, c0)
        else c.ownVisited v :=
      fun v => entryFold_count (hadjN p)
    have hstable : ∀ q ∈ rest,
        (entryFold (dd + 1) cp (adj.getD p []) c).ownVisited q =
          c.ownVisited q := by
      intro q hq
      obtain ⟨dq, cq, hvq, hdq, hcq⟩ := h3 q (List.mem_cons_of_mem _ hq)
      rw [hc' q]
      by_cases hqp : q ∈ adj.getD p []
      · rw [if_pos hqp, hvq]
        dsimp only
        rw [if_neg (show ¬(dq = dd + 1) by omega)]
      · rw [if_neg hqp]
    have h2' : ∀ v cv, (entryFold (dd + 1) cp (adj.getD p []) c).ownVisited v =
        some (dd + 1, cv) → cv < U64MOD := by
      intro v cv hv
      rw [hc' v] at hv
      by_cases hvm : v ∈ adj.getD p []
      · rw [if_pos hvm] at hv
        cases hvv : c.ownVisited v with
        | none =>
          rw [hvv] at hv
          dsimp only at hv
          have h : cp = cv := congrArg Prod.snd (Option.some.inj hv)
          exact h ▸ hcp
        | some v0 =>
          obtain ⟨d0, c0⟩ := v0
          rw [hvv] at hv
          dsimp only at hv
          by_cases hd : d0 = dd + 1
          · rw [if_pos hd] at hv
            have h : u64add c0 cp = cv := congrArg Prod.snd (Option.some.inj hv)
            exact h ▸ Nat.mod_lt _ u64mod_pos
          · rw [if_neg hd] at hv
            have h : d0 = dd + 1 := congrArg Prod.fst (Option.some.inj hv)
            exact absurd h hd
      · rw [if_neg hvm] at hv
        exact h2 v cv hv
    have h3' : ∀ q ∈ rest, ∃ d0 cv,
        (entryFold (dd + 1) cp (adj.getD p []) c).ownVisited q =
          some (d0, cv) ∧ d0 ≤ dd ∧ cv < U64MOD := by
      intro q hq
      obtain ⟨dq, cq, hvq, hdq, hcq⟩ := h3 q (List.mem_cons_of_mem _ hq)
      exact ⟨dq, cq, by rw [hstable q hq]; exact hvq, hdq, hcq⟩
    rw [ih h2' h3']
    have hsums : (rest.map (fun q => if u ∈ adj.getD q [] then
        (((entryFold (dd + 1) cp (adj.getD p []) c).ownVisited q).getD
          (0, 0)).2 else 0)).sum =
        (rest.map (fun q => if u ∈ adj.getD q [] then
          ((c.ownVisited q).getD (0, 0)).2 else 0)).sum := by
      refine congrArg List.sum (List.map_congr_left (fun q hq => ?_))
      rw [hstable q hq]
    have hScons : ((p :: rest).map (fun q => if u ∈ adj.getD q [] then
        ((c.ownVisited q).getD (0, 0)).2 else 0)).sum =
        (if u ∈ adj.getD p [] then cp else 0) +
          (rest.map (fun q => if u ∈ adj.getD q [] then
            ((c.ownVisited q).getD (0, 0)).2 else 0)).sum := by
      rw [List.map_cons, List.sum_cons, hnp]
    cases hvu : c.ownVisited u with
    | none =>
      by_cases hup : u ∈ adj.getD p []
      · have hcu : (entryFold (dd + 1) cp (adj.getD p []) c).ownVisited u =
            some (dd + 1, cp) := by
          rw [hc' u, if_pos hup, hvu]
        rw [hcu]
        dsimp only
        rw [if_pos rfl]
        rw [if_pos ⟨p, List.mem_cons_self _ _, hup⟩, hsums, hScons,
          if_pos hup]
      · have hcu : (entryFold (dd + 1) cp (adj.getD p []) c).ownVisited u =
            none := by
          rw [hc' u, if_neg hup]
          exact hvu
        rw [hcu]
        dsimp only
        rw [hsums]
        by_cases hex : ∃ q ∈ rest, u ∈ adj.getD q []
        · obtain ⟨q, hq, hqm⟩ := hex
          rw [if_pos ⟨q, hq, hqm⟩,
            if_pos ⟨q, List.mem_cons_of_mem _ hq, hqm⟩, hScons, if_neg hup,
            Nat.zero_add]
        · rw [if_neg hex, if_neg ?hne]
          case hne =>
            rintro ⟨q, hq, hqm⟩
            rcases List.mem_cons.mp hq with rfl | hq'
            · exact hup hqm
            · exact hex ⟨q, hq', hqm⟩
    | some v0 =>
      obtain ⟨d0, cv⟩ := v0
      by_cases hd : d0 = dd + 1
      · subst hd
        by_cases hup : u ∈ adj.getD p []
        · have hcu : (entryFold (dd + 1) cp (adj.getD p []) c).ownVisited u =
              some (dd + 1, u64add cv cp) := by
            rw [hc' u, if_pos hup, hvu]
            dsimp only
            rw [if_pos rfl]
          rw [hcu]
          dsimp only
          rw [if_pos rfl, if_pos rfl, hsums, hScons, if_pos hup]
          show some (dd + 1, ((cv + cp) % U64MOD + _) % U64MOD) = _
          rw [Nat.mod_add_mod, Nat.add_assoc]
        · have hcu : (entryFold (dd + 1) cp (adj.getD p []) c).ownVisited u =
              some (dd + 1, cv) := by
            rw [hc' u, if_neg hup]
            exact hvu
          rw [hcu]
          dsimp only
          rw [if_pos rfl, if_pos rfl, hsums, hScons, if_neg hup,
            Nat.zero_add]
      · have hcu : (entryFold (dd + 1) cp (adj.getD p []) c).ownVisited u =
            some (d0, cv) := by
          rw [hc' u]
          by_cases hup : u ∈ adj.getD p []
          · rw [if_pos hup, hvu]
            dsimp only
            rw [if_neg hd]
          · rw [if_neg hup]
            exact hvu
        rw [hcu]
        dsimp only
        rw [if_neg hd, if_neg hd]

/-! ### The crossing expansion's meeting list (`include_bridges = true`) -/

/-- With `include_bridges = true` the inner loop never takes the early
exit. -/
theorem processNeighbors_true_no_exit {isFwd : Bool} {dist : Nat}
    {opp : Nat → Option (Nat × Nat)} {np : Nat} :
    ∀ {nbs : List Nat} {c : SideCtx},
      (processNeighbors isFwd true dist opp np nbs c).2 = false := by
  intro nbs
  induction nbs with
  | nil => intro c; rfl
  | cons nb rest ih =>
    intro c
    cases hOpp : opp nb with
    | none =>
      rw [processNeighbors_cons_not_met hOpp]
      exact ih
    | some v =>
      obtain ⟨dOpp, pOpp⟩ := v
      rw [processNeighbors_cons_met_true hOpp]
      exact ih

theorem processNodes_true_no_exit {isFwd : Bool} {dist : Nat}
    {opp : Nat → Option (Nat × Nat)} {adj : List (List Nat)} :
    ∀ {nodes : List Nat} {c : SideCtx},
      (processNodes isFwd true dist opp adj nodes c).2 = false := by
  intro nodes
  induction nodes with
  | nil => intro c; rfl
  | cons node rest ih =>
    intro c
    rw [processNodes_cons_cont processNeighbors_true_no_exit]
    exact ih

/-- Entries at a different depth survive one inner-loop step. -/
theorem processNeighbors_vis_stable {isFwd ib : Bool} {dist : Nat}
    {opp : Nat → Option (Nat × Nat)} {np : Nat} :
    ∀ {nbs : List Nat} {c : SideCtx} {v d0 cv : Nat},
      c.ownVisited v = some (d0, cv) → d0 ≠ dist →
      ((processNeighbors isFwd ib dist opp np nbs c).1.ownVisited) v =
        some (d0, cv) := by
  intro nbs
  induction nbs with
  | nil => intro c v d0 cv hv _; exact hv
  | cons nb rest ih =>
    intro c v d0 cv hv hne
    cases hOpp : opp nb with
    | none =>
      rw [processNeighbors_cons_not_met hOpp]
      exact ih (entryUpdate_vis_stable hv hne) hne
    | some w =>
      obtain ⟨dOpp, pOpp⟩ := w
      cases ib with
      | true =>
        rw [processNeighbors_cons_met_true hOpp]
        refine ih (entryUpdate_vis_stable ?_ hne) hne
        rw [meetUpdate_vis]
        exact hv
      | false =>
        rw [processNeighbors_cons_met_false hOpp]
        show (meetUpdate isFwd dist dOpp np pOpp nb c).ownVisited v = _
        rw [meetUpdate_vis]
        exact hv

/-- The meeting-state invariant on the crossing expansion: either nothing
has been found yet (and the meeting list is empty), or the best distance
is exactly `D`. -/
def MSt (D : Nat) (c : SideCtx) : Prop :=
  (c.best = none ∧ c.meeting = []) ∨ c.best = some D

/-- The meeting tuples one frontier node contributes. -/
def meetRow (isFwd : Bool) (opp : Nat → Option (Nat × Nat)) (np : Nat) :
    List Nat → List (Nat × Nat × Nat)
  | [] => []
  | nb :: rest =>
    match opp nb with
    | some (_, pOpp) =>
      (if isFwd then (nb, np, pOpp) else (nb, pOpp, np)) ::
        meetRow isFwd opp np rest
    | none => meetRow isFwd opp np rest

theorem meetRow_cons_none {isFwd : Bool} {opp : Nat → Option (Nat × Nat)}
    {np nb : Nat} {rest : List Nat} (h : opp nb = none) :
    meetRow isFwd opp np (nb :: rest) = meetRow isFwd opp np rest := by
  conv_lhs => rw [meetRow]
  rw [h]

theorem meetRow_cons_some {isFwd : Bool} {opp : Nat → Option (Nat × Nat)}
    {np nb dOpp pOpp : Nat} {rest : List Nat}
    (h : opp nb = some (dOpp, pOpp)) :
    meetRow isFwd opp np (nb :: rest) =
      (if isFwd then (nb, np, pOpp) else (nb, pOpp, np)) ::
        meetRow isFwd opp np rest := by
  conv_lhs => rw [meetRow]
  rw [h]

/-- The meeting tuples a whole frontier contributes, reading each node's
stored path count from `vis0`. -/
def meetRows (isFwd : Bool) (opp vis0 : Nat → Option (Nat × Nat))
    (adj : List (List Nat)) : List Nat → List (Nat × Nat × Nat)
  | [] => []
  | p :: rest =>
    meetRow isFwd opp (((vis0 p).getD (0, 0)).2) (adj.getD p []) ++
      meetRows isFwd opp vis0 adj rest

theorem meetRows_congr {isFwd : Bool} {opp vis1 vis2 : Nat → Option (Nat × Nat)}
    {adj : List (List Nat)} :
    ∀ {l : List Nat}, (∀ p ∈ l, vis1 p = vis2 p) →
      meetRows isFwd opp vis1 adj l = meetRows isFwd opp vis2 adj l := by
  intro l
  induction l with
  | nil => intro _; rfl
  | cons p rest ih =>
    intro h
    show meetRow _ _ _ _ ++ _ = meetRow _ _ _ _ ++ _
    rw [h p (List.mem_cons_self _ _), ih (fun q hq => h q (List.mem_cons_of_mem _ hq))]

/-- When every possible total is exactly `D`, one `meetUpdate` appends its
tuple and pins the best distance at `D`. -/
theorem meetUpdate_crossing {isFwd : Bool} {dist dOpp np pOpp nb D : Nat}
    {c : SideCtx} (hms : MSt D c) (htot : dist + dOpp = D) :
    (meetUpdate isFwd dist dOpp np pOpp nb c).best = some D ∧
    (meetUpdate isFwd dist dOpp np pOpp nb c).meeting =
      c.meeting ++ [if isFwd then (nb, np, pOpp) else (nb, pOpp, np)] := by
  unfold meetUpdate
  rcases hms with ⟨hbn, hml⟩ | hbD
  · rw [hbn]
    dsimp only
    rw [if_pos rfl]
    subst htot
    exact ⟨rfl, by rw [hml]⟩
  · rw [hbD]
    dsimp only
    rw [if_neg (show ¬(dist + dOpp < D) by omega)]
    rw [hbD, htot, if_pos rfl]
    exact ⟨rfl, rfl⟩

/-- Inner crossing loop: the meeting list grows by exactly this node's
row, and the meeting state is maintained. -/
theorem processNeighbors_crossing {isFwd : Bool} {dist D : Nat}
    {opp : Nat → Option (Nat × Nat)} {np : Nat} :
    ∀ {nbs : List Nat} {c : SideCtx},
      (∀ nb ∈ nbs, ∀ dOpp cOpp, opp nb = some (dOpp, cOpp) →
        dist + dOpp = D) →
      MSt D c →
      (processNeighbors isFwd true dist opp np nbs c).1.meeting =
        c.meeting ++ meetRow isFwd opp np nbs ∧
      MSt D (processNeighbors isFwd true dist opp np nbs c).1 := by
  intro nbs
  induction nbs with
  | nil =>
    intro c _ hms
    exact ⟨(List.append_nil _).symm, hms⟩
  | cons nb rest ih =>
    intro c htot hms
    cases hOpp : opp nb with
    | none =>
      rw [processNeighbors_cons_not_met hOpp]
      have hrow : meetRow isFwd opp np (nb :: rest) = meetRow isFwd opp np rest :=
        meetRow_cons_none hOpp
      have hms' : MSt D (entryUpdate dist np nb c) := by
        unfold MSt
        rw [entryUpdate_best, entryUpdate_meeting]
        exact hms
      obtain ⟨hm, hs⟩ := ih (fun nb' h' => htot nb' (List.mem_cons_of_mem _ h'))
        hms'
      rw [hm, entryUpdate_meeting, hrow]
      exact ⟨rfl, hs⟩
    | some w =>
      obtain ⟨dOpp, pOpp⟩ := w
      rw [processNeighbors_cons_met_true hOpp]
      have hDt := htot nb (List.mem_cons_self _ _) dOpp pOpp hOpp
      obtain ⟨hbD, hmD⟩ := @meetUpdate_crossing isFwd dist dOpp np pOpp nb D
        c hms hDt
      have hms' : MSt D (entryUpdate dist np nb
          (meetUpdate isFwd dist dOpp np pOpp nb c)) := by
        unfold MSt
        rw [entryUpdate_best, hbD]
        exact Or.inr rfl
      obtain ⟨hm, hs⟩ := ih (fun nb' h' => htot nb' (List.mem_cons_of_mem _ h'))
        hms'
      rw [hm, entryUpdate_meeting, hmD]
      rw [meetRow_cons_some hOpp, List.append_assoc]
      exact ⟨rfl, hs⟩

/-- Outer crossing loop: the full meeting list is the concatenation of the
frontier rows, read against the pre-expansion visited map. -/
theorem processNodes_crossing {isFwd : Bool} {dist D : Nat}
    {opp : Nat → Option (Nat × Nat)} {adj : List (List Nat)} :
    ∀ {nodes : List Nat} {c : SideCtx},
      (∀ p ∈ nodes, ∃ d0 cv, c.ownVisited p = some (d0, cv) ∧ d0 ≠ dist) →
      (∀ p ∈ nodes, ∀ nb ∈ adj.getD p [], ∀ dOpp cOpp,
        opp nb = some (dOpp, cOpp) → dist + dOpp = D) →
      MSt D c →
      (processNodes isFwd true dist opp adj nodes c).1.meeting =
        c.meeting ++ meetRows isFwd opp c.ownVisited adj nodes ∧
      MSt D (processNodes isFwd true dist opp adj nodes c).1 := by
  intro nodes
  induction nodes with
  | nil =>
    intro c _ _ hms
    exact ⟨(List.append_nil _).symm, hms⟩
  | cons p rest ih =>
    intro c hst htot hms
    rw [processNodes_cons_cont processNeighbors_true_no_exit]
    obtain ⟨hm1, hs1⟩ := @processNeighbors_crossing isFwd dist D opp
      (((c.ownVisited p).getD (0, 0)).2) (adj.getD p []) c
      (htot p (List.mem_cons_self _ _)) hms
    have hstab : ∀ q ∈ rest,
        (processNeighbors isFwd true dist opp (((c.ownVisited p).getD (0, 0)).2)
          (adj.getD p []) c).1.ownVisited q = c.ownVisited q := by
      intro q hq
      obtain ⟨dq, cq, hvq, hdq⟩ := hst q (List.mem_cons_of_mem _ hq)
      rw [hvq]
      exact processNeighbors_vis_stable hvq hdq
    obtain ⟨hm2, hs2⟩ := ih
      (fun q hq => by
        obtain ⟨dq, cq, hvq, hdq⟩ := hst q (List.mem_cons_of_mem _ hq)
        exact ⟨dq, cq, by rw [hstab q hq]; exact hvq, hdq⟩)
      (fun q hq nb hnb => htot q (List.mem_cons_of_mem _ hq) nb hnb)
      hs1
    rw [hm2, hm1, meetRows_congr hstab, List.append_assoc]
    exact ⟨rfl, hs2⟩

/-! ### Summing the meeting products -/

theorem meetRow_prod_sum {isFwd : Bool} {opp : Nat → Option (Nat × Nat)}
    {np : Nat} :
    ∀ {nbs : List Nat},
      ((meetRow isFwd opp np nbs).map (fun m => m.2.1 * m.2.2)).sum =
        (nbs.map (fun nb => match opp nb with
          | some q => np * q.2
          | none => 0)).sum := by
  intro nbs
  induction nbs with
  | nil => cases isFwd <;> rfl
  | cons nb rest ih =>
    cases hOpp : opp nb with
    | none =>
      rw [meetRow_cons_none hOpp, ih, List.map_cons, List.sum_cons, hOpp]
      simp
    | some q =>
      obtain ⟨dOpp, pOpp⟩ := q
      rw [meetRow_cons_some hOpp, List.map_cons, List.sum_cons, ih,
        List.map_cons, List.sum_cons, hOpp]
      cases isFwd <;> simp [Nat.mul_comm]

theorem meetRows_prod_sum {isFwd : Bool} {opp vis0 : Nat → Option (Nat × Nat)}
    {adj : List (List Nat)} :
    ∀ {nodes : List Nat},
      ((meetRows isFwd opp vis0 adj nodes).map (fun m => m.2.1 * m.2.2)).sum =
        (nodes.map (fun p => ((adj.getD p []).map (fun nb =>
          match opp nb with
          | some q => ((vis0 p).getD (0, 0)).2 * q.2
          | none => 0)).sum)).sum := by
  intro nodes
  induction nodes with
  | nil => rfl
  | cons p rest ih =>
    show ((meetRow _ _ _ _ ++ meetRows _ _ _ _ rest).map _).sum = _
    rw [List.map_append, List.sum_append, ih, meetRow_prod_sum,
      List.map_cons, List.sum_cons]

/-- The finalizer's wrapping fold over meeting tuples is the plain product
sum reduced modulo `2^64`. -/
theorem foldl_u64_sum :
    ∀ (L : List (Nat × Nat × Nat)) (acc : Nat), acc < U64MOD →
      L.foldl (fun a m => u64add a (u64mul m.2.1 m.2.2)) acc =
        (acc + (L.map (fun m => m.2.1 * m.2.2)).sum) % U64MOD := by
  intro L
  induction L with
  | nil =>
    intro acc hacc
    rw [List.foldl_nil, List.map_nil, List.sum_nil, Nat.add_zero,
      Nat.mod_eq_of_lt hacc]
  | cons m L ih =>
    intro acc hacc
    rw [List.foldl_cons,
      ih (u64add acc (u64mul m.2.1 m.2.2))
        (by unfold u64add; exact Nat.mod_lt _ u64mod_pos),
      List.map_cons, List.sum_cons]
    show (u64add acc (u64mul m.2.1 m.2.2) + _) % U64MOD = _
    unfold u64add u64mul
    rw [Nat.mod_add_mod]
    rw [show acc + m.2.1 * m.2.2 % U64MOD +
        (L.map (fun m => m.2.1 * m.2.2)).sum =
        acc + (L.map (fun m => m.2.1 * m.2.2)).sum +
          m.2.1 * m.2.2 % U64MOD from by omega,
      show acc + (m.2.1 * m.2.2 + (L.map (fun m => m.2.1 * m.2.2)).sum) =
        acc + (L.map (fun m => m.2.1 * m.2.2)).sum + m.2.1 * m.2.2 from
        by omega,
      Nat.add_mod_mod]

theorem sum_map_mod_congr {f g : Nat → Nat} {M : Nat} :
    ∀ {l : List Nat}, (∀ x ∈ l, f x % M = g x % M) →
      (l.map f).sum % M = (l.map g).sum % M := by
  intro l
  induction l with
  | nil => intro _; rfl
  | cons a l ih =>
    intro h
    rw [List.map_cons, List.sum_cons, List.map_cons, List.sum_cons,
      Nat.add_mod, h a (List.mem_cons_self _ _),
      ih (fun x hx => h x (List.mem_cons_of_mem _ hx)), ← Nat.add_mod]

theorem mul_mod_congr {a a' b b' M : Nat} (ha : a % M = a' % M)
    (hb : b % M = b' % M) : a * b % M = a' * b' % M := by
  rw [Nat.mul_mod, ha, hb, ← Nat.mul_mod]

theorem sum_map_mul_right {c : Nat} {f : Nat → Nat} :
    ∀ {l : List Nat}, (l.map (fun x => f x * c)).sum = (l.map f).sum * c := by
  intro l
  induction l with
  | nil => simp
  | cons a l ih => simp [ih, Nat.add_mul]

theorem walksN_succ (adj : List (List Nat)) (d u v : Nat) :
    walksN adj (d + 1) u v =
      ((adj.getD u []).map (fun w => walksN adj d w v)).sum := rfl

/-- Advancing the geodesic product sum one level: the sum over the exact
level-`F` vertices of (walks from the root) × (walks to the target of the
complementary length) is unchanged when the frontier advances to level
`F + 1`. -/
theorem walksN_step_sum {follows followers : List (List Nat)}
    (hdual : ∀ u v, v ∈ follows.getD u [] ↔ u ∈ followers.getD v [])
    (hndF : ∀ i, (follows.getD i []).Nodup)
    (hndB : ∀ i, (followers.getD i []).Nodup)
    {s t D F : Nat} (hD : LR follows s t D) (hF1 : F + 1 ≤ D)
    {curF curF1 : List Nat}
    (hmF : ∀ p, p ∈ curF ↔ LR follows s p F) (hndC : curF.Nodup)
    (hmF1 : ∀ p, p ∈ curF1 ↔ LR follows s p (F + 1)) (hndC1 : curF1.Nodup) :
    (curF.map (fun p =>
      walksN follows F s p * walksN follows (D - F) p t)).sum =
      (curF1.map (fun u =>
        walksN follows (F + 1) s u * walksN follows (D - (F + 1)) u t)).sum := by
  have hW0 : ∀ p ∈ curF, ∀ nb ∈ follows.getD p [], nb ∉ curF1 →
      walksN follows (D - (F + 1)) nb t = 0 := by
    intro p hp nb hnb hnot
    by_contra hne
    have hpos : 0 < walksN follows (D - (F + 1)) nb t := Nat.pos_of_ne_zero hne
    have hr := walksN_pos_iff.mp hpos
    obtain ⟨e, he, hLe⟩ := exists_LR_of_reachN hr
    have hLp := (hmF p).mp hp
    have hrnb : reachN follows (F + 1) s nb = true := reachN_snoc hLp.1 hnb
    obtain ⟨d0, hd0, hLnb⟩ := exists_LR_of_reachN hrnb
    have hd0F : d0 ≤ F := by
      rcases Nat.lt_or_ge d0 (F + 1) with h | h
      · omega
      · exfalso
        have hdd : d0 = F + 1 := by omega
        exact hnot ((hmF1 nb).mpr (hdd ▸ hLnb))
    have htot : reachN follows (d0 + e) s t = true := reachN_trans hLnb.1 hLe.1
    rw [hD.2 (d0 + e) (by omega)] at htot
    exact Bool.noConfusion htot
  have hRHS : (curF1.map (fun u =>
      walksN follows (F + 1) s u * walksN follows (D - (F + 1)) u t)) =
      (curF1.map (fun u =>
        (curF.map (fun p => (if u ∈ follows.getD p [] then walksN follows F s p
          else 0) * walksN follows (D - (F + 1)) u t)).sum)) := by
    refine List.map_congr_left (fun u hu => ?_)
    rw [walksN_level_sum hdual hndF hndB hmF hndC ((hmF1 u).mp hu)]
    exact sum_map_mul_right.symm
  rw [hRHS, sum_map_swap (fun u p => (if u ∈ follows.getD p [] then
    walksN follows F s p else 0) * walksN follows (D - (F + 1)) u t)]
  refine congrArg List.sum (List.map_congr_left (fun p hp => ?_))
  have hA : (curF1.map (fun u => (if u ∈ follows.getD p [] then
      walksN follows F s p else 0) * walksN follows (D - (F + 1)) u t)) =
      (curF1.map (fun u => walksN follows F s p *
        (if u ∈ follows.getD p [] then walksN follows (D - (F + 1)) u t
          else 0))) := by
    refine List.map_congr_left (fun u _ => ?_)
    by_cases h : u ∈ follows.getD p []
    · rw [if_pos h, if_pos h]
    · rw [if_neg h, if_neg h, Nat.zero_mul, Nat.mul_zero]
  rw [hA, sum_map_mul_left]
  refine congrArg (fun x => walksN follows F s p * x) ?_
  rw [sum_swap_nodup hndC1 (hndF p)]
  have hB : ((follows.getD p []).map (fun u => if u ∈ curF1 then
      walksN follows (D - (F + 1)) u t else 0)) =
      ((follows.getD p []).map (fun u =>
        walksN follows (D - (F + 1)) u t)) := by
    refine List.map_congr_left (fun nb hnb => ?_)
    by_cases h : nb ∈ curF1
    · rw [if_pos h]
    · rw [if_neg h, hW0 p hp nb hnb h]
  rw [hB]
  have hDF : D - F = (D - (F + 1)) + 1 := by omega
  rw [hDF, walksN_succ]

/-! ### The per-side path-count invariant -/

/-- Every visited entry carries exactly the `2^64`-reduced count of walks
of its recorded depth from the side's root. -/
def SideCnt (spec : List (List Nat)) (root : Nat)
    (vis : Nat → Option (Nat × Nat)) : Prop :=
  ∀ u d c, vis u = some (d, c) → c = walksN spec d root u % U64MOD

/-- A frontier vertex has a visited entry at exactly the frontier level. -/
theorem sideOk_frontier_entry {adj : List (List Nat)} {root lvl : Nat}
    {vis : Nat → Option (Nat × Nat)} {cur : List Nat}
    (hok : SideOk adj root lvl vis cur) {p : Nat} (hp : p ∈ cur) :
    ∃ cp, vis p = some (lvl, cp) := by
  have hvd := hok.2.1 p lvl (Nat.le_refl _) ((hok.2.2 p).mp hp)
  cases hvp : vis p with
  | none =>
    exfalso
    unfold visDepth at hvd
    rw [hvp] at hvd
    exact Option.noConfusion hvd
  | some v0 =>
    obtain ⟨d0, cp⟩ := v0
    have hd0 : d0 = lvl := by
      unfold visDepth at hvd
      rw [hvp] at hvd
      exact Option.some.inj hvd
    subst hd0
    exact ⟨cp, rfl⟩

/-- Expanding one level preserves the count invariant: a newly discovered
level-`lvl + 1` vertex receives exactly the (reduced) sum of the frontier
counts of its in-neighbors, which is its own reduced walk count. -/
theorem sideCnt_expand {follows followers : List (List Nat)} {s lvl : Nat}
    {cur : List Nat} {c : SideCtx}
    (hdual : ∀ a b, b ∈ follows.getD a [] ↔ a ∈ followers.getD b [])
    (hndF : ∀ i, (follows.getD i []).Nodup)
    (hndB : ∀ i, (followers.getD i []).Nodup)
    (hok : SideOk follows s lvl c.ownVisited cur)
    (hcnt : SideCnt follows s c.ownVisited)
    (hnd : cur.Nodup) :
    SideCnt follows s (expandPure (lvl + 1) follows cur c).ownVisited := by
  have h2 : ∀ v cv, c.ownVisited v = some (lvl + 1, cv) → cv < U64MOD := by
    intro v cv hvv
    have h := hcnt v (lvl + 1) cv hvv
    rw [h]
    exact Nat.mod_lt _ u64mod_pos
  have h3 : ∀ p ∈ cur, ∃ d0 cv, c.ownVisited p = some (d0, cv) ∧ d0 ≤ lvl ∧
      cv < U64MOD := by
    intro p hp
    obtain ⟨cp, hvp⟩ := sideOk_frontier_entry hok hp
    refine ⟨lvl, cp, hvp, Nat.le_refl _, ?_⟩
    have h := hcnt p lvl cp hvp
    rw [h]
    exact Nat.mod_lt _ u64mod_pos
  intro u d cc hv
  have heq := @expandPure_count lvl follows hndF cur c u h2 h3
  rw [heq] at hv
  cases hvu : c.ownVisited u with
  | none =>
    rw [hvu] at hv
    dsimp only at hv
    by_cases hgen : ∃ p ∈ cur, u ∈ follows.getD p []
    · rw [if_pos hgen] at hv
      have hp := Option.some.inj hv
      have hdd : lvl + 1 = d := congrArg Prod.fst hp
      have hcc : (cur.map (fun p => if u ∈ follows.getD p [] then
          ((c.ownVisited p).getD (0, 0)).2 else 0)).sum % U64MOD = cc :=
        congrArg Prod.snd hp
      subst hdd
      rw [← hcc]
      have hu : LR follows s u (lvl + 1) := by
        obtain ⟨p, hpc, hup⟩ := hgen
        refine ⟨reachN_snoc ((hok.2.2 p).mp hpc).1 hup, ?_⟩
        intro e he
        cases hre : reachN follows e s u with
        | false => rfl
        | true =>
          obtain ⟨d', hd', hLu⟩ := exists_LR_of_reachN hre
          have hvd := hok.2.1 u d' (by omega) hLu
          unfold visDepth at hvd
          rw [hvu] at hvd
          exact Option.noConfusion hvd
      rw [walksN_level_sum hdual hndF hndB (fun p => hok.2.2 p) hnd hu]
      refine sum_map_mod_congr (fun p hpc => ?_)
      by_cases hup : u ∈ follows.getD p []
      · rw [if_pos hup, if_pos hup]
        obtain ⟨cp, hvp⟩ := sideOk_frontier_entry hok hpc
        have hcp := hcnt p lvl cp hvp
        rw [hvp]
        show cp % U64MOD = _
        rw [hcp, Nat.mod_eq_of_lt (Nat.mod_lt _ u64mod_pos)]
      · rw [if_neg hup, if_neg hup]
    · rw [if_neg hgen] at hv
      exact Option.noConfusion hv
  | some v0 =>
    obtain ⟨d0, cv⟩ := v0
    rw [hvu] at hv
    dsimp only at hv
    have hd0le : d0 ≤ lvl := (hok.1 u d0 (visDepth_some hvu)).2
    rw [if_neg (show ¬(d0 = lvl + 1) by omega)] at hv
    have hp := Option.some.inj hv
    have hdd : d0 = d := congrArg Prod.fst hp
    have hcc : cv = cc := congrArg Prod.snd hp
    subst hdd
    rw [← hcc]
    exact hcnt u d0 cv hvu

/-- Path-count exactness of the search loop with `include_bridges = true`:
from a state satisfying both side invariants, the count invariant, exact
frontier product sums and no recorded meetings, the loop ends with
`best_distance = D` and a meeting list whose product sum is exactly the
`2^64`-reduced number of geodesic walks from `s` to `t`. -/
theorem bfsLoop_counts {follows followers : List (List Nat)} {maxHops : Nat}
    {s t D : Nat}
    (hdual : ∀ u v, v ∈ follows.getD u [] ↔ u ∈ followers.getD v [])
    (hndF : ∀ i, (follows.getD i []).Nodup)
    (hndB : ∀ i, (followers.getD i []).Nodup)
    (hD : LR follows s t D) (hDmax : D ≤ maxHops) (h255 : maxHops ≤ 255) :
    ∀ {fuel F B : Nat} {st : BfsState},
      SideOk follows s F st.fwdVisited st.fwdCurrent →
      SideOk followers t B st.bwdVisited st.bwdCurrent →
      SideCnt follows s st.fwdVisited →
      SideCnt followers t st.bwdVisited →
      st.fwdCurrent.Nodup → st.bwdCurrent.Nodup →
      (st.fwdCurrent.map (fun p =>
        walksN follows F s p * walksN follows (D - F) p t)).sum =
        walksN follows D s t →
      (st.bwdCurrent.map (fun p =>
        walksN followers B t p * walksN followers (D - B) p s)).sum =
        walksN followers D t s →
      st.bestDistance = none → st.meetingNodes = [] →
      st.fwdNext = [] → st.bwdNext = [] →
      F + B < D → D - (F + B) ≤ fuel →
      (bfsLoop follows followers maxHops true fuel F B st).bestDistance =
        some D ∧
      ((bfsLoop follows followers maxHops true fuel F B st).meetingNodes.map
        (fun m => m.2.1 * m.2.2)).sum % U64MOD =
        walksN follows D s t % U64MOD := by
  have hDbwd : LR followers t s D := by
    constructor
    · rw [reachN_followers_eq hdual]
      exact hD.1
    · intro e he
      rw [reachN_followers_eq hdual]
      exact hD.2 e he
  have hdualR : ∀ u v, v ∈ followers.getD u [] ↔ u ∈ follows.getD v [] :=
    fun u v => (hdual v u).symm
  intro fuel
  induction fuel with
  | zero =>
    intro F B st _ _ _ _ _ _ _ _ _ _ _ _ hFB hfuel
    omega
  | succ fuel ih =>
    intro F B st hfo hbo hfc hbc hfnd hbnd hfsum hbsum hbest hmeet0 hfnil
      hbnil hFB hfuel
    obtain ⟨u0, hu0L, _⟩ := exists_level_vertex hD (show F ≤ D by omega)
    have hu0 : u0 ∈ st.fwdCurrent := (hfo.2.2 u0).mpr hu0L
    have hemp : ¬((st.fwdCurrent.isEmpty && st.bwdCurrent.isEmpty) = true) := by
      intro h
      have ha := ((Bool.and_eq_true _ _).mp h).1
      cases hcc : st.fwdCurrent with
      | nil =>
        rw [hcc] at hu0
        exact absurd hu0 (List.not_mem_nil u0)
      | cons x xs =>
        rw [hcc] at ha
        exact Bool.noConfusion ha
    have hbn' : (match st.bestDistance with
        | some best => decide (best ≤ F + B)
        | none => false) = false := by rw [hbest]
    have hhop : ¬(maxHops < (F + B) % 256) := by
      rw [Nat.mod_eq_of_lt (show F + B < 256 by omega)]
      omega
    cases hef : (if st.fwdCurrent.isEmpty then false
        else if st.bwdCurrent.isEmpty then true
        else decide (st.fwdCurrent.length ≤ st.bwdCurrent.length)) with
    | true =>
      rw [bfsLoop_expand_fwd hemp hbn' hhop hef]
      rw [if_neg (fun h => Bool.noConfusion
        ((@processNodes_true_no_exit true (F + 1) st.bwdVisited follows
          st.fwdCurrent ⟨st.fwdVisited, st.fwdNext, st.meetingNodes,
            st.bestDistance⟩) ▸ h))]
      by_cases hcross : F + 1 + B = D
      · have htotH : ∀ p ∈ st.fwdCurrent, ∀ nb ∈ follows.getD p [],
            ∀ dOpp cOpp, st.bwdVisited nb = some (dOpp, cOpp) →
            (F + 1) + dOpp = D := by
          intro p hp nb hnb dOpp cOpp hopp
          have hLp := (hfo.2.2 p).mp hp
          have hrnb : reachN follows (F + 1) s nb = true :=
            reachN_snoc hLp.1 hnb
          have hvd : visDepth st.bwdVisited nb = some dOpp := by
            unfold visDepth
            rw [hopp]
            rfl
          obtain ⟨hLnb, hdB⟩ := hbo.1 nb dOpp hvd
          have hrnt : reachN follows dOpp nb t = true := by
            rw [← reachN_followers_eq hdual]
            exact hLnb.1
          have htot : reachN follows (F + 1 + dOpp) s t = true :=
            reachN_trans hrnb hrnt
          have hge : ¬(F + 1 + dOpp < D) := by
            intro hlt
            rw [hD.2 (F + 1 + dOpp) hlt] at htot
            exact Bool.noConfusion htot
          omega
        have hstH : ∀ p ∈ st.fwdCurrent, ∃ d0 cv,
            (⟨st.fwdVisited, st.fwdNext, st.meetingNodes, st.bestDistance⟩ :
              SideCtx).ownVisited p = some (d0, cv) ∧ d0 ≠ F + 1 := by
          intro p hp
          obtain ⟨cp, hvp⟩ := sideOk_frontier_entry hfo hp
          exact ⟨F, cp, hvp, by omega⟩
        have hmsH : MSt D ⟨st.fwdVisited, st.fwdNext, st.meetingNodes,
            st.bestDistance⟩ := Or.inl ⟨hbest, hmeet0⟩
        obtain ⟨hmEq, hms'⟩ := @processNodes_crossing true (F + 1) D
          st.bwdVisited follows st.fwdCurrent
          ⟨st.fwdVisited, st.fwdNext, st.meetingNodes, st.bestDistance⟩
          hstH htotH hmsH
        obtain ⟨u, huL, hurest⟩ :=
          exists_level_vertex hD (show F + 1 ≤ D by omega)
        obtain ⟨w, hwL, hedge⟩ := LR_succ_pred huL
        have hw : w ∈ st.fwdCurrent := (hfo.2.2 w).mpr hwL
        have hrub : reachN followers (D - (F + 1)) t u = true := by
          rw [reachN_followers_eq hdual]
          exact hurest
        obtain ⟨d', hd'le, hLu'⟩ := exists_LR_of_reachN hrub
        have hvdu : visDepth st.bwdVisited u = some d' :=
          hbo.2.1 u d' (by omega) hLu'
        have hmet := @processNodes_met_isSome true true (F + 1) st.bwdVisited
          follows st.fwdCurrent ⟨st.fwdVisited, st.fwdNext, st.meetingNodes,
            st.bestDistance⟩ w u hw hedge (visDepth_isSome hvdu)
        rcases hms' with ⟨hbn2, _⟩ | hbD
        · rw [hbn2] at hmet
          simp at hmet
        · have hper : ∀ p ∈ st.fwdCurrent,
              ((follows.getD p []).map (fun nb =>
                match st.bwdVisited nb with
                | some q => ((st.fwdVisited p).getD (0, 0)).2 * q.2
                | none => 0)).sum % U64MOD =
              (walksN follows F s p * walksN follows (D - F) p t) %
                U64MOD := by
            intro p hp
            obtain ⟨cp, hvp⟩ := sideOk_frontier_entry hfo hp
            have hcp := hfc p F cp hvp
            have hnbC : ∀ nb ∈ follows.getD p [],
                (match st.bwdVisited nb with
                 | some q => ((st.fwdVisited p).getD (0, 0)).2 * q.2
                 | none => 0) % U64MOD =
                (walksN follows F s p *
                  walksN follows (D - (F + 1)) nb t) % U64MOD := by
              intro nb hnbm
              cases hbv : st.bwdVisited nb with
              | none =>
                have hzero : walksN follows (D - (F + 1)) nb t = 0 := by
                  by_contra hnz
                  have hpos := Nat.pos_of_ne_zero hnz
                  have hr := walksN_pos_iff.mp hpos
                  have hrB : reachN followers (D - (F + 1)) t nb = true := by
                    rw [reachN_followers_eq hdual]
                    exact hr
                  obtain ⟨e, he, hLe⟩ := exists_LR_of_reachN hrB
                  have hvd := hbo.2.1 nb e (by omega) hLe
                  unfold visDepth at hvd
                  rw [hbv] at hvd
                  exact Option.noConfusion hvd
                show 0 % U64MOD = _
                rw [hzero, Nat.mul_zero]
              | some q =>
                obtain ⟨dOpp, cOpp⟩ := q
                have hdB : dOpp = D - (F + 1) := by
                  have := htotH p hp nb hnbm dOpp cOpp hbv
                  omega
                have hcOpp := hbc nb dOpp cOpp hbv
                subst hdB
                show (((st.fwdVisited p).getD (0, 0)).2 * cOpp) % U64MOD = _
                rw [hvp]
                show (cp * cOpp) % U64MOD = _
                refine mul_mod_congr ?_ ?_
                · rw [hcp, Nat.mod_eq_of_lt (Nat.mod_lt _ u64mod_pos)]
                · rw [hcOpp,
                    walksN_transpose hdual hndF hndB (D - (F + 1)) nb t,
                    Nat.mod_eq_of_lt (Nat.mod_lt _ u64mod_pos)]
            refine (sum_map_mod_congr hnbC).trans ?_
            rw [sum_map_mul_left]
            have hDF : D - F = (D - (F + 1)) + 1 := by omega
            rw [hDF, walksN_succ]
          have hsum : (((meetRows true st.bwdVisited st.fwdVisited follows
              st.fwdCurrent).map (fun m => m.2.1 * m.2.2)).sum) % U64MOD =
              walksN follows D s t % U64MOD := by
            rw [meetRows_prod_sum]
            refine (sum_map_mod_congr hper).trans ?_
            rw [hfsum]
          have hred : ∀ fl, bfsLoop follows followers maxHops true fl
              (F + 1) B
              { st with
                fwdVisited := (processNodes true true (F + 1) st.bwdVisited
                  follows st.fwdCurrent ⟨st.fwdVisited, st.fwdNext,
                    st.meetingNodes, st.bestDistance⟩).1.ownVisited
                fwdCurrent := (processNodes true true (F + 1) st.bwdVisited
                  follows st.fwdCurrent ⟨st.fwdVisited, st.fwdNext,
                    st.meetingNodes, st.bestDistance⟩).1.ownNext
                fwdNext := []
                meetingNodes := (processNodes true true (F + 1) st.bwdVisited
                  follows st.fwdCurrent ⟨st.fwdVisited, st.fwdNext,
                    st.meetingNodes, st.bestDistance⟩).1.meeting
                bestDistance := (processNodes true true (F + 1) st.bwdVisited
                  follows st.fwdCurrent ⟨st.fwdVisited, st.fwdNext,
                    st.meetingNodes, st.bestDistance⟩).1.best } =
              { st with
                fwdVisited := (processNodes true true (F + 1) st.bwdVisited
                  follows st.fwdCurrent ⟨st.fwdVisited, st.fwdNext,
                    st.meetingNodes, st.bestDistance⟩).1.ownVisited
                fwdCurrent := (processNodes true true (F + 1) st.bwdVisited
                  follows st.fwdCurrent ⟨st.fwdVisited, st.fwdNext,
                    st.meetingNodes, st.bestDistance⟩).1.ownNext
                fwdNext := []
                meetingNodes := (processNodes true true (F + 1) st.bwdVisited
                  follows st.fwdCurrent ⟨st.fwdVisited, st.fwdNext,
                    st.meetingNodes, st.bestDistance⟩).1.meeting
                bestDistance := (processNodes true true (F + 1) st.bwdVisited
                  follows st.fwdCurrent ⟨st.fwdVisited, st.fwdNext,
                    st.meetingNodes, st.bestDistance⟩).1.best } := by
            intro fl
            cases fl with
            | zero => rfl
            | succ fl2 => exact bfsLoop_stopBest hbD (by omega)
          rw [hred fuel]
          refine ⟨hbD, ?_⟩
          show (((processNodes true true (F + 1) st.bwdVisited follows
            st.fwdCurrent ⟨st.fwdVisited, st.fwdNext, st.meetingNodes,
              st.bestDistance⟩).1.meeting).map
            (fun m => m.2.1 * m.2.2)).sum % U64MOD = _
          rw [hmEq, show (⟨st.fwdVisited, st.fwdNext, st.meetingNodes,
            st.bestDistance⟩ : SideCtx).meeting =
            ([] : List (Nat × Nat × Nat)) from hmeet0, List.nil_append]
          exact hsum
      · have hnm : ∀ p ∈ st.fwdCurrent, ∀ nb ∈ follows.getD p [],
            st.bwdVisited nb = none := by
          intro p hp nb hnb
          cases hv : st.bwdVisited nb with
          | none => rfl
          | some v =>
            exfalso
            obtain ⟨dOpp, pp⟩ := v
            obtain ⟨hLnb, hdB⟩ := hbo.1 nb dOpp (visDepth_some hv)
            have hLp := (hfo.2.2 p).mp hp
            have hrnt : reachN follows dOpp nb t = true := by
              rw [← reachN_followers_eq hdual]
              exact hLnb.1
            have htot : reachN follows (F + 1 + dOpp) s t = true :=
              reachN_trans (reachN_snoc hLp.1 hnb) hrnt
            rw [hD.2 (F + 1 + dOpp) (by omega)] at htot
            exact Bool.noConfusion htot
        have hpn := @processNodes_nomeet true true (F + 1) st.bwdVisited
          follows st.fwdCurrent ⟨st.fwdVisited, st.fwdNext, st.meetingNodes,
            st.bestDistance⟩ hnm
        have hokF' := @sideOk_advance true true follows st.bwdVisited s F
          st.fwdCurrent ⟨st.fwdVisited, st.fwdNext, st.meetingNodes,
            st.bestDistance⟩ hfo hfnil hnm
        have hcntF' : SideCnt follows s
            ((processNodes true true (F + 1) st.bwdVisited follows
              st.fwdCurrent ⟨st.fwdVisited, st.fwdNext, st.meetingNodes,
                st.bestDistance⟩).1.ownVisited) := by
          rw [hpn]
          exact sideCnt_expand hdual hndF hndB hfo hfc hfnd
        have hndN' : ((processNodes true true (F + 1) st.bwdVisited follows
            st.fwdCurrent ⟨st.fwdVisited, st.fwdNext, st.meetingNodes,
              st.bestDistance⟩).1.ownNext).Nodup := by
          rw [hpn]
          refine (@expandPure_nodup_next (F + 1) follows st.fwdCurrent
            ⟨st.fwdVisited, st.fwdNext, st.meetingNodes, st.bestDistance⟩
            ?_ ?_).1
          · show st.fwdNext.Nodup
            rw [hfnil]
            exact List.nodup_nil
          · intro u hu
            have hu' : u ∈ st.fwdNext := hu
            rw [hfnil] at hu'
            exact absurd hu' (List.not_mem_nil u)
        have hsumF' : (((processNodes true true (F + 1) st.bwdVisited follows
            st.fwdCurrent ⟨st.fwdVisited, st.fwdNext, st.meetingNodes,
              st.bestDistance⟩).1.ownNext).map (fun p =>
            walksN follows (F + 1) s p *
              walksN follows (D - (F + 1)) p t)).sum =
            walksN follows D s t :=
          (walksN_step_sum hdual hndF hndB hD (by omega)
            (fun p => hfo.2.2 p) hfnd (fun p => hokF'.2.2 p) hndN').symm.trans
            hfsum
        have hbest' : (processNodes true true (F + 1) st.bwdVisited follows
            st.fwdCurrent ⟨st.fwdVisited, st.fwdNext, st.meetingNodes,
              st.bestDistance⟩).1.best = none := by
          rw [hpn]
          exact (expandPure_best (F + 1) follows st.fwdCurrent
            ⟨st.fwdVisited, st.fwdNext, st.meetingNodes,
              st.bestDistance⟩).trans hbest
        have hmeet' : (processNodes true true (F + 1) st.bwdVisited follows
            st.fwdCurrent ⟨st.fwdVisited, st.fwdNext, st.meetingNodes,
              st.bestDistance⟩).1.meeting = [] := by
          rw [hpn]
          exact (expandPure_meeting (F + 1) follows st.fwdCurrent
            ⟨st.fwdVisited, st.fwdNext, st.meetingNodes,
              st.bestDistance⟩).trans hmeet0
        exact @ih (F + 1) B
          { st with
            fwdVisited := (processNodes true true (F + 1) st.bwdVisited
              follows st.fwdCurrent ⟨st.fwdVisited, st.fwdNext,
                st.meetingNodes, st.bestDistance⟩).1.ownVisited
            fwdCurrent := (processNodes true true (F + 1) st.bwdVisited
              follows st.fwdCurrent ⟨st.fwdVisited, st.fwdNext,
                st.meetingNodes, st.bestDistance⟩).1.ownNext
            fwdNext := []
            meetingNodes := (processNodes true true (F + 1) st.bwdVisited
              follows st.fwdCurrent ⟨st.fwdVisited, st.fwdNext,
                st.meetingNodes, st.bestDistance⟩).1.meeting
            bestDistance := (processNodes true true (F + 1) st.bwdVisited
              follows st.fwdCurrent ⟨st.fwdVisited, st.fwdNext,
                st.meetingNodes, st.bestDistance⟩).1.best }
          hokF' hbo hcntF' hbc hndN' hbnd hsumF' hbsum hbest' hmeet' rfl
          hbnil (by omega) (by omega)
    | false =>
      rw [bfsLoop_expand_bwd hemp hbn' hhop hef]
      rw [if_neg (fun h => Bool.noConfusion
        ((@processNodes_true_no_exit false (B + 1) st.fwdVisited followers
          st.bwdCurrent ⟨st.bwdVisited, st.bwdNext, st.meetingNodes,
            st.bestDistance⟩) ▸ h))]
      by_cases hcross : F + (B + 1) = D
      · have htotH : ∀ p ∈ st.bwdCurrent, ∀ nb ∈ followers.getD p [],
            ∀ dOpp cOpp, st.fwdVisited nb = some (dOpp, cOpp) →
            (B + 1) + dOpp = D := by
          intro p hp nb hnb dOpp cOpp hopp
          have hLp := (hbo.2.2 p).mp hp
          have hrpt : reachN follows B p t = true := by
            rw [← reachN_followers_eq hdual]
            exact hLp.1
          have hedge : p ∈ follows.getD nb [] := (hdual nb p).mpr hnb
          have hr1 : reachN follows 1 nb p = true :=
            reachN_snoc (reachN_zero_self follows nb) hedge
          have hrnbt : reachN follows (1 + B) nb t = true :=
            reachN_trans hr1 hrpt
          have hvd : visDepth st.fwdVisited nb = some dOpp := by
            unfold visDepth
            rw [hopp]
            rfl
          obtain ⟨hLnb, hdF⟩ := hfo.1 nb dOpp hvd
          have htot : reachN follows (dOpp + (1 + B)) s t = true :=
            reachN_trans hLnb.1 hrnbt
          have hge : ¬(dOpp + (1 + B) < D) := by
            intro hlt
            rw [hD.2 (dOpp + (1 + B)) hlt] at htot
            exact Bool.noConfusion htot
          omega
        have hstH : ∀ p ∈ st.bwdCurrent, ∃ d0 cv,
            (⟨st.bwdVisited, st.bwdNext, st.meetingNodes, st.bestDistance⟩ :
              SideCtx).ownVisited p = some (d0, cv) ∧ d0 ≠ B + 1 := by
          intro p hp
          obtain ⟨cp, hvp⟩ := sideOk_frontier_entry hbo hp
          exact ⟨B, cp, hvp, by omega⟩
        have hmsH : MSt D ⟨st.bwdVisited, st.bwdNext, st.meetingNodes,
            st.bestDistance⟩ := Or.inl ⟨hbest, hmeet0⟩
        obtain ⟨hmEq, hms'⟩ := @processNodes_crossing false (B + 1) D
          st.fwdVisited followers st.bwdCurrent
          ⟨st.bwdVisited, st.bwdNext, st.meetingNodes, st.bestDistance⟩
          hstH htotH hmsH
        obtain ⟨u, huL, hurest⟩ :=
          exists_level_vertex hDbwd (show B + 1 ≤ D by omega)
        obtain ⟨w, hwL, hedge⟩ := LR_succ_pred huL
        have hw : w ∈ st.bwdCurrent := (hbo.2.2 w).mpr hwL
        have hrsu : reachN follows (D - (B + 1)) s u = true := by
          rw [← reachN_followers_eq hdual]
          exact hurest
        obtain ⟨d', hd'le, hLu'⟩ := exists_LR_of_reachN hrsu
        have hvdu : visDepth st.fwdVisited u = some d' :=
          hfo.2.1 u d' (by omega) hLu'
        have hmet := @processNodes_met_isSome false true (B + 1) st.fwdVisited
          followers st.bwdCurrent ⟨st.bwdVisited, st.bwdNext, st.meetingNodes,
            st.bestDistance⟩ w u hw hedge (visDepth_isSome hvdu)
        rcases hms' with ⟨hbn2, _⟩ | hbD
        · rw [hbn2] at hmet
          simp at hmet
        · have hper : ∀ p ∈ st.bwdCurrent,
              ((followers.getD p []).map (fun nb =>
                match st.fwdVisited nb with
                | some q => ((st.bwdVisited p).getD (0, 0)).2 * q.2
                | none => 0)).sum % U64MOD =
              (walksN followers B t p * walksN followers (D - B) p s) %
                U64MOD := by
            intro p hp
            obtain ⟨cp, hvp⟩ := sideOk_frontier_entry hbo hp
            have hcp := hbc p B cp hvp
            have hnbC : ∀ nb ∈ followers.getD p [],
                (match st.fwdVisited nb with
                 | some q => ((st.bwdVisited p).getD (0, 0)).2 * q.2
                 | none => 0) % U64MOD =
                (walksN followers B t p *
                  walksN followers (D - (B + 1)) nb s) % U64MOD := by
              intro nb hnbm
              cases hbv : st.fwdVisited nb with
              | none =>
                have hzero : walksN followers (D - (B + 1)) nb s = 0 := by
                  by_contra hnz
                  have hpos := Nat.pos_of_ne_zero hnz
                  have hr := walksN_pos_iff.mp hpos
                  rw [reachN_followers_eq hdual] at hr
                  obtain ⟨e, he, hLe⟩ := exists_LR_of_reachN hr
                  have hvd := hfo.2.1 nb e (by omega) hLe
                  unfold visDepth at hvd
                  rw [hbv] at hvd
                  exact Option.noConfusion hvd
                show 0 % U64MOD = _
                rw [hzero, Nat.mul_zero]
              | some q =>
                obtain ⟨dOpp, cOpp⟩ := q
                have hdF' : dOpp = D - (B + 1) := by
                  have := htotH p hp nb hnbm dOpp cOpp hbv
                  omega
                have hcOpp := hfc nb dOpp cOpp hbv
                subst hdF'
                show (((st.bwdVisited p).getD (0, 0)).2 * cOpp) % U64MOD = _
                rw [hvp]
                show (cp * cOpp) % U64MOD = _
                refine mul_mod_congr ?_ ?_
                · rw [hcp, Nat.mod_eq_of_lt (Nat.mod_lt _ u64mod_pos)]
                · rw [hcOpp,
                    ← walksN_transpose hdual hndF hndB (D - (B + 1)) s nb,
                    Nat.mod_eq_of_lt (Nat.mod_lt _ u64mod_pos)]
            refine (sum_map_mod_congr hnbC).trans ?_
            rw [sum_map_mul_left]
            have hDB : D - B = (D - (B + 1)) + 1 := by omega
            rw [hDB, walksN_succ]
          have hsum : (((meetRows false st.fwdVisited st.bwdVisited followers
              st.bwdCurrent).map (fun m => m.2.1 * m.2.2)).sum) % U64MOD =
              walksN follows D s t % U64MOD := by
            rw [meetRows_prod_sum]
            refine (sum_map_mod_congr hper).trans ?_
            rw [hbsum, walksN_transpose hdual hndF hndB D s t]
          have hred : ∀ fl, bfsLoop follows followers maxHops true fl
              F (B + 1)
              { st with
                bwdVisited := (processNodes false true (B + 1) st.fwdVisited
                  followers st.bwdCurrent ⟨st.bwdVisited, st.bwdNext,
                    st.meetingNodes, st.bestDistance⟩).1.ownVisited
                bwdCurrent := (processNodes false true (B + 1) st.fwdVisited
                  followers st.bwdCurrent ⟨st.bwdVisited, st.bwdNext,
                    st.meetingNodes, st.bestDistance⟩).1.ownNext
                bwdNext := []
                meetingNodes := (processNodes false true (B + 1) st.fwdVisited
                  followers st.bwdCurrent ⟨st.bwdVisited, st.bwdNext,
                    st.meetingNodes, st.bestDistance⟩).1.meeting
                bestDistance := (processNodes false true (B + 1) st.fwdVisited
                  followers st.bwdCurrent ⟨st.bwdVisited, st.bwdNext,
                    st.meetingNodes, st.bestDistance⟩).1.best } =
              { st with
                bwdVisited := (processNodes false true (B + 1) st.fwdVisited
                  followers st.bwdCurrent ⟨st.bwdVisited, st.bwdNext,
                    st.meetingNodes, st.bestDistance⟩).1.ownVisited
                bwdCurrent := (processNodes false true (B + 1) st.fwdVisited
                  followers st.bwdCurrent ⟨st.bwdVisited, st.bwdNext,
                    st.meetingNodes, st.bestDistance⟩).1.ownNext
                bwdNext := []
                meetingNodes := (processNodes false true (B + 1) st.fwdVisited
                  followers st.bwdCurrent ⟨st.bwdVisited, st.bwdNext,
                    st.meetingNodes, st.bestDistance⟩).1.meeting
                bestDistance := (processNodes false true (B + 1) st.fwdVisited
                  followers st.bwdCurrent ⟨st.bwdVisited, st.bwdNext,
                    st.meetingNodes, st.bestDistance⟩).1.best } := by
            intro fl
            cases fl with
            | zero => rfl
            | succ fl2 => exact bfsLoop_stopBest hbD (by omega)
          rw [hred fuel]
          refine ⟨hbD, ?_⟩
          show (((processNodes false true (B + 1) st.fwdVisited followers
            st.bwdCurrent ⟨st.bwdVisited, st.bwdNext, st.meetingNodes,
              st.bestDistance⟩).1.meeting).map
            (fun m => m.2.1 * m.2.2)).sum % U64MOD = _
          rw [hmEq, show (⟨st.bwdVisited, st.bwdNext, st.meetingNodes,
            st.bestDistance⟩ : SideCtx).meeting =
            ([] : List (Nat × Nat × Nat)) from hmeet0, List.nil_append]
          exact hsum
      · have hnm : ∀ p ∈ st.bwdCurrent, ∀ nb ∈ followers.getD p [],
            st.fwdVisited nb = none := by
          intro p hp nb hnb
          cases hv : st.fwdVisited nb with
          | none => rfl
          | some v =>
            exfalso
            obtain ⟨dOpp, pp⟩ := v
            obtain ⟨hLnb, hdF⟩ := hfo.1 nb dOpp (visDepth_some hv)
            have hLp := (hbo.2.2 p).mp hp
            have hrpt : reachN follows B p t = true := by
              rw [← reachN_followers_eq hdual]
              exact hLp.1
            have hedge : p ∈ follows.getD nb [] := (hdual nb p).mpr hnb
            have hr1 : reachN follows 1 nb p = true :=
              reachN_snoc (reachN_zero_self follows nb) hedge
            have htot : reachN follows (dOpp + (1 + B)) s t = true :=
              reachN_trans hLnb.1 (reachN_trans hr1 hrpt)
            rw [hD.2 (dOpp + (1 + B)) (by omega)] at htot
            exact Bool.noConfusion htot
        have hpn := @processNodes_nomeet false true (B + 1) st.fwdVisited
          followers st.bwdCurrent ⟨st.bwdVisited, st.bwdNext, st.meetingNodes,
            st.bestDistance⟩ hnm
        have hokB' := @sideOk_advance false true followers st.fwdVisited t B
          st.bwdCurrent ⟨st.bwdVisited, st.bwdNext, st.meetingNodes,
            st.bestDistance⟩ hbo hbnil hnm
        have hcntB' : SideCnt followers t
            ((processNodes false true (B + 1) st.fwdVisited followers
              st.bwdCurrent ⟨st.bwdVisited, st.bwdNext, st.meetingNodes,
                st.bestDistance⟩).1.ownVisited) := by
          rw [hpn]
          exact sideCnt_expand hdualR hndB hndF hbo hbc hbnd
        have hndN' : ((processNodes false true (B + 1) st.fwdVisited followers
            st.bwdCurrent ⟨st.bwdVisited, st.bwdNext, st.meetingNodes,
              st.bestDistance⟩).1.ownNext).Nodup := by
          rw [hpn]
          refine (@expandPure_nodup_next (B + 1) followers st.bwdCurrent
            ⟨st.bwdVisited, st.bwdNext, st.meetingNodes, st.bestDistance⟩
            ?_ ?_).1
          · show st.bwdNext.Nodup
            rw [hbnil]
            exact List.nodup_nil
          · intro u hu
            have hu' : u ∈ st.bwdNext := hu
            rw [hbnil] at hu'
            exact absurd hu' (List.not_mem_nil u)
        have hsumB' : (((processNodes false true (B + 1) st.fwdVisited
            followers st.bwdCurrent ⟨st.bwdVisited, st.bwdNext,
              st.meetingNodes, st.bestDistance⟩).1.ownNext).map (fun p =>
            walksN followers (B + 1) t p *
              walksN followers (D - (B + 1)) p s)).sum =
            walksN followers D t s :=
          (walksN_step_sum hdualR hndB hndF hDbwd (by omega)
            (fun p => hbo.2.2 p) hbnd (fun p => hokB'.2.2 p) hndN').symm.trans
            hbsum
        have hbest' : (processNodes false true (B + 1) st.fwdVisited followers
            st.bwdCurrent ⟨st.bwdVisited, st.bwdNext, st.meetingNodes,
              st.bestDistance⟩).1.best = none := by
          rw [hpn]
          exact (expandPure_best (B + 1) followers st.bwdCurrent
            ⟨st.bwdVisited, st.bwdNext, st.meetingNodes,
              st.bestDistance⟩).trans hbest
        have hmeet' : (processNodes false true (B + 1) st.fwdVisited followers
            st.bwdCurrent ⟨st.bwdVisited, st.bwdNext, st.meetingNodes,
              st.bestDistance⟩).1.meeting = [] := by
          rw [hpn]
          exact (expandPure_meeting (B + 1) followers st.bwdCurrent
            ⟨st.bwdVisited, st.bwdNext, st.meetingNodes,
              st.bestDistance⟩).trans hmeet0
        exact @ih F (B + 1)
          { st with
            bwdVisited := (processNodes false true (B + 1) st.fwdVisited
              followers st.bwdCurrent ⟨st.bwdVisited, st.bwdNext,
                st.meetingNodes, st.bestDistance⟩).1.ownVisited
            bwdCurrent := (processNodes false true (B + 1) st.fwdVisited
              followers st.bwdCurrent ⟨st.bwdVisited, st.bwdNext,
                st.meetingNodes, st.bestDistance⟩).1.ownNext
            bwdNext := []
            meetingNodes := (processNodes false true (B + 1) st.fwdVisited
              followers st.bwdCurrent ⟨st.bwdVisited, st.bwdNext,
                st.meetingNodes, st.bestDistance⟩).1.meeting
            bestDistance := (processNodes false true (B + 1) st.fwdVisited
              followers st.bwdCurrent ⟨st.bwdVisited, st.bwdNext,
                st.meetingNodes, st.bestDistance⟩).1.best }
          hfo hokB' hfc hcntB' hfnd hndN' hfsum hsumB' hbest' hmeet' hfnil
          rfl (by omega) (by omega)

/-! ### From the loop's meeting list to `path_count` -/

theorem one_lt_u64mod : 1 < U64MOD := by
  unfold U64MOD
  norm_num

/-- The finalizer's reported `path_count` is the wrapping product sum over
the meeting list. -/
theorem bfsFinalize_pathCount {g : WotGraph} {fromPk toPk : String}
    {maxHops : Nat} {ib mf : Bool} {st : BfsState} {D : Nat}
    (hb : st.bestDistance = some D) (hle : D % 256 ≤ maxHops) :
    (bfsFinalize g fromPk toPk maxHops ib mf st).pathCount =
      (st.meetingNodes.map (fun m => m.2.1 * m.2.2)).sum % U64MOD := by
  unfold bfsFinalize
  rw [hb]
  dsimp only
  rw [if_pos hle]
  show st.meetingNodes.foldl (fun acc m => u64add acc (u64mul m.2.1 m.2.2)) 0 = _
  rw [foldl_u64_sum st.meetingNodes 0 u64mod_pos, Nat.zero_add]

/-- `compute_distance` on a store-reachable graph with
`include_bridges = true`: for distinct known labels at exact shortest
distance `D ≤ max_hops ≤ 255`, the reported `hops` is `D` and the reported
`path_count` is the number of geodesic (length-`D`) walks from `s` to `t`,
reduced modulo `2^64`. -/
theorem pathCount_eq_walks {g : WotGraph} {q : DistanceQuery} {s t D : Nat}
    (hre : Reachable g) (hne : q.fromPk ≠ q.toPk)
    (hs : lookupId g.idToPubkey q.fromPk = some s)
    (ht : lookupId g.idToPubkey q.toPk = some t)
    (hib : q.includeBridges = true)
    (hD : LR g.follows s t D) (hD1 : 1 ≤ D) (hDle : D ≤ q.maxHops)
    (hmax : q.maxHops ≤ 255) :
    (computeDistance g q).hops = some D ∧
    (computeDistance g q).pathCount = walksN g.follows D s t % U64MOD := by
  have hinv := inv_reachable hre
  have hdual := hinv.2.2.2
  have hndF : ∀ i, (g.follows.getD i []).Nodup :=
    fun i => nodup_of_chain'_lt (hinv.1.2 i).1
  have hndB : ∀ i, (g.followers.getD i []).Nodup :=
    fun i => nodup_of_chain'_lt (hinv.2.1.2 i).1
  by_cases hdir : t ∈ g.follows.getD s []
  · have hDeq : D = 1 := by
      have hr1 : reachN g.follows 1 s t = true := reachN_one_iff.mpr hdir
      have hn : ¬(1 < D) := by
        intro h
        rw [hD.2 1 h] at hr1
        exact Bool.noConfusion hr1
      omega
    subst hDeq
    rw [computeDistance_direct hne hs ht (contains_iff_mem.mpr hdir)]
    refine ⟨rfl, ?_⟩
    show (1 : Nat) = walksN g.follows 1 s t % U64MOD
    have hw1 : walksN g.follows 1 s t = 1 := by
      rw [walksN_succ]
      have he : ((g.follows.getD s []).map (fun w => walksN g.follows 0 w t)) =
          ((g.follows.getD s []).map (fun w => if w = t then 1 else 0)) :=
        List.map_congr_left (fun w _ => rfl)
      rw [he, sum_map_indicator (hndF s), if_pos hdir]
    rw [hw1, Nat.mod_eq_of_lt one_lt_u64mod]
  · have hD2 : 2 ≤ D := by
      rcases Nat.lt_or_ge D 2 with h | h
      · exfalso
        have hDeq : D = 1 := by omega
        subst hDeq
        exact hdir (reachN_one_iff.mp hD.1)
      · exact h
    rw [computeDistance_not_direct hne hs ht
      (by
        cases hc : (g.follows.getD s []).contains t with
        | false => rfl
        | true => exact absurd (contains_iff_mem.mp hc) hdir)]
    unfold bidirectionalBfs
    rw [hib]
    obtain ⟨hbestD, hsumD⟩ := @bfsLoop_counts g.follows g.followers q.maxHops
      s t D hdual hndF hndB hD hDle hmax
      (bfsFuel g.follows g.followers q.maxHops) 0 0 (initialBfsState s t)
      (sideOk_seed g.follows s) (sideOk_seed g.followers t)
      (by
        intro u d c hv
        unfold initialBfsState mapInsert at hv
        dsimp only at hv
        by_cases hus : u = s
        · rw [if_pos hus] at hv
          have hp := Option.some.inj hv
          have hdd : (0 : Nat) = d := congrArg Prod.fst hp
          have hcc : (1 : Nat) = c := congrArg Prod.snd hp
          rw [← hcc, ← hdd, hus]
          show (1 : Nat) = (if s = s then 1 else 0) % U64MOD
          rw [if_pos rfl, Nat.mod_eq_of_lt one_lt_u64mod]
        · rw [if_neg hus] at hv
          exact Option.noConfusion hv)
      (by
        intro u d c hv
        unfold initialBfsState mapInsert at hv
        dsimp only at hv
        by_cases hut : u = t
        · rw [if_pos hut] at hv
          have hp := Option.some.inj hv
          have hdd : (0 : Nat) = d := congrArg Prod.fst hp
          have hcc : (1 : Nat) = c := congrArg Prod.snd hp
          rw [← hcc, ← hdd, hut]
          show (1 : Nat) = (if t = t then 1 else 0) % U64MOD
          rw [if_pos rfl, Nat.mod_eq_of_lt one_lt_u64mod]
        · rw [if_neg hut] at hv
          exact Option.noConfusion hv)
      (List.nodup_cons.mpr ⟨List.not_mem_nil s, List.nodup_nil⟩)
      (List.nodup_cons.mpr ⟨List.not_mem_nil t, List.nodup_nil⟩)
      (by
        show walksN g.follows 0 s s * walksN g.follows (D - 0) s t + 0 = _
        rw [Nat.sub_zero, Nat.add_zero]
        show (if s = s then 1 else 0) * _ = _
        rw [if_pos rfl, Nat.one_mul])
      (by
        show walksN g.followers 0 t t * walksN g.followers (D - 0) t s + 0 = _
        rw [Nat.sub_zero, Nat.add_zero]
        show (if t = t then 1 else 0) * _ = _
        rw [if_pos rfl, Nat.one_mul])
      rfl rfl rfl rfl (by omega) (by unfold bfsFuel; omega)
    have hDmod : D % 256 ≤ q.maxHops := by
      rw [Nat.mod_eq_of_lt (show D < 256 by omega)]
      exact hDle
    exact ⟨bfsFinalize_hops_of_best hbestD hDmod,
      (bfsFinalize_pathCount hbestD hDmod).trans hsumD⟩

/-- C3 (amended): for every store-reachable graph — no DAG restriction
needed, since a walk whose length equals the exact shortest distance `D`
never repeats a vertex — and every query with `include_bridges = true`
over distinct known labels whose exact shortest distance `D` satisfies
`1 ≤ D ≤ max_hops ≤ 255`, `compute_distance` reports `hops = D` and a
`path_count` equal to the number of distinct shortest directed paths
(formalised as `walksN`, the number of length-`D` walks) reduced modulo
`2^64` — the sum over meeting entries of forward times backward path
counts, computed in wrapping u64 arithmetic. -/
theorem c3_path_count (g : WotGraph) (q : DistanceQuery) {s t D : Nat}
    (hre : Reachable g) (hne : q.fromPk ≠ q.toPk)
    (hs : lookupId g.idToPubkey q.fromPk = some s)
    (ht : lookupId g.idToPubkey q.toPk = some t)
    (hib : q.includeBridges = true)
    (hD : LR g.follows s t D) (hD1 : 1 ≤ D) (hDle : D ≤ q.maxHops)
    (hmax : q.maxHops ≤ 255) :
    (computeDistance g q).hops = some D ∧
    (computeDistance g q).pathCount = walksN g.follows D s t % U64MOD :=
  pathCount_eq_walks hre hne hs ht hib hD hD1 hDle hmax

/-- Two geodesics `A → B → D` and `A → C → D`. -/
def gDiamond : WotGraph :=
  (updateFollows (updateFollows (updateFollows WotGraph.new
    "A" ["B", "C"] none none).2 "B" ["D"] none none).2 "C" ["D"] none none).2

/-- C3, witness: on the two-path diamond the query `(A, D)` reports
`hops = 2` and `path_count = 2`, the number of shortest paths. -/
theorem c3_witness :
    Reachable gDiamond ∧
    (computeDistance gDiamond ⟨"A", "D", 5, true⟩).hops = some 2 ∧
    (computeDistance gDiamond ⟨"A", "D", 5, true⟩).pathCount = 2 := by
  have hre : Reachable gDiamond :=
    Reachable.update _ "C" ["D"] none none
      (Reachable.update _ "B" ["D"] none none
        (Reachable.update _ "A" ["B", "C"] none none Reachable.new))
  have h := @c3_path_count gDiamond ⟨"A", "D", 5, true⟩ 0 3 2 hre
    (by decide) rfl rfl rfl (by unfold LR; decide) (by decide) (by decide)
    (by decide)
  exact ⟨hre, h.1, h.2.trans (by decide)⟩

/-! ### A chain of `K` diamonds: `2^K` shortest paths -/

/-- Adjacency of the diamond chain with terminal vertex `3 * K`: each hub
`3 * i` splits to `3 * i + 1` and `3 * i + 2`, which both rejoin at the
next hub `3 * (i + 1)`. -/
def dAdjF (K n : Nat) : List Nat :=
  if n = 3 * K then []
  else if n % 3 = 0 then [n + 1, n + 2]
  else [n / 3 * 3 + 3]

def dAdj (K : Nat) : List (List Nat) := (List.range (3 * K + 1)).map (dAdjF K)

theorem getD_range_map (f : Nat → List Nat) (n i : Nat) :
    ((List.range n).map f).getD i [] = if i < n then f i else [] := by
  by_cases h : i < n
  · rw [if_pos h, List.getD_eq_getElem?_getD, List.getElem?_map,
      List.getElem?_range h]
    rfl
  · rw [if_neg h]
    apply List.getD_eq_default
    rw [List.length_map, List.length_range]
    omega

theorem dAdjF_hub {K i : Nat} (h : i < K) :
    dAdjF K (3 * i) = [3 * i + 1, 3 * i + 2] := by
  unfold dAdjF
  rw [if_neg (by omega), if_pos (by omega)]

theorem dAdjF_mid1 {K i : Nat} :
    dAdjF K (3 * i + 1) = [3 * (i + 1)] := by
  unfold dAdjF
  rw [if_neg (by omega), if_neg (by omega)]
  congr 1
  omega

theorem dAdjF_mid2 {K i : Nat} :
    dAdjF K (3 * i + 2) = [3 * (i + 1)] := by
  unfold dAdjF
  rw [if_neg (by omega), if_neg (by omega)]
  congr 1
  omega

theorem dAdj_getD_hub {K i : Nat} (h : i < K) :
    (dAdj K).getD (3 * i) [] = [3 * i + 1, 3 * i + 2] := by
  unfold dAdj
  rw [getD_range_map, if_pos (by omega), dAdjF_hub h]

theorem dAdj_getD_mid1 {K i : Nat} (h : i < K) :
    (dAdj K).getD (3 * i + 1) [] = [3 * (i + 1)] := by
  unfold dAdj
  rw [getD_range_map, if_pos (by omega), dAdjF_mid1]

theorem dAdj_getD_mid2 {K i : Nat} (h : i < K) :
    (dAdj K).getD (3 * i + 2) [] = [3 * (i + 1)] := by
  unfold dAdj
  rw [getD_range_map, if_pos (by omega), dAdjF_mid2]

/-- Walk-count doubling down the diamond chain: from hub `3 * i` there are
exactly `2 ^ m` walks of length `2 * m` to the terminal, where `m = K - i`
diamonds remain. -/
theorem dAdj_walks (K : Nat) :
    ∀ m i, i + m = K → walksN (dAdj K) (2 * m) (3 * i) (3 * K) = 2 ^ m := by
  intro m
  induction m with
  | zero =>
    intro i hi
    have hiK : K = i := by omega
    subst hiK
    show (if 3 * K = 3 * K then 1 else 0) = 1
    rw [if_pos rfl]
  | succ m ih =>
    intro i hi
    have hiK : i < K := by omega
    have h2 : 2 * (m + 1) = (2 * m + 1) + 1 := by omega
    rw [h2, walksN_succ, dAdj_getD_hub hiK]
    show walksN (dAdj K) (2 * m + 1) (3 * i + 1) (3 * K) +
      (walksN (dAdj K) (2 * m + 1) (3 * i + 2) (3 * K) + 0) = 2 ^ (m + 1)
    have e1 : walksN (dAdj K) (2 * m + 1) (3 * i + 1) (3 * K) = 2 ^ m := by
      rw [walksN_succ, dAdj_getD_mid1 hiK]
      show walksN (dAdj K) (2 * m) (3 * (i + 1)) (3 * K) + 0 = 2 ^ m
      rw [Nat.add_zero]
      exact ih (i + 1) (by omega)
    have e2 : walksN (dAdj K) (2 * m + 1) (3 * i + 2) (3 * K) = 2 ^ m := by
      rw [walksN_succ, dAdj_getD_mid2 hiK]
      show walksN (dAdj K) (2 * m) (3 * (i + 1)) (3 * K) + 0 = 2 ^ m
      rw [Nat.add_zero]
      exact ih (i + 1) (by omega)
    rw [e1, e2, Nat.pow_succ]
    omega

/-- BFS level of each chain vertex: hubs sit at even levels, the two
diamond middles one level later. -/
def dLevel (n : Nat) : Nat := 2 * (n / 3) + (if n % 3 = 0 then 0 else 1)

/-- Every chain edge advances the level by exactly one. -/
theorem dAdj_level_step {K : Nat} : ∀ u v, v ∈ (dAdj K).getD u [] →
    dLevel v = dLevel u + 1 := by
  intro u v hv
  unfold dAdj at hv
  rw [getD_range_map] at hv
  by_cases hu : u < 3 * K + 1
  · rw [if_pos hu] at hv
    unfold dAdjF at hv
    by_cases hend : u = 3 * K
    · rw [if_pos hend] at hv
      exact absurd hv (List.not_mem_nil v)
    · rw [if_neg hend] at hv
      by_cases hmod : u % 3 = 0
      · rw [if_pos hmod] at hv
        rcases List.mem_cons.mp hv with rfl | hv2
        · unfold dLevel
          rw [if_pos hmod, if_neg (show ¬((u + 1) % 3 = 0) by omega)]
          omega
        · have hv3 : v = u + 2 := List.mem_singleton.mp hv2
          subst hv3
          unfold dLevel
          rw [if_pos hmod, if_neg (show ¬((u + 2) % 3 = 0) by omega)]
          omega
      · rw [if_neg hmod] at hv
        have hv3 : v = u / 3 * 3 + 3 := List.mem_singleton.mp hv
        subst hv3
        unfold dLevel
        rw [if_neg hmod, if_pos (show (u / 3 * 3 + 3) % 3 = 0 by omega)]
        omega
  · rw [if_neg hu] at hv
    exact absurd hv (List.not_mem_nil v)

/-- When every edge advances a level function by exactly one, any walk of
length `e` advances it by exactly `e`. -/
theorem reachN_level {adj : List (List Nat)} {lv : Nat → Nat}
    (hlv : ∀ u v, v ∈ adj.getD u [] → lv v = lv u + 1) :
    ∀ {e u v}, reachN adj e u v = true → lv v = lv u + e := by
  intro e
  induction e with
  | zero =>
    intro u v h
    have huv : u = v := by simpa [reachN] using h
    subst huv
    rfl
  | succ e ih =>
    intro u v h
    have h' : (adj.getD u []).any (fun w => reachN adj e w v) = true := h
    obtain ⟨w, hw, hr⟩ := List.any_eq_true.mp h'
    have h1 := hlv u w hw
    have h2 := ih hr
    omega

/-- Exact shortest distance across the diamond chain. -/
theorem dAdj_LR (K : Nat) : LR (dAdj K) 0 (3 * K) (2 * K) := by
  constructor
  · have hw : walksN (dAdj K) (2 * K) 0 (3 * K) = 2 ^ K :=
      dAdj_walks K K 0 (by omega)
    exact walksN_pos_iff.mp (by
      rw [hw]
      exact Nat.pos_pow_of_pos K (by decide))
  · intro e he
    cases hre : reachN (dAdj K) e 0 (3 * K) with
    | false => rfl
    | true =>
      exfalso
      have h := reachN_level dAdj_level_step hre
      have h3K : dLevel (3 * K) = 2 * K := by
        unfold dLevel
        rw [if_pos (by omega)]
        omega
      have h0 : dLevel 0 = 0 := by
        unfold dLevel
        rw [if_pos (by omega)]
      omega

/-- Every chain edge goes strictly upward in vid order, so the chain is a
DAG. -/
theorem dAdj_mono {K u v : Nat} (hv : v ∈ (dAdj K).getD u []) : u < v := by
  unfold dAdj at hv
  rw [getD_range_map] at hv
  by_cases hu : u < 3 * K + 1
  · rw [if_pos hu] at hv
    unfold dAdjF at hv
    by_cases h1 : u = 3 * K
    · rw [if_pos h1] at hv
      exact absurd hv (List.not_mem_nil v)
    · rw [if_neg h1] at hv
      by_cases h2 : u % 3 = 0
      · rw [if_pos h2] at hv
        rcases List.mem_cons.mp hv with rfl | hv2
        · omega
        · have := List.mem_singleton.mp hv2
          omega
      · rw [if_neg h2] at hv
        have := List.mem_singleton.mp hv
        omega
  · rw [if_neg hu] at hv
    exact absurd hv (List.not_mem_nil v)

/-- Targets of a non-terminal chain vertex stay within the vertex range. -/
theorem dAdjF_mem_lt {K j x : Nat} (hj : j ≤ 3 * K) (hx : x ∈ dAdjF K j) :
    x < 3 * K + 1 := by
  unfold dAdjF at hx
  by_cases h1 : j = 3 * K
  · rw [if_pos h1] at hx
    exact absurd hx (List.not_mem_nil x)
  · rw [if_neg h1] at hx
    by_cases h2 : j % 3 = 0
    · rw [if_pos h2] at hx
      rcases List.mem_cons.mp hx with rfl | hx2
      · omega
      · have := List.mem_singleton.mp hx2
        omega
    · rw [if_neg h2] at hx
      have := List.mem_singleton.mp hx
      omega

/-! ### Building the diamond chain through the store interface -/

/-- Label of chain vertex `i`: `i` copies of `'a'` (injective by length). -/
def lab (i : Nat) : String := String.mk (List.replicate i 'a')

theorem lab_inj {i j : Nat} (h : lab i = lab j) : i = j := by
  have h2 : List.replicate i 'a' = List.replicate j 'a' := congrArg String.data h
  have h3 := congrArg List.length h2
  simpa using h3

theorem lookupId_eq_none_of_not_mem :
    ∀ {l : List String} {pk : String}, pk ∉ l → lookupId l pk = none := by
  intro l
  induction l with
  | nil => intro pk _; rfl
  | cons p ps ih =>
    intro pk hpk
    unfold lookupId
    rw [if_neg (fun h => hpk (by rw [← h]; exact List.mem_cons_self _ _)),
      ih (fun h => hpk (List.mem_cons_of_mem _ h))]
    rfl

theorem lookupId_range_lab {n i : Nat} (h : i < n) :
    lookupId ((List.range n).map lab) (lab i) = some i := by
  induction n with
  | zero => omega
  | succ n ihn =>
    rw [List.range_succ, List.map_append]
    by_cases hin : i < n
    · exact lookupId_append_some (ihn hin)
    · have hi : i = n := by omega
      subst hi
      have hfresh : lookupId ((List.range i).map lab) (lab i) = none := by
        refine lookupId_eq_none_of_not_mem (fun hmem => ?_)
        obtain ⟨x, hx, hlx⟩ := List.mem_map.mp hmem
        have := lab_inj hlx
        subst this
        exact absurd (List.mem_range.mp hx) (Nat.lt_irrefl x)
      have happ := lookupId_append_fresh hfresh
      rw [List.map_cons, List.map_nil, happ]
      congr 1
      rw [List.length_map, List.length_range]

theorem lab_not_mem_range {n : Nat} : lab n ∉ (List.range n).map lab := by
  intro hmem
  obtain ⟨x, hx, hlx⟩ := List.mem_map.mp hmem
  have := lab_inj hlx
  subst this
  exact absurd (List.mem_range.mp hx) (Nat.lt_irrefl x)

theorem getOrCreateNode_fresh {g : WotGraph} {pk : String}
    (h : lookupId g.idToPubkey pk = none) :
    (getOrCreateNode g pk).2 = ⟨g.idToPubkey ++ [pk], g.follows ++ [[]],
      g.followers ++ [[]], g.nodeInfo ++ [none]⟩ := by
  unfold getOrCreateNode
  rw [h]

theorem getOrCreateNode_existing {g : WotGraph} {pk : String} {i : Nat}
    (h : lookupId g.idToPubkey pk = some i) :
    getOrCreateNode g pk = (i, g) := by
  unfold getOrCreateNode
  rw [h]

/-- First pass: intern the `n` labels in order, so label `i` gets vid `i`. -/
def mkNodes (n : Nat) : WotGraph :=
  (List.range n).foldl (fun g i => (getOrCreateNode g (lab i)).2) WotGraph.new

theorem mkNodes_spec (n : Nat) :
    mkNodes n = ⟨(List.range n).map lab, List.replicate n [],
      List.replicate n [], List.replicate n none⟩ := by
  induction n with
  | zero => rfl
  | succ n ihn =>
    unfold mkNodes
    rw [List.range_succ, List.foldl_append, List.foldl_cons, List.foldl_nil]
    show (getOrCreateNode (mkNodes n) (lab n)).2 = _
    rw [ihn]
    rw [getOrCreateNode_fresh (show lookupId ((List.range n).map lab)
      (lab n) = none from lookupId_eq_none_of_not_mem lab_not_mem_range)]
    dsimp only
    have e1 : (List.range n ++ [n]).map lab =
        (List.range n).map lab ++ [lab n] := by
      rw [List.map_append, List.map_cons, List.map_nil]
    have e2 : List.replicate (n + 1) ([] : List Nat) =
        List.replicate n [] ++ [[]] := by
      rw [List.replicate_succ']
    have e3 : List.replicate (n + 1) (none : Option NodeInfo) =
        List.replicate n none ++ [none] := by
      rw [List.replicate_succ']
    rw [e1, e2, e3]

theorem internFollows_existing {g : WotGraph} :
    ∀ {ids : List Nat}, (∀ x ∈ ids, lookupId g.idToPubkey (lab x) = some x) →
      internFollows g (ids.map lab) = (ids, g) := by
  intro ids
  induction ids with
  | nil => intro _; rfl
  | cons x rest ih =>
    intro h
    rw [List.map_cons]
    unfold internFollows
    rw [getOrCreateNode_existing (h x (List.mem_cons_self _ _))]
    dsimp only
    rw [ih (fun y hy => h y (List.mem_cons_of_mem _ hy))]

/-- A `created_at = None` update on a store where the subject and every
target already resolve: just the write phase at the resolved vids. -/
theorem updateFollows_existing {g : WotGraph} {i : Nat} {ids : List Nat}
    (hsub : lookupId g.idToPubkey (lab i) = some i)
    (htgt : ∀ x ∈ ids, lookupId g.idToPubkey (lab x) = some x) :
    (updateFollows g (lab i) (ids.map lab) none none).2 =
      applyUpdate g i (sortDedup ids) none none := by
  unfold updateFollows
  rw [getOrCreateNode_existing hsub]
  dsimp only
  rw [staleCheck_noTimestamp, internFollows_existing htgt]
  rfl

theorem sortDedup_dAdjF (K i : Nat) : sortDedup (dAdjF K i) = dAdjF K i := by
  unfold dAdjF
  by_cases h1 : i = 3 * K
  · rw [if_pos h1]
    rfl
  · rw [if_neg h1]
    by_cases h2 : i % 3 = 0
    · rw [if_pos h2]
      show insertSorted (i + 1) (insertSorted (i + 2) []) = [i + 1, i + 2]
      rw [show insertSorted (i + 2) [] = [i + 2] from rfl,
        insertSorted_cons_lt [] (by omega)]
    · rw [if_neg h2]
      rfl

theorem getD_replicate_nil (n u : Nat) :
    (List.replicate n ([] : List Nat)).getD u [] = [] := by
  by_cases h : u < n
  · rw [List.getD_eq_getElem?_getD, List.getElem?_replicate, if_pos h]
    rfl
  · apply List.getD_eq_default
    rw [List.length_replicate]
    omega

theorem list_ext_getD {l1 l2 : List (List Nat)} (hlen : l1.length = l2.length)
    (h : ∀ i, i < l1.length → l1.getD i [] = l2.getD i []) : l1 = l2 := by
  apply List.ext_getElem hlen
  intro i h1 h2
  have hi := h i h1
  rw [List.getD_eq_getElem?_getD, List.getD_eq_getElem?_getD,
    List.getElem?_eq_getElem h1, List.getElem?_eq_getElem h2] at hi
  exact hi

/-- Second pass: one `update_follows` per vertex, in vid order. -/
def gChain (K : Nat) : WotGraph :=
  (List.range (3 * K + 1)).foldl
    (fun g i => (updateFollows g (lab i) ((dAdjF K i).map lab) none none).2)
    (mkNodes (3 * K + 1))

/-- The state after updating the first `j` vertices: all labels interned in
vid order, the first `j` adjacency rows written, the rest still empty. -/
theorem gChain_inv (K : Nat) : ∀ j, j ≤ 3 * K + 1 →
    (((List.range j).foldl (fun g i =>
        (updateFollows g (lab i) ((dAdjF K i).map lab) none none).2)
      (mkNodes (3 * K + 1))).idToPubkey =
        (List.range (3 * K + 1)).map lab) ∧
    (((List.range j).foldl (fun g i =>
        (updateFollows g (lab i) ((dAdjF K i).map lab) none none).2)
      (mkNodes (3 * K + 1))).follows.length = 3 * K + 1) ∧
    (∀ u, u < j →
      ((List.range j).foldl (fun g i =>
          (updateFollows g (lab i) ((dAdjF K i).map lab) none none).2)
        (mkNodes (3 * K + 1))).follows.getD u [] = dAdjF K u) ∧
    (∀ u, j ≤ u →
      ((List.range j).foldl (fun g i =>
          (updateFollows g (lab i) ((dAdjF K i).map lab) none none).2)
        (mkNodes (3 * K + 1))).follows.getD u [] = []) := by
  intro j
  induction j with
  | zero =>
    intro _
    rw [List.range_zero, List.foldl_nil, mkNodes_spec]
    refine ⟨rfl, ?_, ?_, ?_⟩
    · show (List.replicate (3 * K + 1) ([] : List Nat)).length = 3 * K + 1
      rw [List.length_replicate]
    · intro u hu
      omega
    · intro u _
      exact getD_replicate_nil _ u
  | succ j ihj =>
    intro hj
    obtain ⟨hid, hlen, hlt, hge⟩ := ihj (by omega)
    rw [List.range_succ, List.foldl_append, List.foldl_cons, List.foldl_nil]
    have hsub : lookupId (((List.range j).foldl (fun g i =>
        (updateFollows g (lab i) ((dAdjF K i).map lab) none none).2)
        (mkNodes (3 * K + 1))).idToPubkey) (lab j) = some j := by
      rw [hid]
      exact lookupId_range_lab (by omega)
    have htgt : ∀ x ∈ dAdjF K j, lookupId (((List.range j).foldl (fun g i =>
        (updateFollows g (lab i) ((dAdjF K i).map lab) none none).2)
        (mkNodes (3 * K + 1))).idToPubkey) (lab x) = some x := by
      intro x hx
      rw [hid]
      exact lookupId_range_lab (dAdjF_mem_lt (by omega) hx)
    rw [updateFollows_existing hsub htgt, sortDedup_dAdjF]
    refine ⟨?_, ?_, ?_, ?_⟩
    · rw [applyUpdate_idToPubkey]
      exact hid
    · rw [applyUpdate_follows, List.length_set]
      exact hlen
    · intro u hu
      rw [applyUpdate_follows]
      by_cases huj : u = j
      · subst huj
        exact getD_set_self _ _ (by omega)
      · rw [getD_set_ne _ _ (fun h => huj h.symm)]
        exact hlt u (by omega)
    · intro u hu
      rw [applyUpdate_follows, getD_set_ne _ _ (by omega)]
      exact hge u (by omega)

theorem gChain_follows (K : Nat) : (gChain K).follows = dAdj K := by
  obtain ⟨hid, hlen, hlt, _⟩ := gChain_inv K (3 * K + 1) (Nat.le_refl _)
  unfold gChain
  refine list_ext_getD ?_ ?_
  · rw [hlen]
    unfold dAdj
    rw [List.length_map, List.length_range]
  · intro u hu
    rw [hlen] at hu
    rw [hlt u hu]
    unfold dAdj
    rw [getD_range_map, if_pos hu]

theorem gChain_lookup (K i : Nat) (h : i < 3 * K + 1) :
    lookupId (gChain K).idToPubkey (lab i) = some i := by
  obtain ⟨hid, _, _, _⟩ := gChain_inv K (3 * K + 1) (Nat.le_refl _)
  show lookupId ((List.range (3 * K + 1)).foldl (fun g i =>
      (updateFollows g (lab i) ((dAdjF K i).map lab) none none).2)
    (mkNodes (3 * K + 1))).idToPubkey (lab i) = some i
  rw [hid]
  exact lookupId_range_lab h

theorem reachable_mkNodes (n : Nat) : Reachable (mkNodes n) := by
  have key : ∀ (l : List Nat) (g : WotGraph), Reachable g →
      Reachable (l.foldl (fun g i => (getOrCreateNode g (lab i)).2) g) := by
    intro l
    induction l with
    | nil => intro g hg; exact hg
    | cons i rest ih =>
      intro g hg
      exact ih _ (Reachable.create g (lab i) hg)
  exact key _ _ Reachable.new

theorem reachable_gChain (K : Nat) : Reachable (gChain K) := by
  have key : ∀ (l : List Nat) (g : WotGraph), Reachable g →
      Reachable (l.foldl (fun g i =>
        (updateFollows g (lab i) ((dAdjF K i).map lab) none none).2) g) := by
    intro l
    induction l with
    | nil => intro g hg; exact hg
    | cons i rest ih =>
      intro g hg
      exact ih _ (Reachable.update g (lab i) _ none none hg)
  exact key _ _ (reachable_mkNodes (3 * K + 1))

/-- The 64-diamond chain: 193 vertices, shortest distance 128, and
`2^64` distinct shortest paths. -/
def gBig : WotGraph := gChain 64

/-- C3, counterexample.  The 64-diamond chain is store-reachable and a DAG
(every edge increases the vid), the query's shortest distance 128 is within
`max_hops = 128`, `include_bridges = true` — yet the number of distinct
shortest paths is `2^64`, while the wrapping u64 product sum returns
`path_count = 0`. -/
theorem c3_counterexample :
    (∀ u v, v ∈ gBig.follows.getD u [] → u < v) ∧
    Reachable gBig ∧
    LR gBig.follows 0 192 128 ∧
    walksN gBig.follows 128 0 192 = 2 ^ 64 ∧
    (computeDistance gBig ⟨lab 0, lab 192, 128, true⟩).hops = some 128 ∧
    (computeDistance gBig ⟨lab 0, lab 192, 128, true⟩).pathCount = 0 ∧
    (0 : Nat) ≠ 2 ^ 64 := by
  have hf : gBig.follows = dAdj 64 := gChain_follows 64
  have hmono : ∀ u v, v ∈ gBig.follows.getD u [] → u < v := by
    intro u v hv
    rw [hf] at hv
    exact dAdj_mono hv
  have hre : Reachable gBig := reachable_gChain 64
  have hLR : LR gBig.follows 0 192 128 := by
    rw [hf]
    exact dAdj_LR 64
  have hwalks : walksN gBig.follows 128 0 192 = 2 ^ 64 := by
    rw [hf]
    exact dAdj_walks 64 64 0 rfl
  have hq := @pathCount_eq_walks gBig ⟨lab 0, lab 192, 128, true⟩ 0 192 128
    hre
    (fun h => by
      have h2 := lab_inj h
      omega)
    (gChain_lookup 64 0 (by omega))
    (gChain_lookup 64 192 (by omega))
    rfl hLR (by omega) (Nat.le_refl 128) ((by decide : (128 : Nat) ≤ 255))
  refine ⟨hmono, hre, hLR, hwalks, hq.1, ?_, ?_⟩
  · rw [hq.2, hwalks]
    unfold U64MOD
    exact Nat.mod_self _
  · intro h
    have hpos : 0 < 2 ^ 64 := Nat.pos_pow_of_pos 64 (by decide)
    omega

end Wot
